import Mathlib

/-!
Verification of the make.py build engine (zwegner/make.py).

This file gives a shallow embedding, in Lean 4, of the parts of `make.py`
that the specification claims talk about: path canonicalization
(`normpath` / `joinpath`), rule signatures (`Rule.signature`), the
discovered-dependency sidecar writer and reader, the command executor
(`run_cmd`), the walk / up-to-date oracle (`build`), the latency
propagation pass (`propagate_latencies`), and the goal check in `main`.

Conventions used by the embedding:
  - Python strings are Lean `String`s; character-level algorithms work on
    `List Char` (a `String` is its list of characters).
  - File mtimes are `Int`; a missing file has mtime `-1`, exactly as in
    `get_timestamp_if_exists`.  The file system is a single map from path
    to an optional (mtime, contents) pair.
  - Machine-level libraries called by the source are themselves embedded:
    `hashlib.sha1` is implemented bit-for-bit (on byte lists, with Nat
    arithmetic mod 2^32); `pickle.dumps` of the signature tuple is
    modelled as a deterministic, injectively tagged serialization.
  - Calls of `exit(1)` and uncaught exceptions are modelled by an
    `aborted` flag on the state; every stateful operation is a no-op once
    the flag is set.
  - Compiled regular expressions supplied by the user (`stdout_filter`)
    are modelled as their match predicate `String → Bool`.  The one
    concrete regex in the source (`^Note: including file:\s*(.*)$`) is
    implemented directly.
-/

namespace MakePy

/-! ## Bit-level helpers and SHA-1 (hashlib.sha1) -/

/-- The modulus for 32-bit words. -/
def M32 : Nat := 4294967296

/-- Rotate a 32-bit word left by `k` bits. -/
def rotl (k n : Nat) : Nat :=
  (((n % M32) <<< k) % M32) ||| ((n % M32) >>> (32 - k))

/-- Big-endian byte encoding of `v` on `n` bytes. -/
def beBytes : Nat → Nat → List Nat
  | 0, _ => []
  | n + 1, v => (v >>> (8 * n)) % 256 :: beBytes n v

/-- Group a byte list into big-endian 32-bit words. -/
def toWords : List Nat → List Nat
  | b0 :: b1 :: b2 :: b3 :: rest =>
    (((b0 * 256 + b1) * 256 + b2) * 256 + b3) :: toWords rest
  | _ => []

/-- Extend the 16 chunk words to 80 words; `acc` holds the words produced
so far in reverse order. -/
def extendWords : Nat → List Nat → List Nat
  | 0, acc => acc.reverse
  | n + 1, acc =>
    let g := fun (i : Nat) => ((acc.get? i).getD 0)
    extendWords n
      (rotl 1 (Nat.xor (Nat.xor (g 2) (g 7)) (Nat.xor (g 13) (g 15))) :: acc)

/-- The SHA-1 round function. -/
def sha1F (i b c d : Nat) : Nat :=
  if i < 20 then Nat.lor (Nat.land b c) (Nat.land (Nat.xor b (M32 - 1)) d)
  else if i < 40 then Nat.xor (Nat.xor b c) d
  else if i < 60 then Nat.lor (Nat.lor (Nat.land b c) (Nat.land b d)) (Nat.land c d)
  else Nat.xor (Nat.xor b c) d

/-- The SHA-1 round constants. -/
def sha1K (i : Nat) : Nat :=
  if i < 20 then 1518500249
  else if i < 40 then 1859775393
  else if i < 60 then 2400959708
  else 3395469782

/-- The 80-round SHA-1 compression loop. -/
def sha1Loop : Nat → List Nat → Nat × Nat × Nat × Nat × Nat → Nat × Nat × Nat × Nat × Nat
  | _, [], st => st
  | i, w :: ws, (a, b, c, d, e) =>
    let tmp := (rotl 5 a + sha1F i b c d + e + sha1K i + w) % M32
    sha1Loop (i + 1) ws (tmp, a, rotl 30 b, c, d)

/-- Process one 64-byte chunk. -/
def sha1Chunk (st : Nat × Nat × Nat × Nat × Nat) (chunk : List Nat) :
    Nat × Nat × Nat × Nat × Nat :=
  let w := extendWords 64 (toWords chunk).reverse
  match st, sha1Loop 0 w st with
  | (h0, h1, h2, h3, h4), (a, b, c, d, e) =>
    ((h0 + a) % M32, (h1 + b) % M32, (h2 + c) % M32, (h3 + d) % M32, (h4 + e) % M32)

/-- SHA-1 message padding. -/
def sha1Pad (msg : List Nat) : List Nat :=
  msg ++ 128 :: List.replicate ((55 + 64 - msg.length % 64) % 64) 0
      ++ beBytes 8 (8 * msg.length)

/-- Split a byte list into 64-byte chunks (the first argument is fuel). -/
def chunks64 : Nat → List Nat → List (List Nat)
  | 0, _ => []
  | _, [] => []
  | f + 1, l => l.take 64 :: chunks64 f (l.drop 64)

/-- The SHA-1 digest of a byte list, as 20 bytes. -/
def sha1Bytes (msg : List Nat) : List Nat :=
  let padded := sha1Pad msg
  match (chunks64 padded.length padded).foldl sha1Chunk
      (1732584193, 4023233417, 2562383102, 271733878, 3285377520) with
  | (a, b, c, d, e) => beBytes 4 a ++ beBytes 4 b ++ beBytes 4 c ++ beBytes 4 d ++ beBytes 4 e

/-- A lowercase hexadecimal digit. -/
def hexDig (n : Nat) : Char :=
  if n < 10 then Char.ofNat (48 + n) else Char.ofNat (87 + n)

/-- Lowercase hex rendering of a byte list. -/
def toHex (bytes : List Nat) : List Char :=
  bytes.foldr (fun b acc => hexDig (b / 16) :: hexDig (b % 16) :: acc) []

/-- The SHA-1 hex digest of a byte list (`hashlib.sha1(...).hexdigest()`). -/
def sha1Hex (msg : List Nat) : String :=
  String.mk (toHex (sha1Bytes msg))

/-! ## The signature serialization (pickle.dumps of the info tuple)

`Rule.signature` in the source hashes `pickle.dumps(info)` where
`info = (targets, deps, cwd, cmds, d_file, msvc_show_includes)`.  We model
`pickle.dumps` of that tuple shape as a deterministic serialization with
constructor tags and big-endian length prefixes. -/

/-- Length prefix used by the serialization. -/
def encNat (n : Nat) : List Nat := beBytes 8 n

/-- Serialize a string: tag 1, length, then each code point on 4 bytes. -/
def encStr (s : String) : List Nat :=
  1 :: (encNat s.length ++ s.data.foldr (fun c acc => beBytes 4 c.toNat ++ acc) [])

/-- Serialize a list: tag 2, length, then the serialized elements. -/
def encList (enc : α → List Nat) (l : List α) : List Nat :=
  2 :: (encNat l.length ++ (l.map enc).foldr (· ++ ·) [])

/-- Serialize an optional string (None gets its own tag). -/
def encOptStr : Option String → List Nat
  | none => [3]
  | some s => 4 :: encStr s

/-- Serialize a boolean. -/
def encBool : Bool → List Nat
  | false => [5]
  | true => [6]

/-! ## The Rule data model -/

/-- A build rule, as constructed by `Rule.__init__` in the source.  All
paths are canonical (the registration interface canonicalizes them).
`stdout_filter` is modelled as the match predicate of the compiled regex,
`None` being `none`.  `priority` starts at 0 and is mutated by
`propagate_latencies`; mutation is modelled by a priority overlay map in
the scheduler state, while this field holds the initial value. -/
structure Rule where
  targets : List String
  deps : List String
  cwd : String
  cmds : List (List String)
  dFile : Option String
  orderOnlyDeps : List String
  msvcShowIncludes : Bool
  stdoutFilter : Option (String → Bool)
  latency : Nat
  priority : Nat

/-- The rule signature: the SHA-1 hex digest of the serialized tuple
`(targets, deps, cwd, cmds, d_file, msvc_show_includes)`, exactly as in
`Rule.signature` of the source (order_only_deps, stdout_filter, latency
and priority are not part of the hashed tuple). -/
def Rule.signature (r : Rule) : String :=
  sha1Hex (encList encStr r.targets ++ encList encStr r.deps ++ encStr r.cwd
    ++ encList (encList encStr) r.cmds ++ encOptStr r.dFile ++ encBool r.msvcShowIncludes)

/-! ## Character-level string helpers

Python string operations used by the source, on `List Char`. -/

/-- Python whitespace (the ASCII part of the class matched by a bare
`split()` and by the regex class used in the include-scan pattern). -/
def pySpace (c : Char) : Bool :=
  decide (c = ' ' ∨ c = '\t' ∨ c = '\n' ∨ c = '\r' ∨ c = '\x0b' ∨ c = '\x0c')

/-- Python `str.split(sep)` for a one-character separator: split at every
occurrence, keeping empty pieces. -/
def splitPred (f : Char → Bool) : List Char → List (List Char)
  | [] => [[]]
  | c :: rest =>
    match splitPred f rest with
    | [] => [[]]
    | g :: gs => if f c then [] :: g :: gs else (c :: g) :: gs

/-- Split on a single separator character (Python `s.split(sep)`). -/
def splitSep (sep : Char) (l : List Char) : List (List Char) :=
  splitPred (fun c => decide (c = sep)) l

/-- Python `str.split()` with no argument: split on whitespace runs and
drop empty pieces. -/
def pySplitWs (l : List Char) : List (List Char) :=
  (splitPred pySpace l).filter (fun g => decide (g ≠ []))

/-- Python `str.strip()` (ASCII whitespace model). -/
def pyStrip (l : List Char) : List Char :=
  ((l.dropWhile pySpace).reverse.dropWhile pySpace).reverse

/-- Python `str.rstrip()` (ASCII whitespace model). -/
def pyRStrip (l : List Char) : List Char :=
  (l.reverse.dropWhile pySpace).reverse

/-- Worker for `pySplitLines`; the input is known nonempty. -/
def linesGo : List Char → List (List Char)
  | [] => [[]]
  | '\r' :: '\n' :: rest => match rest with | [] => [[]] | _ => [] :: linesGo rest
  | '\n' :: rest => match rest with | [] => [[]] | _ => [] :: linesGo rest
  | '\r' :: rest => match rest with | [] => [[]] | _ => [] :: linesGo rest
  | c :: rest =>
    match linesGo rest with
    | [] => [[c]]
    | g :: gs => (c :: g) :: gs

/-- Python `str.splitlines()`, modelled for the terminators `\n`, `\r\n`
and `\r` (the exotic Unicode terminators are not modelled). -/
def pySplitLines (l : List Char) : List (List Char) :=
  match l with
  | [] => []
  | _ => linesGo l

/-- Python `str.replace` specialised to deleting the two-character
pattern backslash-newline, scanning left to right. -/
def replaceBSNL : List Char → List Char
  | [] => []
  | [c] => [c]
  | c :: d :: rest =>
    if c = '\\' ∧ d = '\n' then replaceBSNL rest
    else c :: replaceBSNL (d :: rest)

/-- ASCII `str.lower` on one character. -/
def lowerAscii (c : Char) : Char :=
  if 65 ≤ c.toNat ∧ c.toNat ≤ 90 then Char.ofNat (c.toNat + 32) else c

/-- Index of the first occurrence of `c` in `l` at position `start` or
later (Python `str.find(c, start)` returning `none` for -1). -/
def findFrom (c : Char) (l : List Char) (start : Nat) : Option Nat :=
  ((l.drop start).findIdx? (fun x => decide (x = c))).map (· + start)

/-- Index of the last occurrence of `c` in `l` (Python `str.rfind`). -/
def rfindChar (c : Char) (l : List Char) : Option Nat :=
  (l.reverse.findIdx? (fun x => decide (x = c))).map (fun k => l.length - 1 - k)

/-! ## Path canonicalizer -/

/-- The double-dot path component. -/
def dd : List Char := ['.', '.']

/-- The backslash separator of the drive-letter platform. -/
def ntSep : Char := '\\'

/-- One step of the component fold of `posixpath.normpath`:
skip empty and `.` components, push ordinary components, and let `..`
cancel the preceding component unless it must be kept (relative prefix or
following another kept `..`). -/
def stepComp (slashes : Nat) (acc : List (List Char)) (comp : List Char) : List (List Char) :=
  if comp = [] ∨ comp = ['.'] then acc
  else if comp ≠ dd ∨ (slashes = 0 ∧ acc = []) ∨ (acc ≠ [] ∧ acc.getLast? = some dd) then
    acc ++ [comp]
  else if acc ≠ [] then acc.dropLast
  else acc

/-- The POSIX `os.path.normpath`, translated from `posixpath.normpath`. -/
def posixNormpath (p : List Char) : List Char :=
  if p = [] then ['.']
  else
    let slashes : Nat :=
      if p.take 1 = ['/'] then
        if p.take 2 = ['/', '/'] ∧ p.take 3 ≠ ['/', '/', '/'] then 2 else 1
      else 0
    let comps := (splitSep '/' p).foldl (stepComp slashes) []
    let res := List.replicate slashes '/' ++ List.intercalate ['/'] comps
    if res = [] then ['.'] else res

/-- The drive-letter `os.path.splitdrive` (`ntpath.splitdrive`), on input
whose forward slashes were already replaced by backslashes. -/
def ntSplitdrive (p : List Char) : List Char × List Char :=
  if 2 ≤ p.length then
    if p.take 2 = [ntSep, ntSep] ∧ p.get? 2 ≠ some ntSep then
      match findFrom ntSep p 2 with
      | none => ([], p)
      | some i =>
        match findFrom ntSep p (i + 1) with
        | none => (p, [])
        | some j => if j = i + 1 then ([], p) else (p.take j, p.drop j)
    else if p.get? 1 = some ':' then (p.take 2, p.drop 2) else ([], p)
  else ([], p)

/-- The while-loop of `ntpath.normpath` over the component list; `done`
holds the kept components in reverse order, `pes` records whether the
prefix ends with a separator. -/
def ntProcess (pes : Bool) : List (List Char) → List (List Char) → List (List Char)
  | done, [] => done.reverse
  | done, c :: rest =>
    if c = [] ∨ c = ['.'] then ntProcess pes done rest
    else if c = dd then
      match done with
      | d :: ds => if d ≠ dd then ntProcess pes ds rest else ntProcess pes (dd :: d :: ds) rest
      | [] => if pes then ntProcess pes [] rest else ntProcess pes [dd] rest
    else ntProcess pes (c :: done) rest

/-- Device path test of `ntpath.normpath`: paths starting with the raw
prefixes backslash-backslash-dot-backslash or
backslash-backslash-question-backslash are returned unchanged. -/
def isSpecialNt (p : List Char) : Bool :=
  decide (p.take 4 = [ntSep, ntSep, '.', ntSep] ∨ p.take 4 = [ntSep, ntSep, '?', ntSep])

/-- The drive-letter `os.path.normpath` (`ntpath.normpath`). -/
def ntNormpath (p : List Char) : List Char :=
  if isSpecialNt p then p
  else
    let p1 := p.map (fun c => if c = '/' then ntSep else c)
    let dr := ntSplitdrive p1
    let pb :=
      if dr.2.take 1 = [ntSep] then (dr.1 ++ [ntSep], dr.2.dropWhile (fun c => decide (c = ntSep)))
      else (dr.1, dr.2)
    let comps := ntProcess (decide (pb.1.getLast? = some ntSep)) [] (splitSep ntSep pb.2)
    let comps2 := if pb.1 = [] ∧ comps = [] then [['.']] else comps
    pb.1 ++ List.intercalate [ntSep] comps2

/-- The component-processing tail of `ntpath.normpath` on a prefix/rest
pair (the part after `splitdrive` and the root adjustment). -/
def ntCoreC (pb : List Char × List Char) : List Char :=
  let comps := ntProcess (decide (pb.1.getLast? = some ntSep)) [] (splitSep ntSep pb.2)
  pb.1 ++ List.intercalate [ntSep] (if pb.1 = [] ∧ comps = [] then [['.']] else comps)

/-- The root adjustment of `ntpath.normpath` after `splitdrive`. -/
def ntCoreB (dr : List Char × List Char) : List Char :=
  ntCoreC (if dr.2.take 1 = [ntSep] then
    (dr.1 ++ [ntSep], dr.2.dropWhile (fun c => decide (c = ntSep)))
  else (dr.1, dr.2))

/-- `ntpath.normpath` after the device-path check and the slash
replacement (a refactoring of `ntNormpath` used by the idempotence
proof). -/
def ntCore (q : List Char) : List Char :=
  ntCoreB (ntSplitdrive q)

/-- Well-formed output components of the drive-letter normalization: no
empty or dot component, no separator or slash or colon inside a
component, and `..` components only as a leading run, which is empty when
the prefix ended with a separator. -/
def CompsOK (pes : Bool) (comps : List (List Char)) : Prop :=
  (∀ c ∈ comps, c ≠ [] ∧ c ≠ ['.'] ∧ ntSep ∉ c ∧ '/' ∉ c ∧ ':' ∉ c) ∧
  ∃ k rest, comps = List.replicate k dd ++ rest ∧ (∀ c ∈ rest, c ≠ dd) ∧
    (pes = true → k = 0)

/-- The canonical shapes of `ntCore` output on a colon-disciplined input:
the dot path, a relative path, a rooted path, a drive-relative or
drive-rooted path, and the two UNC shapes. -/
def CanonNt (y : List Char) : Prop :=
  y = ['.'] ∨
  (∃ comps, comps ≠ [] ∧ CompsOK false comps ∧
    y = List.intercalate [ntSep] comps) ∨
  (∃ comps, CompsOK true comps ∧ y = ntSep :: List.intercalate [ntSep] comps) ∨
  (∃ d0 comps, d0 ≠ '/' ∧ CompsOK false comps ∧
    y = d0 :: ':' :: List.intercalate [ntSep] comps) ∨
  (∃ d0 comps, d0 ≠ '/' ∧ CompsOK true comps ∧
    y = d0 :: ':' :: ntSep :: List.intercalate [ntSep] comps) ∨
  (∃ s1 s2, s1 ≠ [] ∧ ntSep ∉ s1 ∧ '/' ∉ s1 ∧ ntSep ∉ s2 ∧ '/' ∉ s2 ∧
    y = ntSep :: ntSep :: s1 ++ ntSep :: s2) ∨
  (∃ s1 s2 comps, s1 ≠ [] ∧ s2 ≠ [] ∧ ntSep ∉ s1 ∧ '/' ∉ s1 ∧
    ntSep ∉ s2 ∧ '/' ∉ s2 ∧ CompsOK true comps ∧
    y = ntSep :: ntSep :: s1 ++ ntSep :: s2 ++ ntSep :: List.intercalate [ntSep] comps)

/-- Well-formed output components of the POSIX normalization. -/
def PCompsOK (s : Nat) (comps : List (List Char)) : Prop :=
  (∀ c ∈ comps, c ≠ [] ∧ c ≠ ['.'] ∧ '/' ∉ c) ∧
  ∃ k rest, comps = List.replicate k dd ++ rest ∧ (∀ c ∈ rest, c ≠ dd) ∧
    (s ≠ 0 → k = 0)

/-- The canonical shapes of `posixpath.normpath` output. -/
def CanonP (y : List Char) : Prop :=
  y = ['.'] ∨
  ∃ s comps, (s = 0 ∨ s = 1 ∨ s = 2) ∧ PCompsOK s comps ∧ (s = 0 → comps ≠ []) ∧
    y = List.replicate s '/' ++ List.intercalate ['/'] comps

/-- The `normpath` function of make.py: `os.path.normpath`, then on the
drive-letter platform lowercasing and backslash-to-slash replacement. -/
def mkNormpath (nt : Bool) (p : String) : String :=
  if nt then
    String.mk (((ntNormpath p.data).map lowerAscii).map (fun c => if c = ntSep then '/' else c))
  else String.mk (posixNormpath p.data)

/-- Lookup in the memoization cache of `normpath` (an association list
standing for the `normpath_cache` dict). -/
def lookupCache (cache : List (String × String)) (p : String) : Option String :=
  (cache.find? (fun kv => decide (kv.fst = p))).map (·.snd)

/-- The cached `normpath` of make.py: return the cached value if present,
otherwise compute, store and return it. -/
def normpathCached (nt : Bool) (cache : List (String × String)) (p : String) :
    String × List (String × String) :=
  match lookupCache cache p with
  | some v => (v, cache)
  | none => (mkNormpath nt p, (p, mkNormpath nt p) :: cache)

/-- The `joinpath` function of make.py.  The source indexes `path[0]` and
(on the drive-letter platform) `path[1]` without a length guard, raising
IndexError on too-short input; the model treats an out-of-range index as
a failed comparison. -/
def joinpath (nt : Bool) (cwd p : String) : String :=
  if nt then
    if p.data.take 1 = ['/'] ∨ p.data.get? 1 = some ':' then p else cwd ++ "/" ++ p
  else if p.data.take 1 = ['/'] then p else cwd ++ "/" ++ p

/-- The idiom `normpath(joinpath(cwd, x))` used throughout the source to
resolve a possibly-relative path against a rule directory. -/
def resolve (nt : Bool) (cwd p : String) : String :=
  mkNormpath nt (joinpath nt cwd p)

/-! ## Discovered-dependency sidecar: writer and reader -/

/-- Insert a string into a strictly sorted list, skipping duplicates. -/
def insertSortedU (x : String) : List String → List String
  | [] => [x]
  | y :: ys => if x = y then y :: ys else if x < y then x :: y :: ys else y :: insertSortedU x ys

/-- Python `sorted(set(l))`: the strictly increasing list of the distinct
elements of `l`. -/
def sortedDedup (l : List String) : List String :=
  l.foldr insertSortedU []

/-- The sidecar text written by the executor (`run_cmd` lines 144-149):
a `target: \` header line, one indented `  dep \` line per sorted unique
dependency, then a blank line. -/
def writeDFile (target : String) (deps : List String) : String :=
  target ++ ": \\\n" ++ String.join ((sortedDedup deps).map (fun d => "  " ++ d ++ " \\\n")) ++ "\n"

/-- One step of the posix-mode `shlex.split` state machine.  States:
0 ordinary, 1 inside single quotes, 2 inside double quotes, 3 after an
escape in state 0, 4 after an escape in state 2.  `cur` is the current
token reversed, `started` records that the token was opened by a quote
(so an empty token is still emitted), `acc` collects finished tokens in
reverse.  `none` models the ValueError raised on an unclosed quote or a
trailing escape. -/
def shlexStep : Nat → List Char → List Char → Bool → List (List Char) → Option (List (List Char))
  | st, [], cur, started, acc =>
    if st = 0 then
      some ((if started ∨ cur ≠ [] then cur.reverse :: acc else acc).reverse)
    else none
  | 0, c :: rest, cur, started, acc =>
    if pySpace c then
      if started ∨ cur ≠ [] then shlexStep 0 rest [] false (cur.reverse :: acc)
      else shlexStep 0 rest [] false acc
    else if c = '\x27' then shlexStep 1 rest cur true acc
    else if c = '"' then shlexStep 2 rest cur true acc
    else if c = '\\' then shlexStep 3 rest cur started acc
    else shlexStep 0 rest (c :: cur) started acc
  | 1, c :: rest, cur, started, acc =>
    if c = '\x27' then shlexStep 0 rest cur true acc
    else shlexStep 1 rest (c :: cur) started acc
  | 2, c :: rest, cur, started, acc =>
    if c = '"' then shlexStep 0 rest cur true acc
    else if c = '\\' then shlexStep 4 rest cur started acc
    else shlexStep 2 rest (c :: cur) started acc
  | 3, c :: rest, cur, _, acc => shlexStep 0 rest (c :: cur) true acc
  | 4, c :: rest, cur, started, acc =>
    if c = '"' ∨ c = '\\' then shlexStep 2 rest (c :: cur) started acc
    else shlexStep 2 rest (c :: '\\' :: cur) started acc
  | _ + 5, _, _, _, _ => none
termination_by _ l _ _ _ => l.length

/-- Posix `shlex.split`. -/
def shlexSplit (l : List Char) : Option (List (List Char)) :=
  shlexStep 0 l [] false []

/-- The sidecar reader of `build` (lines 245-254): delete the
backslash-newline continuations, tokenize (with `shlex.split` only when a
backslash remains), drop the leading `target:` token and resolve every
dependency against the rule directory.  `none` models the uncaught
tokenizer exception. -/
def parseDFile (nt : Bool) (cwd : String) (text : String) : Option (List String) :=
  let t := replaceBSNL text.data
  if '\\' ∈ t then
    match shlexSplit t with
    | none => none
    | some toks => some ((toks.drop 1).map (fun g => resolve nt cwd (String.mk g)))
  else
    some (((pySplitWs t).drop 1).map (fun g => resolve nt cwd (String.mk g)))

/-! ## File system, database and scheduler state -/

/-- The file system: a map from path to an optional (mtime, contents)
pair; `none` is a missing path. -/
structure FS where
  entries : String → Option (Int × String)

/-- The mtime of a path, `-1` when missing (`get_timestamp_if_exists`). -/
def FS.mtime (fs : FS) (p : String) : Int :=
  match fs.entries p with
  | none => -1
  | some e => e.1

/-- Deletion of a path (`remove_path`; directory versus file is
irrelevant at this level, both disappear). -/
def FS.remove (fs : FS) (p : String) : FS :=
  ⟨fun q => if q = p then none else fs.entries q⟩

/-- Write a text file (`open(p, "wt")` followed by writes).  The mtime of
freshly written entries is modelled as 0; no claim reads it. -/
def FS.write (fs : FS) (p : String) (content : String) : FS :=
  ⟨fun q => if q = p then some (0, content) else fs.entries q⟩

/-- Delete each of the given paths. -/
def removeAll (fs : FS) (ts : List String) : FS :=
  ts.foldl FS.remove fs

/-- The outcome of spawning one command: either the spawn itself failed
with an OS error message, or the command ran producing captured output,
an exit code, and some effect on the file system. -/
inductive CmdResult where
  | spawnFail (msg : String)
  | ran (out : String) (code : Nat) (eff : FS → FS)

/-- The global state of one build invocation.  `dispatched` is a ghost
trace of every `task_queue.put` of a rule (by index into the rule list),
`executed` a ghost trace of every `run_cmd` call; `stdoutLog` collects
the atomic `stdout_write` calls; `aborted` models `exit(1)` (and uncaught
exceptions): every operation is a no-op once it is set. -/
structure St where
  fs : FS
  db : String → String → Option String
  visited : List String
  enqueued : List String
  completed : List String
  building : List String
  queue : List (Int × Nat × Nat)
  counter : Nat
  dispatched : List Nat
  executed : List Nat
  stdoutLog : List String
  anyErrors : Bool
  aborted : Bool

/-- Remove the database entries of the given targets in the given rule
directory (the deletion loop at the top of `run_cmd`). -/
def eraseDbTargets (db : String → String → Option String) (cwd : String) (ts : List String) :
    String → String → Option String :=
  fun c t => if c = cwd ∧ t ∈ ts then none else db c t

/-- Commit the rule signature against each target (`run_cmd` success
path). -/
def commitDb (db : String → String → Option String) (r : Rule) :
    String → String → Option String :=
  fun c t => if c = r.cwd ∧ t ∈ r.targets then some r.signature else db c t

/-! ## Command shell rendering (pipes.quote / list2cmdline) -/

/-- Characters that `pipes.quote` leaves unquoted. -/
def safeChar (c : Char) : Bool :=
  c.isAlphanum || decide (c ∈ ['@', '%', '_', '-', '+', '=', ':', ',', '.', '/'])

/-- Posix shell quoting, as `pipes.quote`. -/
def pipesQuote (s : String) : String :=
  if s = "" then "\x27\x27"
  else if s.data.all safeChar then s
  else "\x27" ++ String.mk (s.data.foldr
    (fun c acc => if c = '\x27' then '\x27' :: '"' :: '\x27' :: '"' :: '\x27' :: acc else c :: acc) [])
    ++ "\x27"

/-- Body of `subprocess.list2cmdline` for one argument: returns the
rendered body and the pending run of trailing backslashes. -/
def l2cGo : List Char → List Char → List Char × List Char
  | [], buf => ([], buf)
  | '\\' :: rest, buf => l2cGo rest (buf ++ ['\\'])
  | '"' :: rest, buf =>
    match l2cGo rest [] with
    | (body, tail) => (List.replicate (2 * buf.length + 1) '\\' ++ '"' :: body, tail)
  | c :: rest, buf =>
    match l2cGo rest [] with
    | (body, tail) => (buf ++ c :: body, tail)

/-- Render one argument as `subprocess.list2cmdline` does. -/
def l2cArg (arg : List Char) : List Char :=
  let needquote := decide (' ' ∈ arg ∨ '\t' ∈ arg ∨ arg = [])
  match l2cGo arg [] with
  | (body, buf) =>
    if needquote then '"' :: (body ++ buf ++ buf ++ ['"']) else body ++ buf

/-- The `subprocess.list2cmdline` command rendering. -/
def list2cmdline (cmd : List String) : String :=
  String.intercalate " " (cmd.map (fun a => String.mk (l2cArg a.data)))

/-- The command echo used by the executor in verbose or failing runs
(`list2cmdline` on the drive-letter platform, `pipes.quote`-joined
otherwise). -/
def quoteCmd (nt : Bool) (cmd : List String) : String :=
  if nt then list2cmdline cmd else String.intercalate " " (cmd.map pipesQuote)

/-! ## The command executor (run_cmd) -/

/-- A run of spaces (used by the progress-line erase sequence). -/
def spaces (n : Nat) : String :=
  String.mk (List.replicate n ' ')

/-- The `Built ...` banner of `run_cmd`. -/
def builtText (r : Rule) : String :=
  "Built \x27" ++ String.intercalate "\x27\n  and \x27" r.targets ++ "\x27.\n"

/-- The banner, preceded by the progress-line erase sequence when the
progress indicator is active. -/
def builtTextP (progress : Bool) (cols : Nat) (r : Rule) : String :=
  if progress then "\r" ++ spaces cols ++ "\r" ++ builtText r else builtText r

/-- The include-scan regex `^Note: including file:\s*(.*)$`: if the line
starts with the literal prefix, the captured group is the remainder with
leading whitespace removed. -/
def matchInclude (line : List Char) : Option (List Char) :=
  if line.take 21 = "Note: including file:".data then
    some ((line.drop 21).dropWhile pySpace)
  else none

/-- The system include path filter of the include scan. -/
def pfPfx : List Char := "c:/program files".data

/-- One line of the include scan: a matching line contributes its
canonicalized payload to the dependency set (unless it lies under the
system include directory), a non-matching line is kept for printing. -/
def scanStep (nt : Bool) (acc : List String × List (List Char)) (line : List Char) :
    List String × List (List Char) :=
  match matchInclude line with
  | some payload =>
    let dep := mkNormpath nt (String.mk payload)
    if dep.data.take 16 = pfPfx then acc else (dep :: acc.1, acc.2)
  | none => (acc.1, acc.2 ++ [line])

/-- The include-scan pass over the captured lines: collect the
canonicalized captured paths (dropping those under the system include
directory) and the non-matching lines, in order. -/
def scanDeps (nt : Bool) (lines : List (List Char)) : List String × List (List Char) :=
  lines.foldl (scanStep nt) ([], [])

/-- The exit code of one spawn outcome: a spawn failure counts as exit
code 1 (`run_cmd` lines 124-127). -/
def cmdCode : CmdResult → Nat
  | .spawnFail _ => 1
  | .ran _ c _ => c

/-- The include-scan transformation of one command's captured output
(`run_cmd` lines 131-156): collect the `Note: including file:` payloads,
write the sidecar (the assert requires exactly one target; a missing
`d_file` raises on `open(None)`; both are modelled as `none`), and return
the filtered output, suppressed entirely when a single unmatched line
(the source filename echo) remains. -/
def includeScanStep (nt : Bool) (r : Rule) (outRaw : String) (fs2 : FS) :
    Option (String × FS) :=
  match r.dFile with
  | none => none
  | some df =>
    let sd := scanDeps nt (pySplitLines outRaw.data)
    if r.targets.length = 1 then
      some (if sd.2.length = 1 then "" else String.mk (List.intercalate ['\n'] sd.2),
            fs2.write df (writeDFile ((r.targets.head?).getD "") sd.1))
    else none

/-- The per-command loop of `run_cmd`, over the commands paired with
their spawn outcomes.  `allOut` accumulates the filtered output blocks.
On a nonzero exit code the targets are re-deleted, the banner and output
are printed, `any_errors` is set and the process exits; after the last
command the signatures are committed. -/
def runCmdLoop (nt verbose progress : Bool) (cols : Nat) (r : Rule) (bt : String) :
    List (List String × CmdResult) → List String → St → St
  | [], allOut, s =>
    let s1 := { s with db := commitDb s.db r }
    if allOut ≠ [] then
      { s1 with stdoutLog := s1.stdoutLog ++ [bt ++ String.intercalate "\n" allOut ++ "\n\n"] }
    else if ¬ progress then { s1 with stdoutLog := s1.stdoutLog ++ [bt] }
    else s1
  | (cmd, res) :: rest, allOut, s =>
    let outRaw : String :=
      match res with
      | .spawnFail msg => msg
      | .ran out _ _ => String.mk (pyStrip out.data)
    let code : Nat := cmdCode res
    let fs2 : FS := match res with | .spawnFail _ => s.fs | .ran _ _ eff => eff s.fs
    let step2 : Option (String × FS) :=
      if r.msvcShowIncludes then includeScanStep nt r outRaw fs2
      else
        match r.stdoutFilter with
        | some f =>
          some (String.mk (List.intercalate ['\n']
            ((pySplitLines outRaw.data).filter (fun l => ¬ f (String.mk l)))), fs2)
        | none => some (outRaw, fs2)
    match step2 with
    | none => { s with fs := fs2, aborted := true }
    | some (out2, fs3) =>
      let out3 := if verbose ∨ code ≠ 0 then String.mk (pyRStrip (quoteCmd nt cmd ++ "\n" ++ out2).data) else out2
      let allOut2 := if out3 ≠ "" then allOut ++ [out3] else allOut
      if code ≠ 0 then
        { s with fs := removeAll fs3 r.targets, anyErrors := true, aborted := true,
                 stdoutLog := s.stdoutLog ++ [bt ++ String.intercalate "\n" allOut2 ++ "\n\n"] }
      else runCmdLoop nt verbose progress cols r bt rest allOut2 { s with fs := fs3 }

/-- The `run_cmd` function of make.py: delete the targets and their
database entries, then run each command in order (see `runCmdLoop`). -/
def runCmd (nt verbose progress : Bool) (cols : Nat) (r : Rule) (results : List CmdResult)
    (s : St) : St :=
  if s.aborted then s
  else
    runCmdLoop nt verbose progress cols r (builtTextP progress cols r) (r.cmds.zip results) []
      { s with fs := removeAll s.fs r.targets, db := eraseDbTargets s.db r.cwd r.targets }

/-! ## The walk (build) -/

/-- The rule registry: the `rules` dict maps each target to the rule that
builds it; rules are identified by their index in the rule list. -/
def ruleOf (rules : List Rule) (t : String) : Option Nat :=
  rules.findIdx? (fun r => decide (t ∈ r.targets))

/-- Well-formed registry: every rule has at least one target and no
target is claimed by two rules (`add_rule` enforces both; a conflicting
target is fatal at load time). -/
def WFRules (rules : List Rule) : Prop :=
  (∀ r ∈ rules, r.targets ≠ []) ∧
  List.Pairwise (fun a b => ∀ t ∈ a.targets, t ∉ b.targets) rules

/-- Python `min` over a list of timestamps (the empty case raises in the
source and is unreachable: `build` only reaches it through a registered
target). -/
def minTs (l : List Int) : Int :=
  match l with
  | [] => 0
  | x :: xs => xs.foldl min x

/-- The up-to-date oracle of `build` (lines 263, 274-276): every target
exists (minimum target mtime at least 0), no declared dependency is newer
than the oldest target, every discovered dependency exists and is not
newer, and every target's stored signature equals the rule's current
signature.  Order-only prerequisites do not appear. -/
def upToDate (r : Rule) (fs : FS) (db : String → String → Option String)
    (deps dfDeps : List String) : Bool :=
  let tt := minTs (r.targets.map fs.mtime)
  decide (0 ≤ tt) && deps.all (fun d => decide (fs.mtime d ≤ tt)) &&
    dfDeps.all (fun d => decide (0 ≤ fs.mtime d ∧ fs.mtime d ≤ tt)) &&
    r.targets.all (fun t => decide (db r.cwd t = some r.signature))

/-- The error text of the nonexistent-dependency failure. -/
def missingDepMsg (progress : Bool) (cols : Nat) (r : Rule) (d : String) : String :=
  (if progress then "\r" ++ spaces cols ++ "\r" else "") ++
    "ERROR: dependency \x27" ++ d ++ "\x27 of \x27" ++ String.intercalate " " r.targets ++
    "\x27 is nonexistent\n"

/-- The `os.path.dirname` of a canonical slash-separated path. -/
def pyDirname (p : String) : String :=
  match rfindChar '/' p.data with
  | none => ""
  | some idx =>
    let hd := p.data.take (idx + 1)
    if hd ≠ [] ∧ hd.any (fun c => decide (c ≠ '/')) then
      String.mk ((hd.reverse.dropWhile (fun c => decide (c = '/'))).reverse)
    else String.mk hd

/-- The `os.makedirs` chain: create the directory and its missing
ancestors (fuelled by the path length; an empty dirname is left alone). -/
def mkdirChain : Nat → FS → String → FS
  | 0, fs, _ => fs
  | f + 1, fs, d =>
    if d = "" ∨ (fs.entries d).isSome then fs
    else (mkdirChain f fs (pyDirname d)).write d ""

/-- Create the parent directory of every target if missing (`build`
lines 281-284). -/
def ensureDirs (fs : FS) (ts : List String) : FS :=
  ts.foldl (fun fs t =>
    let d := pyDirname t
    if (fs.entries d).isSome then fs else mkdirChain d.length fs d) fs

/-- The resolved declared dependencies of a rule (`build` line 243). -/
def depsOf (nt : Bool) (r : Rule) : List String :=
  r.deps.map (resolve nt r.cwd)

/-- The discovered dependencies of a rule (`build` lines 244-254): parse
the sidecar when the rule has one and it exists; `none` models the
uncaught tokenizer exception. -/
def dfDepsOf (nt : Bool) (fs : FS) (r : Rule) : Option (List String) :=
  match r.dFile with
  | some df =>
    match fs.entries df with
    | some e => parseDFile nt r.cwd e.2
    | none => some []
  | none => some []

/-- The tail of `build` after the completion gate (lines 260-295): the
nonexistent-dependency check, the up-to-date oracle, directory creation
and dispatch (enqueue in parallel mode, an inline `run_cmd` in serial
mode).  `target` is the walked target, `i` the rule index. -/
def oracleStep (nt parallel verbose progress : Bool) (cols : Nat)
    (prio : Nat → Nat) (oracle : Nat → List CmdResult) (r : Rule) (i : Nat) (target : String)
    (deps dfDeps : List String) (s : St) : St :=
  if r.targets = [] then { s with aborted := true }
  else
    match deps.find? (fun d => decide (s.fs.mtime d < 0)) with
    | some d =>
      { s with stdoutLog := s.stdoutLog ++ [missingDepMsg progress cols r d],
               anyErrors := true, aborted := true }
    | none =>
      if upToDate r s.fs s.db deps dfDeps then
        { s with completed := s.completed ++ [target] }
      else
        let s3 := { s with fs := ensureDirs s.fs r.targets }
        if parallel then
          { s3 with queue := s3.queue ++ [(-(prio i : Int), s3.counter, i)],
                    counter := s3.counter + 1,
                    enqueued := s3.enqueued ++ r.targets,
                    dispatched := s3.dispatched ++ [i] }
        else
          let s4 := runCmd nt verbose progress cols r (oracle i)
            { s3 with executed := s3.executed ++ [i] }
          if s4.aborted then s4
          else { s4 with completed := s4.completed ++ r.targets }

/-- The `build` walk of make.py.  The first argument list fixes the
platform, the mode flags, the rule list, the rule priorities (the mutable
`priority` fields after propagation) and, for serial mode, the oracle
giving each rule's command outcomes.  The `Nat` argument is recursion
fuel: the source recursion is unbounded, and running out of fuel is
modelled as returning the state unchanged. -/
def build (nt parallel verbose progress : Bool) (cols : Nat) (rules : List Rule)
    (prio : Nat → Nat) (oracle : Nat → List CmdResult) :
    Nat → String → St → St
  | 0, _, s => s
  | fuel + 1, target, s =>
    if s.aborted then s
    else if target ∈ s.visited ∨ target ∈ s.completed then s
    else
      match ruleOf rules target with
      | none => { s with visited := s.visited ++ [target], completed := s.completed ++ [target] }
      | some i =>
        match rules.get? i with
        | none => s
        | some r =>
          let s1 := { s with visited := s.visited ++ r.targets }
          if target ∈ s1.enqueued then s1
          else
            let deps := depsOf nt r
            match dfDepsOf nt s1.fs r with
            | none => { s1 with aborted := true }
            | some dfDeps =>
              let allDeps := deps ++ dfDeps ++ r.orderOnlyDeps
              let s2 := allDeps.foldl
                (fun st d => build nt parallel verbose progress cols rules prio oracle fuel d st) s1
              if s2.aborted then s2
              else if allDeps.any (fun d => decide (d ∉ s2.completed)) then s2
              else oracleStep nt parallel verbose progress cols prio oracle r i target deps dfDeps s2

/-! ## The parallel driver and the worker threads -/

/-- One iteration of `BuilderThread.run`, popping the queue entry at
position `k` (position instead of minimum models any pop order; the claim
proved about it does not depend on the priority discipline).  A worker
checks `any_errors` before popping, executes the rule, and marks its
targets building and then completed. -/
def workStep (nt verbose progress : Bool) (cols : Nat) (rules : List Rule)
    (oracle : Nat → List CmdResult) (k : Nat) (s : St) : St :=
  if s.aborted ∨ s.anyErrors then s
  else
    match s.queue.get? k with
    | none => s
    | some e =>
      match rules.get? e.2.2 with
      | none => s
      | some r =>
        let s1 := { s with queue := s.queue.eraseIdx k, building := s.building ++ r.targets }
        let s2 := runCmd nt verbose progress cols r (oracle e.2.2)
          { s1 with executed := s1.executed ++ [e.2.2] }
        if s2.aborted then s2
        else { s2 with building := s2.building.filter (fun t => decide (t ∉ r.targets)),
                       completed := s2.completed ++ r.targets }

/-- An event of the parallel driver: one full walk pass over the goals
(the driver first clears `visited`), or one worker iteration. -/
inductive Ev where
  | pass
  | work (k : Nat)

/-- One driver event. -/
def driverStep (nt verbose progress : Bool) (cols : Nat) (rules : List Rule)
    (prio : Nat → Nat) (oracle : Nat → List CmdResult) (goals : List String) (fuel : Nat)
    (s : St) (e : Ev) : St :=
  match e with
  | .pass =>
    goals.foldl (fun st g => build nt true verbose progress cols rules prio oracle fuel g st)
      { s with visited := [] }
  | .work k => workStep nt verbose progress cols rules oracle k s

/-- A parallel run: any interleaving of walk passes and worker pops. -/
def runEvents (nt verbose progress : Bool) (cols : Nat) (rules : List Rule)
    (prio : Nat → Nat) (oracle : Nat → List CmdResult) (goals : List String) (fuel : Nat)
    (events : List Ev) (s : St) : St :=
  events.foldl (driverStep nt verbose progress cols rules prio oracle goals fuel) s

/-- A serial run (`--no-parallel`): one walk over the goals, with
`visited` never cleared. -/
def serialRun (nt verbose progress : Bool) (cols : Nat) (rules : List Rule)
    (prio : Nat → Nat) (oracle : Nat → List CmdResult) (goals : List String) (fuel : Nat)
    (s : St) : St :=
  goals.foldl (fun st g => build nt false verbose progress cols rules prio oracle fuel g st) s

/-- The pristine state of one invocation. -/
def initSt (fs : FS) (db : String → String → Option String) : St :=
  { fs := fs, db := db, visited := [], enqueued := [], completed := [], building := [],
    queue := [], counter := 0, dispatched := [], executed := [], stdoutLog := [],
    anyErrors := false, aborted := false }

/-! ## Latency propagation -/

/-- The `propagate_latencies` pass, on the priority overlay map (rule
index to current priority; the source mutates `rule.priority`).  Fuelled:
the source recursion is unbounded and diverges on cyclic graphs. -/
def propagate (nt : Bool) (rules : List Rule) :
    Nat → String → Nat → (Nat → Nat) → (Nat → Nat)
  | 0, _, _, pr => pr
  | fuel + 1, target, lat, pr =>
    match ruleOf rules target with
    | none => pr
    | some i =>
      match rules.get? i with
      | none => pr
      | some r =>
        let lat2 := lat + r.latency
        if lat2 ≤ pr i then pr
        else
          (r.deps.map (resolve nt r.cwd) ++ r.orderOnlyDeps).foldl
            (fun p d => propagate nt rules fuel d lat2 p)
            (fun j => if j = i then lat2 else pr j)

/-! ## The goal check of main -/

/-- The pre-scheduling goal check in `main` (lines 404-407): the first
requested target that is not a registered target, if any; the source
prints an error and exits 1 on it.  The file system is not consulted. -/
def firstUnknownGoal (rules : List Rule) (goals : List String) : Option String :=
  goals.find? (fun g => (ruleOf rules g).isNone)

/-! ## The dependency graph on rules

Derived notions used to state the latency-propagation and scheduling
claims: the rule indices reachable in one dependency step, paths in that
graph, and their latency sums. -/

/-- The rules reachable from rule `i` in one dependency step: the rules
producing its declared dependencies (resolved against its directory) or
its order-only dependencies, in the iteration order of
`propagate_latencies` and `build`. -/
def succs (nt : Bool) (rules : List Rule) (i : Nat) : List Nat :=
  match rules.get? i with
  | none => []
  | some r => (r.deps.map (resolve nt r.cwd) ++ r.orderOnlyDeps).filterMap (ruleOf rules)

/-- The latency of a rule by index (0 for an out-of-range index). -/
def latOf (rules : List Rule) (i : Nat) : Nat :=
  match rules.get? i with
  | none => 0
  | some r => r.latency

/-- Consecutive members of the list are dependency-graph edges. -/
def chainOK (nt : Bool) (rules : List Rule) : List Nat → Prop
  | [] => True
  | [_] => True
  | i :: j :: rest => j ∈ succs nt rules i ∧ chainOK nt rules (j :: rest)

/-- The sum of the latencies of the rules along a path. -/
def pathSum (rules : List Rule) (p : List Nat) : Nat :=
  (p.map (latOf rules)).sum

/-- A dependency path from a requested goal target: a nonempty chain of
rule indices whose head is the rule of one of the goals. -/
def goalPath (nt : Bool) (rules : List Rule) (goals : List String) (p : List Nat) : Prop :=
  chainOK nt rules p ∧ (∃ g ∈ goals, ruleOf rules g = p.head?) ∧ p ≠ []

/-- The latency-propagation pass of `main`: `propagate_latencies(g, 0)`
for every requested goal, starting from all-zero priorities. -/
def runPropagate (nt : Bool) (rules : List Rule) (fuel : Nat) (goals : List String) :
    Nat → Nat :=
  goals.foldl (fun pr g => propagate nt rules fuel g 0 pr) (fun _ => 0)

/-- The scheduling invariant tying the dispatch trace to `enqueued`: the
trace has no duplicate rule, every dispatched rule has all its targets in
`enqueued`, and every enqueued target's rule is in the trace. -/
def DispatchInv (rules : List Rule) (s : St) : Prop :=
  s.dispatched.Nodup ∧
  (∀ i ∈ s.dispatched, ∀ r, rules.get? i = some r → ∀ t ∈ r.targets, t ∈ s.enqueued) ∧
  (∀ t ∈ s.enqueued, ∀ i, ruleOf rules t = some i → i ∈ s.dispatched)

/-- The serial-mode invariant: the execution trace has no duplicate rule
and every executed rule has all its targets in `visited` (which serial
mode never clears). -/
def ExecInv (rules : List Rule) (s : St) : Prop :=
  s.executed.Nodup ∧
  (∀ i ∈ s.executed, ∀ r, rules.get? i = some r → ∀ t ∈ r.targets, t ∈ s.visited)

/-- The induction package of the parallel walk: the scheduling invariant
holds at the result, `enqueued`, `dispatched` and `visited` only grow,
and every rule newly dispatched during the step had some target that was
unvisited at the start of the step. -/
def DConcl (rules : List Rule) (s s2 : St) : Prop :=
  DispatchInv rules s2 ∧
  (∀ t ∈ s.enqueued, t ∈ s2.enqueued) ∧
  (∀ i ∈ s.dispatched, i ∈ s2.dispatched) ∧
  (∀ t ∈ s.visited, t ∈ s2.visited) ∧
  (∀ j ∈ s2.dispatched, j ∉ s.dispatched →
    ∃ r t2, rules.get? j = some r ∧ t2 ∈ r.targets ∧ t2 ∉ s.visited)

/-- The induction package of the serial walk: the execution invariant
holds at the result, `executed` and `visited` only grow, and every rule
newly executed during the step had some target that was unvisited at the
start of the step. -/
def EConcl (rules : List Rule) (s s2 : St) : Prop :=
  ExecInv rules s2 ∧
  (∀ i ∈ s.executed, i ∈ s2.executed) ∧
  (∀ t ∈ s.visited, t ∈ s2.visited) ∧
  (∀ j ∈ s2.executed, j ∉ s.executed →
    ∃ r t2, rules.get? j = some r ∧ t2 ∈ r.targets ∧ t2 ∉ s.visited)

/-- Coherence of the priority overlay outside a stack `S`: at every rule
off the stack holding a nonzero priority, every dependency rule has
already absorbed that priority plus its own latency
(`propagate_latencies` re-establishes this before returning). -/
def CoherentExcept (nt : Bool) (rules : List Rule) (S : List Nat) (pr : Nat → Nat) : Prop :=
  ∀ i, i ∉ S → pr i ≠ 0 → ∀ j ∈ succs nt rules i, pr i + latOf rules j ≤ pr j

/-- Soundness of the priority overlay: every nonzero priority is the
latency sum of some dependency path from a requested goal. -/
def SoundPr (nt : Bool) (rules : List Rule) (goals : List String) (pr : Nat → Nat) : Prop :=
  ∀ k, pr k ≠ 0 → ∃ p, goalPath nt rules goals p ∧ p.getLast? = some k ∧
    pathSum rules p = pr k

/-- The calling context of `propagate_latencies(target, lat)`: if the
target resolves to a rule, some goal path reaches that rule with latency
sum `lat` plus the rule's own latency. -/
def ExtCtx (nt : Bool) (rules : List Rule) (goals : List String)
    (target : String) (lat : Nat) : Prop :=
  ∀ i, ruleOf rules target = some i →
    ∃ p, goalPath nt rules goals p ∧ p.getLast? = some i ∧
      pathSum rules p = lat + latOf rules i

/-! ## Sample data used by witnesses and counterexamples -/

/-- A sample rule used by witnesses. -/
def exRuleA : Rule :=
  { targets := ["/src/_out/a.o"], deps := ["/src/a.c"], cwd := "/src",
    cmds := [["gcc", "-c", "a.c"]], dFile := none, orderOnlyDeps := [],
    msvcShowIncludes := false, stdoutFilter := none, latency := 1, priority := 0 }

/-- A rule equal to `exRuleA` on the six hashed fields but differing in
order-only deps and latency. -/
def exRuleB : Rule :=
  { exRuleA with orderOnlyDeps := ["/src/_out"], latency := 9 }

/-- A rule with two targets, used to show that the up-to-date skip marks
only the walked target completed. -/
def exRule2T : Rule :=
  { targets := ["/x", "/y"], deps := [], cwd := "/", cmds := [["touch"]], dFile := none,
    orderOnlyDeps := [], msvcShowIncludes := false, stdoutFilter := none,
    latency := 1, priority := 0 }

/-- A file system where both targets of `exRule2T` exist. -/
def exFs2T : FS :=
  ⟨fun p => if p = "/x" then some (5, "") else if p = "/y" then some (7, "") else none⟩

/-- A database holding the current signature of `exRule2T` for both of
its targets. -/
def exDb2T : String → String → Option String :=
  commitDb (fun _ _ => none) exRule2T

/-- A file system where the path `/x` exists. -/
def exFs9 : FS :=
  ⟨fun p => if p = "/x" then some (5, "") else none⟩

/-- A rule with a missing declared dependency, for witnesses. -/
def exRuleMiss : Rule :=
  { targets := ["/t"], deps := ["/missing"], cwd := "/", cmds := [["c"]], dFile := none,
    orderOnlyDeps := [], msvcShowIncludes := false, stdoutFilter := none,
    latency := 1, priority := 0 }

/-- A state where the missing dependency is completed (its producing walk
treats it as a source) but absent on disk. -/
def exStMiss : St :=
  { initSt ⟨fun _ => none⟩ (fun _ _ => none) with completed := ["/missing"] }


/-- An include-scan rule, for the C6 witness. -/
def exRuleScan : Rule :=
  { targets := ["/o"], deps := [], cwd := "/", cmds := [["cl"]], dFile := some "/o.d",
    orderOnlyDeps := [], msvcShowIncludes := true, stdoutFilter := none,
    latency := 1, priority := 0 }

/-- A rule with positive latency and no dependencies, for the latency
propagation witness. -/
def exRuleLat : Rule :=
  { targets := ["/a"], deps := [], cwd := "/", cmds := [["c"]], dFile := none,
    orderOnlyDeps := [], msvcShowIncludes := false, stdoutFilter := none,
    latency := 2, priority := 0 }

/-- The zero-latency goal rule of the latency-propagation
counterexample. -/
def exRuleLat0 : Rule :=
  { targets := ["/a"], deps := ["/b"], cwd := "/", cmds := [["c"]], dFile := none,
    orderOnlyDeps := [], msvcShowIncludes := false, stdoutFilter := none,
    latency := 0, priority := 0 }

/-- The downstream rule of the latency-propagation counterexample. -/
def exRuleLat3 : Rule :=
  { targets := ["/b"], deps := [], cwd := "/", cmds := [["c"]], dFile := none,
    orderOnlyDeps := [], msvcShowIncludes := false, stdoutFilter := none,
    latency := 3, priority := 0 }

/-- A rule whose single command fails, for the C3 witness. -/
def exRuleFail : Rule :=
  { targets := ["/out"], deps := [], cwd := "/", cmds := [["false"]], dFile := none,
    orderOnlyDeps := [], msvcShowIncludes := false, stdoutFilter := none,
    latency := 1, priority := 0 }

/-! ## General helper lemmas -/

theorem foldl_min_le_iff (xs : List Int) : ∀ (a c : Int),
    c ≤ xs.foldl min a ↔ c ≤ a ∧ ∀ x ∈ xs, c ≤ x := by
  induction xs with
  | nil => intro a c; simp
  | cons b xs ih =>
    intro a c
    simp only [List.foldl_cons, ih, le_min_iff, List.mem_cons]
    constructor
    · rintro ⟨⟨h1, h2⟩, h3⟩
      exact ⟨h1, fun x hx => hx.elim (fun e => e ▸ h2) (h3 x)⟩
    · rintro ⟨h1, h2⟩
      exact ⟨⟨h1, h2 b (Or.inl rfl)⟩, fun x hx => h2 x (Or.inr hx)⟩

theorem le_minTs_iff (l : List Int) (hne : l ≠ []) (c : Int) :
    c ≤ minTs l ↔ ∀ x ∈ l, c ≤ x := by
  cases l with
  | nil => exact absurd rfl hne
  | cons x xs =>
    simp only [minTs, foldl_min_le_iff, List.mem_cons]
    constructor
    · rintro ⟨h1, h2⟩ y hy
      exact hy.elim (fun e => e ▸ h1) (h2 y)
    · intro h
      exact ⟨h x (Or.inl rfl), fun y hy => h y (Or.inr hy)⟩

theorem upToDate_eq_true_iff (r : Rule) (fs : FS) (db : String → String → Option String)
    (deps dfDeps : List String) :
    upToDate r fs db deps dfDeps = true ↔
      (0 ≤ minTs (r.targets.map fs.mtime) ∧
       (∀ d ∈ deps, fs.mtime d ≤ minTs (r.targets.map fs.mtime)) ∧
       (∀ d ∈ dfDeps, 0 ≤ fs.mtime d ∧ fs.mtime d ≤ minTs (r.targets.map fs.mtime)) ∧
       (∀ t ∈ r.targets, db r.cwd t = some r.signature)) := by
  simp [upToDate, and_assoc]

theorem strDataAppend (s t : String) : (s ++ t).data = s.data ++ t.data := rfl

theorem joinDataAux (l : List String) : ∀ (s : String),
    (l.foldl (fun a b => a ++ b) s).data = s.data ++ (l.map String.data).flatten := by
  induction l with
  | nil => intro s; simp
  | cons x xs ih =>
    intro s
    simp only [List.foldl_cons, ih, strDataAppend, List.map_cons, List.flatten_cons,
      List.append_assoc]

theorem joinData (l : List String) : (String.join l).data = (l.map String.data).flatten := by
  have h := joinDataAux l ""
  simpa [String.join] using h

theorem mem_insertSortedU {x y : String} {l : List String} :
    x ∈ insertSortedU y l → x = y ∨ x ∈ l := by
  induction l with
  | nil => intro h; simp only [insertSortedU, List.mem_singleton] at h; exact Or.inl h
  | cons z zs ih =>
    intro h
    simp only [insertSortedU] at h
    split at h
    · exact Or.inr h
    · split at h
      · rcases List.mem_cons.mp h with h1 | h1
        · exact Or.inl h1
        · exact Or.inr h1
      · rcases List.mem_cons.mp h with h1 | h1
        · exact Or.inr (by simp [h1])
        · rcases ih h1 with h2 | h2
          · exact Or.inl h2
          · exact Or.inr (List.mem_cons_of_mem z h2)

theorem mem_sortedDedup {x : String} {l : List String} (h : x ∈ sortedDedup l) : x ∈ l := by
  induction l with
  | nil => simp only [sortedDedup, List.foldr_nil, List.not_mem_nil] at h
  | cons y ys ih =>
    rcases mem_insertSortedU (l := sortedDedup ys) (by simpa [sortedDedup] using h) with h1 | h1
    · simp [h1]
    · exact List.mem_cons_of_mem y (ih h1)

theorem replaceBSNL_append_noBS (x : List Char) (rest : List Char) (hx : '\\' ∉ x) :
    replaceBSNL (x ++ rest) = x ++ replaceBSNL rest := by
  induction x with
  | nil => rfl
  | cons c x2 ih =>
    have hc : c ≠ '\\' := fun h => hx (h ▸ List.mem_cons_self c x2)
    have hx2 : '\\' ∉ x2 := fun h => hx (List.mem_cons_of_mem c h)
    cases h2 : x2 ++ rest with
    | nil =>
      rcases List.append_eq_nil.mp h2 with ⟨h3, h4⟩
      subst h3; subst h4
      simp [replaceBSNL]
    | cons d t =>
      simp only [List.cons_append, h2, replaceBSNL]
      rw [if_neg (fun hh => hc hh.1), ← h2, ih hx2]

theorem replaceBSNL_cont (x : List Char) (rest : List Char) (hx : '\\' ∉ x) :
    replaceBSNL (x ++ '\\' :: '\n' :: rest) = x ++ replaceBSNL rest := by
  rw [replaceBSNL_append_noBS x _ hx]
  simp [replaceBSNL]

theorem splitPred_ne_nil (f : Char → Bool) (l : List Char) : splitPred f l ≠ [] := by
  cases l with
  | nil => simp [splitPred]
  | cons c rest =>
    simp only [splitPred]
    cases h : splitPred f rest with
    | nil => simp
    | cons g gs =>
      by_cases hf : f c
      · simp [hf]
      · simp [hf]

theorem splitPred_sep_cons (f : Char → Bool) (c : Char) (l : List Char) (hc : f c = true) :
    splitPred f (c :: l) = [] :: splitPred f l := by
  simp only [splitPred]
  cases h : splitPred f l with
  | nil => exact absurd h (splitPred_ne_nil f l)
  | cons g gs => simp [hc]

theorem splitPred_tok_append (f : Char → Bool) (x l : List Char)
    (hx : ∀ c ∈ x, f c = false) :
    splitPred f (x ++ l) =
      (x ++ (splitPred f l).headD []) :: (splitPred f l).tail := by
  induction x with
  | nil =>
    simp only [List.nil_append]
    cases h : splitPred f l with
    | nil => exact absurd h (splitPred_ne_nil f l)
    | cons g gs => simp
  | cons c x2 ih =>
    have hc : f c = false := hx c (List.mem_cons_self c x2)
    have hx2 : ∀ d ∈ x2, f d = false := fun d hd => hx d (List.mem_cons_of_mem c hd)
    rw [List.cons_append]
    simp only [splitPred]
    rw [ih hx2]
    simp [hc]

theorem pySplitWs_space_cons (c : Char) (l : List Char) (hc : pySpace c = true) :
    pySplitWs (c :: l) = pySplitWs l := by
  simp only [pySplitWs, splitPred_sep_cons pySpace c l hc]
  simp

theorem pySplitWs_nil : pySplitWs [] = [] := rfl

theorem pySplitWs_tok (tok : List Char) (c : Char) (l : List Char)
    (hne : tok ≠ []) (hts : ∀ d ∈ tok, pySpace d = false) (hc : pySpace c = true) :
    pySplitWs (tok ++ c :: l) = tok :: pySplitWs l := by
  simp only [pySplitWs, splitPred_tok_append pySpace tok (c :: l) hts,
    splitPred_sep_cons pySpace c l hc]
  simp only [List.headD_cons, List.append_nil, List.tail_cons]
  rw [List.filter_cons_of_pos (by simpa using hne)]

theorem writeDFile_data (target : String) (deps : List String) :
    (writeDFile target deps).data =
      (target.data ++ [':', ' ']) ++ '\\' :: '\n' ::
        (((sortedDedup deps).map (fun d => [' ', ' '] ++ d.data ++ [' ', '\\', '\n'])).flatten
          ++ ['\n']) := by
  show (target ++ ": \\\n" ++ String.join ((sortedDedup deps).map fun d => "  " ++ d ++ " \\\n")
      ++ "\n").data = _
  rw [strDataAppend, strDataAppend, strDataAppend, joinData, List.map_map]
  rw [show (String.data ∘ fun d : String => "  " ++ d ++ " \\\n")
      = fun d : String => [' ', ' '] ++ d.data ++ [' ', '\\', '\n'] from by funext d; rfl]
  simp [show (": \\\n" : String).data = [':', ' ', '\\', '\n'] from rfl,
    show ("\n" : String).data = ['\n'] from rfl, List.append_assoc]

theorem replaceBSNL_pieces (ds : List String) (hbs : ∀ d ∈ ds, '\\' ∉ d.data) :
    replaceBSNL ((ds.map (fun d => [' ', ' '] ++ d.data ++ [' ', '\\', '\n'])).flatten ++ ['\n'])
      = (ds.map (fun d => [' ', ' '] ++ d.data ++ [' '])).flatten ++ ['\n'] := by
  induction ds with
  | nil => simp [replaceBSNL]
  | cons d ds ih =>
    have hd : '\\' ∉ d.data := hbs d (List.mem_cons_self d ds)
    have hds : ∀ x ∈ ds, '\\' ∉ x.data := fun x hx => hbs x (List.mem_cons_of_mem d hx)
    simp only [List.map_cons, List.flatten_cons]
    have hshape : (([' ', ' '] ++ d.data ++ [' ', '\\', '\n']) ++
          ((ds.map (fun x => [' ', ' '] ++ x.data ++ [' ', '\\', '\n'])).flatten)) ++ ['\n']
        = ([' ', ' '] ++ d.data ++ [' ']) ++ '\\' :: '\n' ::
          (((ds.map (fun x => [' ', ' '] ++ x.data ++ [' ', '\\', '\n']))).flatten ++ ['\n']) := by
      simp [List.append_assoc]
    rw [hshape, replaceBSNL_cont _ _ (by
      intro hmem
      rcases List.mem_append.mp hmem with h | h
      · rcases List.mem_append.mp h with h2 | h2
        · simp at h2
        · exact hd h2
      · simp at h)]
    rw [ih hds]
    simp [List.append_assoc]

theorem pySplitWs_pieces (ds : List String)
    (hds : ∀ d ∈ ds, d.data ≠ [] ∧ ∀ c ∈ d.data, pySpace c = false) :
    pySplitWs ((ds.map (fun d => [' ', ' '] ++ d.data ++ [' '])).flatten ++ ['\n'])
      = ds.map String.data := by
  induction ds with
  | nil =>
    simp only [List.map_nil, List.flatten_nil, List.nil_append]
    rw [show (['\n'] : List Char) = '\n' :: [] from rfl,
      pySplitWs_space_cons '\n' [] (by decide)]
    rfl
  | cons d ds ih =>
    have hd := hds d (List.mem_cons_self d ds)
    have hrest : ∀ x ∈ ds, x.data ≠ [] ∧ ∀ c ∈ x.data, pySpace c = false :=
      fun x hx => hds x (List.mem_cons_of_mem d hx)
    simp only [List.map_cons, List.flatten_cons]
    rw [show (([' ', ' '] ++ d.data ++ [' ']) ++
          ((ds.map (fun x => [' ', ' '] ++ x.data ++ [' '])).flatten)) ++ ['\n']
        = ' ' :: ' ' :: (d.data ++ ' ' ::
          ((ds.map (fun x => [' ', ' '] ++ x.data ++ [' '])).flatten ++ ['\n'])) by simp]
    rw [pySplitWs_space_cons ' ' _ (by decide), pySplitWs_space_cons ' ' _ (by decide)]
    rw [pySplitWs_tok d.data ' ' _ hd.1 hd.2 (by decide)]
    rw [ih hrest]

/-- C8 (amended): for a target path with no whitespace and no backslash,
and nonempty dependency paths that are absolute (fixed by `joinpath`),
canonical (fixed by `normpath`) and free of whitespace and backslashes,
the sidecar written by the executor reads back as exactly the sorted
deduplicated dependency list. -/
theorem dfile_roundtrip (nt : Bool) (cwd target : String) (deps : List String)
    (htw : ∀ c ∈ target.data, pySpace c = false)
    (htb : '\\' ∉ target.data)
    (hd : ∀ d ∈ deps, d.data ≠ [] ∧ '\\' ∉ d.data ∧ (∀ c ∈ d.data, pySpace c = false) ∧
      joinpath nt cwd d = d ∧ mkNormpath nt d = d) :
    parseDFile nt cwd (writeDFile target deps) = some (sortedDedup deps) := by
  have hsd : ∀ d ∈ sortedDedup deps, d.data ≠ [] ∧ '\\' ∉ d.data ∧
      (∀ c ∈ d.data, pySpace c = false) ∧ joinpath nt cwd d = d ∧ mkNormpath nt d = d :=
    fun d hdm => hd d (mem_sortedDedup hdm)
  have hrepl : replaceBSNL (writeDFile target deps).data
      = (target.data ++ [':', ' ']) ++
        (((sortedDedup deps).map (fun d => [' ', ' '] ++ d.data ++ [' '])).flatten ++ ['\n']) := by
    rw [writeDFile_data]
    rw [replaceBSNL_cont _ _ (by
      intro hmem
      rcases List.mem_append.mp hmem with h | h
      · exact htb h
      · simp at h)]
    rw [replaceBSNL_pieces _ (fun d hdm => (hsd d hdm).2.1)]
  have hnb : '\\' ∉ replaceBSNL (writeDFile target deps).data := by
    rw [hrepl]
    intro hmem
    rcases List.mem_append.mp hmem with h | h
    · rcases List.mem_append.mp h with h2 | h2
      · exact htb h2
      · simp at h2
    · rcases List.mem_append.mp h with h2 | h2
      · rcases List.mem_flatten.mp h2 with ⟨piece, hp, hcp⟩
        rcases List.mem_map.mp hp with ⟨d, hdm, rfl⟩
        rcases List.mem_append.mp hcp with h3 | h3
        · rcases List.mem_append.mp h3 with h4 | h4
          · simp at h4
          · exact (hsd d hdm).2.1 h4
        · simp at h3
      · simp at h2
  unfold parseDFile
  rw [if_neg hnb, hrepl]
  rw [show (target.data ++ [':', ' ']) ++
      (((sortedDedup deps).map (fun d => [' ', ' '] ++ d.data ++ [' '])).flatten ++ ['\n'])
      = (target.data ++ [':']) ++ ' ' ::
        (((sortedDedup deps).map (fun d => [' ', ' '] ++ d.data ++ [' '])).flatten ++ ['\n'])
      by simp]
  rw [pySplitWs_tok (target.data ++ [':']) ' ' _ (by simp)
    (by
      intro c hc
      rcases List.mem_append.mp hc with h | h
      · exact htw c h
      · simp only [List.mem_singleton] at h
        subst h
        decide)
    (by decide)]
  rw [pySplitWs_pieces _ (fun d hdm => ⟨(hsd d hdm).1, (hsd d hdm).2.2.1⟩)]
  simp only [List.drop_succ_cons, List.drop_zero, List.map_map]
  congr 1
  rw [show ((fun g => resolve nt cwd (String.mk g)) ∘ String.data) = fun d : String =>
      resolve nt cwd d from rfl]
  have : ∀ d ∈ sortedDedup deps, resolve nt cwd d = d := by
    intro d hdm
    unfold resolve
    rw [(hsd d hdm).2.2.2.1, (hsd d hdm).2.2.2.2]
  calc (sortedDedup deps).map (fun d => resolve nt cwd d)
      = (sortedDedup deps).map id := List.map_congr_left this
    _ = sortedDedup deps := List.map_id _

theorem dfile_roundtrip_witness :
    ('\\' ∉ ("/t" : String).data) ∧
      parseDFile false "/c" (writeDFile "/t" ["/b", "/a", "/b"]) = some (sortedDedup ["/b", "/a", "/b"]) :=
  ⟨by decide,
    dfile_roundtrip false "/c" "/t" ["/b", "/a", "/b"] (by decide) (by decide) (by decide)⟩

theorem removeAll_entries (ts : List String) : ∀ (fs : FS) (t : String),
    (removeAll fs ts).entries t = if t ∈ ts then none else fs.entries t := by
  induction ts with
  | nil => intro fs t; simp [removeAll]
  | cons x ts ih =>
    intro fs t
    show (removeAll (fs.remove x) ts).entries t = _
    rw [ih]
    by_cases h1 : t ∈ ts
    · simp [h1]
    · by_cases h2 : t = x
      · simp [h1, h2, FS.remove]
      · simp [h1, h2, FS.remove, List.mem_cons]

theorem mem_zip_right {α β : Type} {b : β} : ∀ (as : List α) (bs : List β),
    as.length = bs.length → b ∈ bs → ∃ a, (a, b) ∈ as.zip bs := by
  intro as
  induction as with
  | nil =>
    intro bs hlen hb
    cases bs with
    | nil => exact absurd hb (List.not_mem_nil b)
    | cons c cs => simp at hlen
  | cons a as ih =>
    intro bs hlen hb
    cases bs with
    | nil => simp at hlen
    | cons c cs =>
      rcases List.mem_cons.mp hb with h | h
      · exact ⟨a, by simp [h]⟩
      · obtain ⟨a2, ha2⟩ := ih cs (by simpa using hlen) h
        exact ⟨a2, List.mem_cons_of_mem _ ha2⟩

theorem runCmdLoop_cons_spec (nt v pg : Bool) (cols : Nat) (r : Rule) (bt : String)
    (cmd : List String) (res : CmdResult) (rest : List (List String × CmdResult))
    (allOut : List String) (s : St)
    (hscan : r.msvcShowIncludes = true → r.dFile.isSome ∧ r.targets.length = 1) :
    (cmdCode res ≠ 0 →
      (runCmdLoop nt v pg cols r bt ((cmd, res) :: rest) allOut s).aborted = true ∧
      (runCmdLoop nt v pg cols r bt ((cmd, res) :: rest) allOut s).anyErrors = true ∧
      (runCmdLoop nt v pg cols r bt ((cmd, res) :: rest) allOut s).db = s.db ∧
      ∃ fs3, (runCmdLoop nt v pg cols r bt ((cmd, res) :: rest) allOut s).fs
        = removeAll fs3 r.targets) ∧
    (cmdCode res = 0 →
      ∃ fs3 allOut2, runCmdLoop nt v pg cols r bt ((cmd, res) :: rest) allOut s =
        runCmdLoop nt v pg cols r bt rest allOut2 { s with fs := fs3 }) := by
  have hstep : ∃ out2 fs3,
      (if r.msvcShowIncludes then
        includeScanStep nt r
          (match res with
            | .spawnFail msg => msg
            | .ran out _ _ => String.mk (pyStrip out.data))
          (match res with | .spawnFail _ => s.fs | .ran _ _ eff => eff s.fs)
      else
        match r.stdoutFilter with
        | some f =>
          some (String.mk (List.intercalate ['\n']
            ((pySplitLines
              (match res with
                | .spawnFail msg => msg
                | .ran out _ _ => String.mk (pyStrip out.data)).data).filter
              (fun l => ¬ f (String.mk l)))),
            (match res with | .spawnFail _ => s.fs | .ran _ _ eff => eff s.fs))
        | none =>
          some ((match res with
            | .spawnFail msg => msg
            | .ran out _ _ => String.mk (pyStrip out.data)),
            (match res with | .spawnFail _ => s.fs | .ran _ _ eff => eff s.fs))) =
      some (out2, fs3) := by
    by_cases hm : r.msvcShowIncludes = true
    · obtain ⟨hdfs, hlen⟩ := hscan hm
      obtain ⟨df, hdf⟩ := Option.isSome_iff_exists.mp hdfs
      rw [if_pos hm]
      simp only [includeScanStep, hdf, hlen, if_pos]
      exact ⟨_, _, rfl⟩
    · rw [if_neg hm]
      cases hsf : r.stdoutFilter with
      | none => exact ⟨_, _, rfl⟩
      | some f => exact ⟨_, _, rfl⟩
  obtain ⟨out2, fs3, hstep⟩ := hstep
  constructor
  · intro hc
    simp only [runCmdLoop, hstep]
    rw [if_pos hc]
    exact ⟨rfl, rfl, rfl, _, rfl⟩
  · intro hc
    simp only [runCmdLoop, hstep]
    rw [if_neg (by simp [hc])]
    exact ⟨_, _, rfl⟩

theorem runCmdLoop_spec (nt v pg : Bool) (cols : Nat) (r : Rule) (bt : String)
    (hscan : r.msvcShowIncludes = true → r.dFile.isSome ∧ r.targets.length = 1) :
    ∀ (pairs : List (List String × CmdResult)) (allOut : List String) (s : St),
    s.aborted = false →
    (∀ t ∈ r.targets, s.db r.cwd t = none) →
    ((∃ p ∈ pairs, cmdCode p.2 ≠ 0) →
      (runCmdLoop nt v pg cols r bt pairs allOut s).aborted = true ∧
      (runCmdLoop nt v pg cols r bt pairs allOut s).anyErrors = true ∧
      (∀ t ∈ r.targets, (runCmdLoop nt v pg cols r bt pairs allOut s).fs.entries t = none) ∧
      (∀ t ∈ r.targets, (runCmdLoop nt v pg cols r bt pairs allOut s).db r.cwd t = none)) ∧
    ((∀ p ∈ pairs, cmdCode p.2 = 0) →
      (runCmdLoop nt v pg cols r bt pairs allOut s).aborted = false ∧
      (∀ t ∈ r.targets,
        (runCmdLoop nt v pg cols r bt pairs allOut s).db r.cwd t = some r.signature)) := by
  intro pairs
  induction pairs with
  | nil =>
    intro allOut s hab hdb
    constructor
    · rintro ⟨p, hp, _⟩
      exact absurd hp (List.not_mem_nil p)
    · intro _
      constructor
      · show (runCmdLoop nt v pg cols r bt [] allOut s).aborted = false
        simp only [runCmdLoop]
        split
        · exact hab
        · split
          · exact hab
          · exact hab
      · intro t ht
        show (runCmdLoop nt v pg cols r bt [] allOut s).db r.cwd t = some r.signature
        simp only [runCmdLoop]
        split
        · simp [commitDb, ht]
        · split
          · simp [commitDb, ht]
          · simp [commitDb, ht]
  | cons pr rest ih =>
    intro allOut s hab hdb
    obtain ⟨cmd, res⟩ := pr
    have hcs := runCmdLoop_cons_spec nt v pg cols r bt cmd res rest allOut s hscan
    by_cases hc : cmdCode res = 0
    · obtain ⟨fs3, allOut2, heq⟩ := hcs.2 hc
      rw [heq]
      have := ih allOut2 { s with fs := fs3 } hab hdb
      constructor
      · intro hex
        refine this.1 ?_
        rcases hex with ⟨p, hp, hpc⟩
        rcases List.mem_cons.mp hp with h | h
        · rw [h] at hpc
          exact absurd hc hpc
        · exact ⟨p, h, hpc⟩
      · intro hall
        exact this.2 (fun p hp => hall p (List.mem_cons_of_mem _ hp))
    · obtain ⟨hcab, hcerr, hcdb, fs3, hcfs⟩ := hcs.1 hc
      constructor
      · intro _
        refine ⟨hcab, hcerr, ?_, ?_⟩
        · intro t ht
          rw [hcfs, removeAll_entries]
          simp [ht]
        · intro t ht
          rw [hcdb]
          exact hdb t ht
      · intro hall
        exact absurd (hall (cmd, res) (List.mem_cons_self _ _)) hc

/-- C3: if any command of a rule exits with a nonzero code (a spawn
failure counting as exit 1), then at termination every target of the rule
is absent from disk, the cwd fingerprint database holds no entry for any
of its targets, the error flag is set and the process exits with code 1;
signatures are committed only after every command of the rule succeeds
(on an all-zero run each target's entry becomes the rule's signature).
The hypothesis on the include-scan fields rules out the unrelated crash
of the one-target assertion. -/
theorem run_cmd_failure_atomicity (nt v pg : Bool) (cols : Nat) (r : Rule)
    (results : List CmdResult) (s : St)
    (hab : s.aborted = false)
    (hlen : r.cmds.length = results.length)
    (hscan : r.msvcShowIncludes = true → r.dFile.isSome ∧ r.targets.length = 1) :
    ((∃ res ∈ results, cmdCode res ≠ 0) →
      (runCmd nt v pg cols r results s).aborted = true ∧
      (runCmd nt v pg cols r results s).anyErrors = true ∧
      (∀ t ∈ r.targets, (runCmd nt v pg cols r results s).fs.entries t = none) ∧
      (∀ t ∈ r.targets, (runCmd nt v pg cols r results s).db r.cwd t = none)) ∧
    ((∀ res ∈ results, cmdCode res = 0) →
      (runCmd nt v pg cols r results s).aborted = false ∧
      (∀ t ∈ r.targets, (runCmd nt v pg cols r results s).db r.cwd t = some r.signature)) := by
  have hred : runCmd nt v pg cols r results s =
      runCmdLoop nt v pg cols r (builtTextP pg cols r) (r.cmds.zip results) []
        { s with fs := removeAll s.fs r.targets, db := eraseDbTargets s.db r.cwd r.targets } := by
    unfold runCmd
    rw [if_neg (by simp [hab])]
  have hdb0 : ∀ t ∈ r.targets,
      eraseDbTargets s.db r.cwd r.targets r.cwd t = none := by
    intro t ht
    simp [eraseDbTargets, ht]
  have hspec := runCmdLoop_spec nt v pg cols r (builtTextP pg cols r) hscan
    (r.cmds.zip results) []
    { s with fs := removeAll s.fs r.targets, db := eraseDbTargets s.db r.cwd r.targets }
    hab hdb0
  rw [hred]
  constructor
  · intro hex
    obtain ⟨res, hres, hrc⟩ := hex
    obtain ⟨c, hc⟩ := mem_zip_right r.cmds results hlen hres
    exact hspec.1 ⟨(c, res), hc, hrc⟩
  · intro hall
    refine hspec.2 ?_
    intro p hp
    exact hall p.2 (List.of_mem_zip hp).2

theorem run_cmd_failure_atomicity_witness :
    (cmdCode (CmdResult.ran "boom" 2 id) ≠ 0) ∧
    (runCmd false false false 0 exRuleFail [CmdResult.ran "boom" 2 id]
      (initSt ⟨fun p => if p = "/out" then some (3, "") else none⟩ (fun _ _ => none))).aborted
      = true :=
  ⟨by decide,
    ((run_cmd_failure_atomicity false false false 0 exRuleFail [CmdResult.ran "boom" 2 id]
      (initSt ⟨fun p => if p = "/out" then some (3, "") else none⟩ (fun _ _ => none))
      rfl rfl (by intro h; exact absurd h (by decide))).1
      ⟨CmdResult.ran "boom" 2 id, List.mem_singleton_self _, by decide⟩).1⟩

theorem self_mem_insertSortedU (y : String) (l : List String) : y ∈ insertSortedU y l := by
  induction l with
  | nil => simp [insertSortedU]
  | cons z zs ih =>
    by_cases h1 : y = z
    · simp [insertSortedU, h1]
    · by_cases h2 : y < z
      · simp [insertSortedU, h1, h2]
      · simp only [insertSortedU, if_neg h1, if_neg h2]
        exact List.mem_cons_of_mem z ih

theorem mem_insertSortedU_of_mem {x : String} (y : String) {l : List String} (h : x ∈ l) :
    x ∈ insertSortedU y l := by
  induction l with
  | nil => exact absurd h (List.not_mem_nil x)
  | cons z zs ih =>
    by_cases h1 : y = z
    · simpa [insertSortedU, h1] using h
    · by_cases h2 : y < z
      · simp only [insertSortedU, if_neg h1, if_pos h2]
        exact List.mem_cons_of_mem y h
      · simp only [insertSortedU, if_neg h1, if_neg h2]
        rcases List.mem_cons.mp h with h3 | h3
        · simp [h3]
        · exact List.mem_cons_of_mem z (ih h3)

theorem mem_insertSortedU_iff {x y : String} {l : List String} :
    x ∈ insertSortedU y l ↔ x = y ∨ x ∈ l := by
  constructor
  · exact mem_insertSortedU
  · rintro (rfl | h)
    · exact self_mem_insertSortedU x l
    · exact mem_insertSortedU_of_mem y h

theorem mem_sortedDedup_iff {x : String} {l : List String} :
    x ∈ sortedDedup l ↔ x ∈ l := by
  induction l with
  | nil => simp [sortedDedup]
  | cons y ys ih =>
    show x ∈ insertSortedU y (sortedDedup ys) ↔ _
    rw [mem_insertSortedU_iff, ih, List.mem_cons]

theorem insertSortedU_sorted (x : String) {l : List String}
    (h : List.Sorted (· < ·) l) : List.Sorted (· < ·) (insertSortedU x l) := by
  induction l with
  | nil => simp [insertSortedU]
  | cons y ys ih =>
    obtain ⟨hy, hys⟩ := List.sorted_cons.mp h
    by_cases h1 : x = y
    · simpa [insertSortedU, h1] using h
    · by_cases h2 : x < y
      · simp only [insertSortedU, if_neg h1, if_pos h2]
        rw [List.sorted_cons]
        refine ⟨?_, h⟩
        intro b hb
        rcases List.mem_cons.mp hb with h3 | h3
        · exact h3 ▸ h2
        · exact lt_trans h2 (hy b h3)
      · have h3 : y < x := by
          rcases lt_trichotomy x y with h4 | h4 | h4
          · exact absurd h4 h2
          · exact absurd h4 h1
          · exact h4
        simp only [insertSortedU, if_neg h1, if_neg h2]
        rw [List.sorted_cons]
        refine ⟨?_, ih hys⟩
        intro b hb
        rcases mem_insertSortedU hb with h4 | h4
        · exact h4 ▸ h3
        · exact hy b h4

theorem sortedDedup_sorted (l : List String) : List.Sorted (· < ·) (sortedDedup l) := by
  induction l with
  | nil => simp [sortedDedup]
  | cons y ys ih => exact insertSortedU_sorted y ih

theorem sortedDedup_nodup (l : List String) : (sortedDedup l).Nodup :=
  (sortedDedup_sorted l).nodup

theorem scanFold_snd (nt : Bool) : ∀ (lines : List (List Char))
    (acc : List String × List (List Char)),
    (List.foldl (scanStep nt) acc lines).2
      = acc.2 ++ lines.filter (fun l => (matchInclude l).isNone) := by
  intro lines
  induction lines with
  | nil => intro acc; simp
  | cons l ls ih =>
    intro acc
    rw [List.foldl_cons, ih]
    cases hm : matchInclude l with
    | some p =>
      rw [List.filter_cons_of_neg (by simp [hm])]
      by_cases hp : (mkNormpath nt (String.mk p)).data.take 16 = pfPfx
      · simp [scanStep, hm, hp]
      · simp [scanStep, hm, hp]
    | none =>
      rw [List.filter_cons_of_pos (by simp [hm])]
      simp [scanStep, hm]

theorem scanFold_fst (nt : Bool) : ∀ (lines : List (List Char))
    (acc : List String × List (List Char)) (d : String),
    (d ∈ (List.foldl (scanStep nt) acc lines).1 ↔
      d ∈ acc.1 ∨ ∃ l ∈ lines, ∃ p, matchInclude l = some p ∧
        mkNormpath nt (String.mk p) = d ∧ ¬(d.data.take 16 = pfPfx)) := by
  intro lines
  induction lines with
  | nil => intro acc d; simp
  | cons l ls ih =>
    intro acc d
    rw [List.foldl_cons, ih]
    cases hm : matchInclude l with
    | some p =>
      by_cases hp : (mkNormpath nt (String.mk p)).data.take 16 = pfPfx
      · simp only [scanStep, hm, if_pos hp]
        constructor
        · rintro (h | h)
          · exact Or.inl h
          · exact Or.inr (by
              obtain ⟨l2, hl2, hrest⟩ := h
              exact ⟨l2, List.mem_cons_of_mem l hl2, hrest⟩)
        · rintro (h | ⟨l2, hl2, p2, hm2, hd2, hp2⟩)
          · exact Or.inl h
          · rcases List.mem_cons.mp hl2 with h3 | h3
            · rw [h3] at hm2
              rw [hm] at hm2
              injection hm2 with hpp
              subst hpp
              rw [hd2] at hp
              exact absurd hp hp2
            · exact Or.inr ⟨l2, h3, p2, hm2, hd2, hp2⟩
      · simp only [scanStep, hm, if_neg hp]
        constructor
        · rintro (h | h)
          · rcases List.mem_cons.mp h with h3 | h3
            · exact Or.inr ⟨l, List.mem_cons_self l ls, p, hm, h3.symm, h3 ▸ hp⟩
            · exact Or.inl h3
          · exact Or.inr (by
              obtain ⟨l2, hl2, hrest⟩ := h
              exact ⟨l2, List.mem_cons_of_mem l hl2, hrest⟩)
        · rintro (h | ⟨l2, hl2, p2, hm2, hd2, hp2⟩)
          · exact Or.inl (List.mem_cons_of_mem _ h)
          · rcases List.mem_cons.mp hl2 with h3 | h3
            · rw [h3, hm] at hm2
              injection hm2 with hpp
              subst hpp
              exact Or.inl (by rw [hd2]; exact List.mem_cons_self _ _)
            · exact Or.inr ⟨l2, h3, p2, hm2, hd2, hp2⟩
    | none =>
      simp only [scanStep, hm]
      constructor
      · rintro (h | h)
        · exact Or.inl h
        · exact Or.inr (by
            obtain ⟨l2, hl2, hrest⟩ := h
            exact ⟨l2, List.mem_cons_of_mem l hl2, hrest⟩)
      · rintro (h | ⟨l2, hl2, p2, hm2, hd2, hp2⟩)
        · exact Or.inl h
        · rcases List.mem_cons.mp hl2 with h3 | h3
          · rw [h3, hm] at hm2
            exact absurd hm2 (Option.noConfusion)
          · exact Or.inr ⟨l2, h3, p2, hm2, hd2, hp2⟩

theorem scanDeps_snd (nt : Bool) (lines : List (List Char)) :
    (scanDeps nt lines).2 = lines.filter (fun l => (matchInclude l).isNone) := by
  rw [scanDeps, scanFold_snd]
  rfl

theorem scanDeps_fst_mem (nt : Bool) (lines : List (List Char)) (d : String) :
    d ∈ (scanDeps nt lines).1 ↔
      ∃ l ∈ lines, ∃ p, matchInclude l = some p ∧
        mkNormpath nt (String.mk p) = d ∧ ¬(d.data.take 16 = pfPfx) := by
  rw [scanDeps, scanFold_fst]
  simp

theorem ruleOf_get {rules : List Rule} {t : String} {i : Nat}
    (h : ruleOf rules t = some i) : ∃ r, rules.get? i = some r ∧ t ∈ r.targets := by
  induction rules generalizing i with
  | nil => simp [ruleOf] at h
  | cons r0 rest ih =>
    rw [ruleOf, List.findIdx?_cons] at h
    by_cases h0 : t ∈ r0.targets
    · rw [if_pos (by simpa using h0)] at h
      injection h with h2
      refine ⟨r0, ?_, h0⟩
      rw [← h2]
      rfl
    · rw [if_neg (by simpa using h0), List.findIdx?_succ] at h
      obtain ⟨k, hk, hki⟩ := Option.map_eq_some'.mp h
      obtain ⟨r, hr, hm⟩ := ih hk
      refine ⟨r, ?_, hm⟩
      rw [← hki]
      simpa using hr

theorem ruleOf_of_mem {rules : List Rule} {t : String} {i : Nat} {r : Rule}
    (hwf : WFRules rules) (hg : rules.get? i = some r) (hm : t ∈ r.targets) :
    ruleOf rules t = some i := by
  induction rules generalizing i with
  | nil => simp at hg
  | cons r0 rest ih =>
    obtain ⟨hne, hpw⟩ := hwf
    rw [List.pairwise_cons] at hpw
    cases i with
    | zero =>
      injection hg with h2
      subst h2
      rw [ruleOf, List.findIdx?_cons, if_pos (by simpa using hm)]
    | succ k =>
      have hgr : rest.get? k = some r := by simpa using hg
      have hrmem : r ∈ rest := by
        have := List.get?_eq_some.mp hgr
        obtain ⟨hlt, he⟩ := this
        exact he ▸ List.get_mem rest k hlt
      have h0 : t ∉ r0.targets := fun hx => (hpw.1 r hrmem t hx) hm
      rw [ruleOf, List.findIdx?_cons, if_neg (by simpa using h0), List.findIdx?_succ]
      have hrec := ih ⟨fun x hx => hne x (List.mem_cons_of_mem r0 hx), hpw.2⟩ hgr
      rw [show List.findIdx? (fun r => decide (t ∈ r.targets)) rest 0 = some k from hrec]
      rfl

theorem runCmdLoop_frame (nt v pg : Bool) (cols : Nat) (r : Rule) (bt : String) :
    ∀ (pairs : List (List String × CmdResult)) (allOut : List String) (s : St),
    (runCmdLoop nt v pg cols r bt pairs allOut s).visited = s.visited ∧
    (runCmdLoop nt v pg cols r bt pairs allOut s).enqueued = s.enqueued ∧
    (runCmdLoop nt v pg cols r bt pairs allOut s).completed = s.completed ∧
    (runCmdLoop nt v pg cols r bt pairs allOut s).building = s.building ∧
    (runCmdLoop nt v pg cols r bt pairs allOut s).queue = s.queue ∧
    (runCmdLoop nt v pg cols r bt pairs allOut s).counter = s.counter ∧
    (runCmdLoop nt v pg cols r bt pairs allOut s).dispatched = s.dispatched ∧
    (runCmdLoop nt v pg cols r bt pairs allOut s).executed = s.executed := by
  intro pairs
  induction pairs with
  | nil =>
    intro allOut s
    simp only [runCmdLoop]
    split
    · exact ⟨rfl, rfl, rfl, rfl, rfl, rfl, rfl, rfl⟩
    · split
      · exact ⟨rfl, rfl, rfl, rfl, rfl, rfl, rfl, rfl⟩
      · exact ⟨rfl, rfl, rfl, rfl, rfl, rfl, rfl, rfl⟩
  | cons pr rest ih =>
    intro allOut s
    obtain ⟨cmd, res⟩ := pr
    simp only [runCmdLoop]
    split
    · exact ⟨rfl, rfl, rfl, rfl, rfl, rfl, rfl, rfl⟩
    · split
      · exact ⟨rfl, rfl, rfl, rfl, rfl, rfl, rfl, rfl⟩
      · exact ih _ _

theorem runCmd_frame (nt v pg : Bool) (cols : Nat) (r : Rule) (results : List CmdResult)
    (s : St) :
    (runCmd nt v pg cols r results s).visited = s.visited ∧
    (runCmd nt v pg cols r results s).enqueued = s.enqueued ∧
    (runCmd nt v pg cols r results s).completed = s.completed ∧
    (runCmd nt v pg cols r results s).building = s.building ∧
    (runCmd nt v pg cols r results s).queue = s.queue ∧
    (runCmd nt v pg cols r results s).counter = s.counter ∧
    (runCmd nt v pg cols r results s).dispatched = s.dispatched ∧
    (runCmd nt v pg cols r results s).executed = s.executed := by
  unfold runCmd
  split
  · exact ⟨rfl, rfl, rfl, rfl, rfl, rfl, rfl, rfl⟩
  · exact runCmdLoop_frame nt v pg cols r (builtTextP pg cols r) (r.cmds.zip results) [] _

theorem build_eq_of_aborted (nt par v pg : Bool) (cols : Nat) (rules : List Rule)
    (prio : Nat → Nat) (oracle : Nat → List CmdResult) (fuel : Nat) (target : String)
    (s : St) (hab : s.aborted = true) :
    build nt par v pg cols rules prio oracle (fuel + 1) target s = s := by
  simp [build, hab]

theorem build_eq_of_seen (nt par v pg : Bool) (cols : Nat) (rules : List Rule)
    (prio : Nat → Nat) (oracle : Nat → List CmdResult) (fuel : Nat) (target : String)
    (s : St) (hab : s.aborted = false) (h : target ∈ s.visited ∨ target ∈ s.completed) :
    build nt par v pg cols rules prio oracle (fuel + 1) target s = s := by
  simp only [build, hab, Bool.false_eq_true, if_false]
  rw [if_pos h]

theorem build_eq_of_source (nt par v pg : Bool) (cols : Nat) (rules : List Rule)
    (prio : Nat → Nat) (oracle : Nat → List CmdResult) (fuel : Nat) (target : String)
    (s : St) (hab : s.aborted = false) (hns : ¬(target ∈ s.visited ∨ target ∈ s.completed))
    (hro : ruleOf rules target = none) :
    build nt par v pg cols rules prio oracle (fuel + 1) target s =
      { s with visited := s.visited ++ [target], completed := s.completed ++ [target] } := by
  simp only [build, hab, Bool.false_eq_true, if_false]
  rw [if_neg hns, hro]

theorem build_eq_of_norule (nt par v pg : Bool) (cols : Nat) (rules : List Rule)
    (prio : Nat → Nat) (oracle : Nat → List CmdResult) (fuel : Nat) (target : String)
    (s : St) (hab : s.aborted = false) (hns : ¬(target ∈ s.visited ∨ target ∈ s.completed))
    (i : Nat) (hro : ruleOf rules target = some i) (hgr : rules.get? i = none) :
    build nt par v pg cols rules prio oracle (fuel + 1) target s = s := by
  simp only [build, hab, Bool.false_eq_true, if_false]
  rw [if_neg hns, hro]
  simp only [hgr]

theorem build_eq_of_enqueued (nt par v pg : Bool) (cols : Nat) (rules : List Rule)
    (prio : Nat → Nat) (oracle : Nat → List CmdResult) (fuel : Nat) (target : String)
    (s : St) (hab : s.aborted = false) (hns : ¬(target ∈ s.visited ∨ target ∈ s.completed))
    (i : Nat) (r : Rule) (hro : ruleOf rules target = some i) (hgr : rules.get? i = some r)
    (henq : target ∈ s.enqueued) :
    build nt par v pg cols rules prio oracle (fuel + 1) target s =
      { s with visited := s.visited ++ r.targets } := by
  simp only [build, hab, Bool.false_eq_true, if_false]
  rw [if_neg hns, hro]
  simp only [hgr]
  rw [if_pos henq]

theorem build_eq_of_dfnone (nt par v pg : Bool) (cols : Nat) (rules : List Rule)
    (prio : Nat → Nat) (oracle : Nat → List CmdResult) (fuel : Nat) (target : String)
    (s : St) (hab : s.aborted = false) (hns : ¬(target ∈ s.visited ∨ target ∈ s.completed))
    (i : Nat) (r : Rule) (hro : ruleOf rules target = some i) (hgr : rules.get? i = some r)
    (henq : target ∉ s.enqueued) (hdf : dfDepsOf nt s.fs r = none) :
    build nt par v pg cols rules prio oracle (fuel + 1) target s =
      { s with visited := s.visited ++ r.targets, aborted := true } := by
  simp only [build, hab, Bool.false_eq_true, if_false]
  rw [if_neg hns, hro]
  simp only [hgr]
  rw [if_neg henq, hdf]

theorem build_eq_of_body (nt par v pg : Bool) (cols : Nat) (rules : List Rule)
    (prio : Nat → Nat) (oracle : Nat → List CmdResult) (fuel : Nat) (target : String)
    (s : St) (hab : s.aborted = false) (hns : ¬(target ∈ s.visited ∨ target ∈ s.completed))
    (i : Nat) (r : Rule) (dfDeps : List String)
    (hro : ruleOf rules target = some i) (hgr : rules.get? i = some r)
    (henq : target ∉ s.enqueued) (hdf : dfDepsOf nt s.fs r = some dfDeps) :
    build nt par v pg cols rules prio oracle (fuel + 1) target s =
      (fun s2 => if s2.aborted = true then s2
        else if ((depsOf nt r ++ dfDeps ++ r.orderOnlyDeps).any
            fun d => decide (d ∉ s2.completed)) = true then s2
        else oracleStep nt par v pg cols prio oracle r i target (depsOf nt r) dfDeps s2)
      ((depsOf nt r ++ dfDeps ++ r.orderOnlyDeps).foldl
        (fun st d => build nt par v pg cols rules prio oracle fuel d st)
        { s with visited := s.visited ++ r.targets }) := by
  simp only [build, hab, Bool.false_eq_true, if_false]
  rw [if_neg hns, hro]
  simp only [hgr]
  rw [if_neg henq, hdf]

/-- The fields that the decision tail `oracleStep` can change never
include the dispatch bookkeeping in a way other than the dispatch branch:
precisely, either it leaves `enqueued`, `dispatched`, `visited` and
`executed` unchanged, or (parallel dispatch) it appends the rule targets
to `enqueued` and the rule index to `dispatched`, or (serial dispatch) it
appends the rule index to `executed`; `visited` is never changed. -/
theorem oracleStep_cases (nt par v pg : Bool) (cols : Nat) (prio : Nat → Nat)
    (oracle : Nat → List CmdResult) (r : Rule) (i : Nat) (target : String)
    (deps dfDeps : List String) (s : St) :
    ((oracleStep nt par v pg cols prio oracle r i target deps dfDeps s).visited = s.visited) ∧
    (((oracleStep nt par v pg cols prio oracle r i target deps dfDeps s).enqueued = s.enqueued ∧
      (oracleStep nt par v pg cols prio oracle r i target deps dfDeps s).dispatched
        = s.dispatched ∧
      (oracleStep nt par v pg cols prio oracle r i target deps dfDeps s).executed = s.executed) ∨
     (par = true ∧
      (oracleStep nt par v pg cols prio oracle r i target deps dfDeps s).enqueued
          = s.enqueued ++ r.targets ∧
      (oracleStep nt par v pg cols prio oracle r i target deps dfDeps s).dispatched
          = s.dispatched ++ [i] ∧
      (oracleStep nt par v pg cols prio oracle r i target deps dfDeps s).executed
          = s.executed) ∨
     (par = false ∧
      (oracleStep nt par v pg cols prio oracle r i target deps dfDeps s).enqueued = s.enqueued ∧
      (oracleStep nt par v pg cols prio oracle r i target deps dfDeps s).dispatched
          = s.dispatched ∧
      (oracleStep nt par v pg cols prio oracle r i target deps dfDeps s).executed
          = s.executed ++ [i])) := by
  unfold oracleStep
  by_cases h1 : r.targets = []
  · rw [if_pos h1]
    exact ⟨by trivial, Or.inl ⟨by trivial, by trivial, by trivial⟩⟩
  · rw [if_neg h1]
    cases hfind : deps.find? (fun d => decide (s.fs.mtime d < 0)) with
    | some d =>
      simp only [hfind]
      exact ⟨by trivial, Or.inl ⟨by trivial, by trivial, by trivial⟩⟩
    | none =>
      simp only [hfind]
      by_cases hu : upToDate r s.fs s.db deps dfDeps = true
      · rw [if_pos hu]
        exact ⟨by trivial, Or.inl ⟨by trivial, by trivial, by trivial⟩⟩
      · rw [if_neg hu]
        cases hpar : par with
        | true =>
          subst hpar
          exact ⟨by trivial, Or.inr (Or.inl ⟨by trivial, by trivial, by trivial, by trivial⟩)⟩
        | false =>
          subst hpar
          simp only [Bool.false_eq_true, if_false]
          have hfr := runCmd_frame nt v pg cols r (oracle i)
            { s with fs := ensureDirs s.fs r.targets, executed := s.executed ++ [i] }
          by_cases hab4 : (runCmd nt v pg cols r (oracle i)
              { s with fs := ensureDirs s.fs r.targets, executed := s.executed ++ [i] }).aborted
              = true
          · rw [if_pos hab4]
            exact ⟨hfr.1, Or.inr (Or.inr
              ⟨by trivial, hfr.2.1, hfr.2.2.2.2.2.2.1, hfr.2.2.2.2.2.2.2⟩)⟩
          · rw [if_neg hab4]
            exact ⟨hfr.1, Or.inr (Or.inr
              ⟨by trivial, hfr.2.1, hfr.2.2.2.2.2.2.1, hfr.2.2.2.2.2.2.2⟩)⟩

/-- A completed (or already-visited) target makes the walk a no-op. -/
theorem build_noop_of_completed (nt par v pg : Bool) (cols : Nat) (rules : List Rule)
    (prio : Nat → Nat) (oracle : Nat → List CmdResult) (fuel : Nat) (d : String) (s : St)
    (hab : s.aborted = false) (hc : d ∈ s.completed) :
    build nt par v pg cols rules prio oracle fuel d s = s := by
  cases fuel with
  | zero => rfl
  | succ n =>
    simp only [build, hab, Bool.false_eq_true, if_false]
    rw [if_pos (Or.inr hc)]

theorem foldl_build_noop (nt par v pg : Bool) (cols : Nat) (rules : List Rule)
    (prio : Nat → Nat) (oracle : Nat → List CmdResult) (fuel : Nat) (ds : List String) (s : St)
    (hab : s.aborted = false) (hc : ∀ d ∈ ds, d ∈ s.completed) :
    ds.foldl (fun st d => build nt par v pg cols rules prio oracle fuel d st) s = s := by
  induction ds with
  | nil => rfl
  | cons d ds ih =>
    simp only [List.foldl_cons]
    rw [build_noop_of_completed nt par v pg cols rules prio oracle fuel d s hab
      (hc d (List.mem_cons_self d ds))]
    exact ih (fun x hx => hc x (List.mem_cons_of_mem d hx))

/-- Under the completion-gate hypotheses, one step of the walk reduces to
the decision tail `oracleStep` on the state with the rule targets added
to `visited`. -/
theorem build_reaches_decision (nt par v pg : Bool) (cols : Nat) (rules : List Rule)
    (prio : Nat → Nat) (oracle : Nat → List CmdResult) (fuel : Nat) (target : String)
    (s : St) (i : Nat) (r : Rule) (dfDeps : List String)
    (hab : s.aborted = false) (hnv : target ∉ s.visited) (hnc : target ∉ s.completed)
    (hro : ruleOf rules target = some i) (hgr : rules.get? i = some r)
    (hne : target ∉ s.enqueued)
    (hdf : dfDepsOf nt s.fs r = some dfDeps)
    (hcomp : ∀ d ∈ depsOf nt r ++ dfDeps ++ r.orderOnlyDeps, d ∈ s.completed) :
    build nt par v pg cols rules prio oracle (fuel + 1) target s =
      oracleStep nt par v pg cols prio oracle r i target (depsOf nt r) dfDeps
        { s with visited := s.visited ++ r.targets } := by
  obtain ⟨fs0, db0, vis0, enq0, comp0, bld0, q0, ctr0, disp0, exec0, log0, err0, ab0⟩ := s
  simp only at hab hnv hnc hne hdf hcomp
  subst hab
  simp only [build, Bool.false_eq_true, if_false]
  rw [if_neg (fun h => h.elim hnv hnc), hro]
  simp only [hgr]
  rw [if_neg hne]
  rw [hdf]
  simp only
  rw [foldl_build_noop nt par v pg cols rules prio oracle fuel _ _ rfl hcomp]
  have hany : ¬((((depsOf nt r ++ dfDeps ++ r.orderOnlyDeps)).any fun d =>
      decide (d ∉ comp0)) = true) := by
    simp only [List.any_eq_true, decide_eq_true_eq, not_exists, not_and, not_not]
    intro d hd
    exact hcomp d hd
  simp only [Bool.false_eq_true, if_false, hany]

theorem DConcl_refl (rules : List Rule) (s : St) (hinv : DispatchInv rules s) :
    DConcl rules s s :=
  ⟨hinv, fun _ ht => ht, fun _ hi => hi, fun _ ht => ht,
   fun _ hj hj0 => absurd hj hj0⟩

theorem DConcl_frame (rules : List Rule) (s s2 : St)
    (henq : s2.enqueued = s.enqueued) (hdis : s2.dispatched = s.dispatched)
    (hvis : ∀ t ∈ s.visited, t ∈ s2.visited) (hinv : DispatchInv rules s) :
    DConcl rules s s2 := by
  refine ⟨?_, ?_, ?_, hvis, ?_⟩
  · unfold DispatchInv at hinv ⊢
    rw [henq, hdis]
    exact hinv
  · intro t ht
    rw [henq]
    exact ht
  · intro i hi
    rw [hdis]
    exact hi
  · intro j hj hj0
    rw [hdis] at hj
    exact absurd hj hj0

theorem DConcl_trans (rules : List Rule) (s0 s1 s2 : St)
    (h1 : DConcl rules s0 s1) (h2 : DConcl rules s1 s2) :
    DConcl rules s0 s2 := by
  refine ⟨h2.1, ?_, ?_, ?_, ?_⟩
  · intro t ht
    exact h2.2.1 t (h1.2.1 t ht)
  · intro i hi
    exact h2.2.2.1 i (h1.2.2.1 i hi)
  · intro t ht
    exact h2.2.2.2.1 t (h1.2.2.2.1 t ht)
  · intro j hj hj0
    by_cases hmid : j ∈ s1.dispatched
    · exact h1.2.2.2.2 j hmid hj0
    · obtain ⟨r, t2, hg, ht2, hnv⟩ := h2.2.2.2.2 j hj hmid
      exact ⟨r, t2, hg, ht2, fun hvv => hnv (h1.2.2.2.1 t2 hvv)⟩

theorem DConcl_foldl (rules : List Rule) (F : String → St → St) (ds : List String)
    (h : ∀ d ∈ ds, ∀ s, DispatchInv rules s → DConcl rules s (F d s)) :
    ∀ s, DispatchInv rules s → DConcl rules s (ds.foldl (fun st d => F d st) s) := by
  induction ds with
  | nil =>
    intro s hs
    exact DConcl_refl rules s hs
  | cons d ds ih =>
    intro s hs
    have h1 := h d (List.mem_cons_self d ds) s hs
    simp only [List.foldl_cons]
    exact DConcl_trans rules s (F d s) _ h1
      (ih (fun x hx => h x (List.mem_cons_of_mem d hx)) (F d s) h1.1)

theorem EConcl_refl (rules : List Rule) (s : St) (hinv : ExecInv rules s) :
    EConcl rules s s :=
  ⟨hinv, fun _ hi => hi, fun _ ht => ht, fun _ hj hj0 => absurd hj hj0⟩

theorem EConcl_frame (rules : List Rule) (s s2 : St)
    (hex : s2.executed = s.executed)
    (hvis : ∀ t ∈ s.visited, t ∈ s2.visited) (hinv : ExecInv rules s) :
    EConcl rules s s2 := by
  refine ⟨⟨?_, ?_⟩, ?_, hvis, ?_⟩
  · rw [hex]
    exact hinv.1
  · intro j hj rj hgrj t ht
    rw [hex] at hj
    exact hvis t (hinv.2 j hj rj hgrj t ht)
  · intro i hi
    rw [hex]
    exact hi
  · intro j hj hj0
    rw [hex] at hj
    exact absurd hj hj0

theorem EConcl_trans (rules : List Rule) (s0 s1 s2 : St)
    (h1 : EConcl rules s0 s1) (h2 : EConcl rules s1 s2) :
    EConcl rules s0 s2 := by
  refine ⟨h2.1, ?_, ?_, ?_⟩
  · intro i hi
    exact h2.2.1 i (h1.2.1 i hi)
  · intro t ht
    exact h2.2.2.1 t (h1.2.2.1 t ht)
  · intro j hj hj0
    by_cases hmid : j ∈ s1.executed
    · exact h1.2.2.2 j hmid hj0
    · obtain ⟨r, t2, hg, ht2, hnv⟩ := h2.2.2.2 j hj hmid
      exact ⟨r, t2, hg, ht2, fun hvv => hnv (h1.2.2.1 t2 hvv)⟩

theorem EConcl_foldl (rules : List Rule) (F : String → St → St) (ds : List String)
    (h : ∀ d ∈ ds, ∀ s, ExecInv rules s → EConcl rules s (F d s)) :
    ∀ s, ExecInv rules s → EConcl rules s (ds.foldl (fun st d => F d st) s) := by
  induction ds with
  | nil =>
    intro s hs
    exact EConcl_refl rules s hs
  | cons d ds ih =>
    intro s hs
    have h1 := h d (List.mem_cons_self d ds) s hs
    simp only [List.foldl_cons]
    exact EConcl_trans rules s (F d s) _ h1
      (ih (fun x hx => h x (List.mem_cons_of_mem d hx)) (F d s) h1.1)

/-- The parallel walk preserves the scheduling invariant, grows the
bookkeeping lists monotonically, and only dispatches rules that still had
an unvisited target. -/
theorem buildP_inv (nt v pg : Bool) (cols : Nat) (rules : List Rule) (prio : Nat → Nat)
    (oracle : Nat → List CmdResult) (hwf : WFRules rules) :
    ∀ (fuel : Nat) (target : String) (s : St), DispatchInv rules s →
      DConcl rules s (build nt true v pg cols rules prio oracle fuel target s) := by
  intro fuel
  induction fuel with
  | zero =>
    intro target s hinv
    exact DConcl_refl rules s hinv
  | succ n ih =>
    intro target s hinv
    cases hab : s.aborted with
    | true =>
      rw [build_eq_of_aborted nt true v pg cols rules prio oracle n target s hab]
      exact DConcl_refl rules s hinv
    | false =>
    by_cases hseen : target ∈ s.visited ∨ target ∈ s.completed
    · rw [build_eq_of_seen nt true v pg cols rules prio oracle n target s hab hseen]
      exact DConcl_refl rules s hinv
    · cases hro : ruleOf rules target with
      | none =>
        rw [build_eq_of_source nt true v pg cols rules prio oracle n target s hab hseen hro]
        exact DConcl_frame rules s _ rfl rfl (fun t ht => List.mem_append_left _ ht) hinv
      | some i =>
        cases hgr : rules.get? i with
        | none =>
          rw [build_eq_of_norule nt true v pg cols rules prio oracle n target s hab hseen
            i hro hgr]
          exact DConcl_refl rules s hinv
        | some r =>
          by_cases hne : target ∈ s.enqueued
          · rw [build_eq_of_enqueued nt true v pg cols rules prio oracle n target s hab hseen
              i r hro hgr hne]
            exact DConcl_frame rules s _ rfl rfl (fun t ht => List.mem_append_left _ ht) hinv
          · cases hdf : dfDepsOf nt s.fs r with
            | none =>
              rw [build_eq_of_dfnone nt true v pg cols rules prio oracle n target s hab hseen
                i r hro hgr hne hdf]
              exact DConcl_frame rules s _ rfl rfl (fun t ht => List.mem_append_left _ ht) hinv
            | some dfDeps =>
              have hpre : DConcl rules s { s with visited := s.visited ++ r.targets } :=
                DConcl_frame rules s _ rfl rfl (fun t ht => List.mem_append_left _ ht) hinv
              have hfold : DConcl rules { s with visited := s.visited ++ r.targets }
                  ((depsOf nt r ++ dfDeps ++ r.orderOnlyDeps).foldl
                    (fun st d => build nt true v pg cols rules prio oracle n d st)
                    { s with visited := s.visited ++ r.targets }) :=
                DConcl_foldl rules (fun d => build nt true v pg cols rules prio oracle n d)
                  (depsOf nt r ++ dfDeps ++ r.orderOnlyDeps)
                  (fun d _ s0 h0 => ih d s0 h0) _ hpre.1
              have hS : DConcl rules s
                  ((depsOf nt r ++ dfDeps ++ r.orderOnlyDeps).foldl
                    (fun st d => build nt true v pg cols rules prio oracle n d st)
                    { s with visited := s.visited ++ r.targets }) :=
                DConcl_trans rules _ _ _ hpre hfold
              rw [build_eq_of_body nt true v pg cols rules prio oracle n target s hab hseen
                i r dfDeps hro hgr hne hdf]
              generalize hgen : ((depsOf nt r ++ dfDeps ++ r.orderOnlyDeps).foldl
                  (fun st d => build nt true v pg cols rules prio oracle n d st)
                  { s with visited := s.visited ++ r.targets }) = s2
              rw [hgen] at hS hfold
              show DConcl rules s (if s2.aborted = true then s2
                else if ((depsOf nt r ++ dfDeps ++ r.orderOnlyDeps).any
                    fun d => decide (d ∉ s2.completed)) = true then s2
                else oracleStep nt true v pg cols prio oracle r i target (depsOf nt r)
                  dfDeps s2)
              by_cases h2 : s2.aborted = true
              · rw [if_pos h2]
                exact hS
              · rw [if_neg h2]
                by_cases h3 : ((depsOf nt r ++ dfDeps ++ r.orderOnlyDeps).any
                    fun d => decide (d ∉ s2.completed)) = true
                · rw [if_pos h3]
                  exact hS
                · rw [if_neg h3]
                  obtain ⟨r0, hgr0, htmem0⟩ := ruleOf_get hro
                  have hrr : r0 = r := by
                    rw [hgr0] at hgr
                    exact Option.some.inj hgr
                  have htmem : target ∈ r.targets := hrr ▸ htmem0
                  obtain ⟨hv, hrest⟩ := oracleStep_cases nt true v pg cols prio oracle r i
                    target (depsOf nt r) dfDeps s2
                  rcases hrest with ⟨he, hd, _⟩ | ⟨_, he, hd, _⟩ | ⟨hff, _⟩
                  · exact DConcl_trans rules s s2 _ hS
                      (DConcl_frame rules s2 _ he hd
                        (fun t ht => by rw [hv]; exact ht) hS.1)
                  · have hndisp : i ∉ s2.dispatched := by
                      intro hmem
                      by_cases hd0 : i ∈ s.dispatched
                      · exact hne (hinv.2.1 i hd0 r hgr target htmem)
                      · obtain ⟨r2, t2, hg2, ht2, hnv2⟩ := hfold.2.2.2.2 i hmem hd0
                        have hr2 : r2 = r := by
                          rw [hg2] at hgr
                          exact Option.some.inj hgr
                        exact hnv2 (List.mem_append_right s.visited (hr2 ▸ ht2))
                    refine ⟨⟨?_, ?_, ?_⟩, ?_, ?_, ?_, ?_⟩
                    · rw [hd]
                      refine List.nodup_append.mpr ⟨hS.1.1, List.nodup_singleton i, ?_⟩
                      intro a ha hb
                      rw [List.mem_singleton] at hb
                      subst hb
                      exact hndisp ha
                    · intro j hj rj hgrj t ht
                      rw [hd] at hj
                      rw [he]
                      rcases List.mem_append.mp hj with hj1 | hj2
                      · exact List.mem_append_left _ (hS.1.2.1 j hj1 rj hgrj t ht)
                      · rw [List.mem_singleton] at hj2
                        subst hj2
                        have hrj : rj = r := by
                          rw [hgrj] at hgr
                          exact Option.some.inj hgr
                        subst hrj
                        exact List.mem_append_right _ ht
                    · intro t ht j hroj
                      rw [he] at ht
                      rw [hd]
                      rcases List.mem_append.mp ht with ht1 | ht2
                      · exact List.mem_append_left _ (hS.1.2.2 t ht1 j hroj)
                      · have hri : ruleOf rules t = some i := ruleOf_of_mem hwf hgr ht2
                        rw [hroj] at hri
                        have hji : j = i := Option.some.inj hri
                        subst hji
                        exact List.mem_append_right _ (List.mem_singleton_self j)
                    · intro t ht
                      rw [he]
                      exact List.mem_append_left _ (hS.2.1 t ht)
                    · intro j hj
                      rw [hd]
                      exact List.mem_append_left _ (hS.2.2.1 j hj)
                    · intro t ht
                      rw [hv]
                      exact hS.2.2.2.1 t ht
                    · intro j hj hj0
                      rw [hd] at hj
                      rcases List.mem_append.mp hj with hj1 | hj2
                      · exact hS.2.2.2.2 j hj1 hj0
                      · rw [List.mem_singleton] at hj2
                        subst hj2
                        exact ⟨r, target, hgr, htmem, fun hvv => hseen (Or.inl hvv)⟩
                  · exact Bool.noConfusion hff

/-- The serial walk preserves the execution invariant, grows `executed`
and `visited` monotonically, and only executes rules that still had an
unvisited target. -/
theorem buildS_inv (nt v pg : Bool) (cols : Nat) (rules : List Rule) (prio : Nat → Nat)
    (oracle : Nat → List CmdResult) :
    ∀ (fuel : Nat) (target : String) (s : St), ExecInv rules s →
      EConcl rules s (build nt false v pg cols rules prio oracle fuel target s) := by
  intro fuel
  induction fuel with
  | zero =>
    intro target s hinv
    exact EConcl_refl rules s hinv
  | succ n ih =>
    intro target s hinv
    cases hab : s.aborted with
    | true =>
      rw [build_eq_of_aborted nt false v pg cols rules prio oracle n target s hab]
      exact EConcl_refl rules s hinv
    | false =>
    by_cases hseen : target ∈ s.visited ∨ target ∈ s.completed
    · rw [build_eq_of_seen nt false v pg cols rules prio oracle n target s hab hseen]
      exact EConcl_refl rules s hinv
    · cases hro : ruleOf rules target with
      | none =>
        rw [build_eq_of_source nt false v pg cols rules prio oracle n target s hab hseen hro]
        exact EConcl_frame rules s _ rfl (fun t ht => List.mem_append_left _ ht) hinv
      | some i =>
        cases hgr : rules.get? i with
        | none =>
          rw [build_eq_of_norule nt false v pg cols rules prio oracle n target s hab hseen
            i hro hgr]
          exact EConcl_refl rules s hinv
        | some r =>
          by_cases hne : target ∈ s.enqueued
          · rw [build_eq_of_enqueued nt false v pg cols rules prio oracle n target s hab hseen
              i r hro hgr hne]
            exact EConcl_frame rules s _ rfl (fun t ht => List.mem_append_left _ ht) hinv
          · cases hdf : dfDepsOf nt s.fs r with
            | none =>
              rw [build_eq_of_dfnone nt false v pg cols rules prio oracle n target s hab hseen
                i r hro hgr hne hdf]
              exact EConcl_frame rules s _ rfl (fun t ht => List.mem_append_left _ ht) hinv
            | some dfDeps =>
              have hpre : EConcl rules s { s with visited := s.visited ++ r.targets } :=
                EConcl_frame rules s _ rfl (fun t ht => List.mem_append_left _ ht) hinv
              have hfold : EConcl rules { s with visited := s.visited ++ r.targets }
                  ((depsOf nt r ++ dfDeps ++ r.orderOnlyDeps).foldl
                    (fun st d => build nt false v pg cols rules prio oracle n d st)
                    { s with visited := s.visited ++ r.targets }) :=
                EConcl_foldl rules (fun d => build nt false v pg cols rules prio oracle n d)
                  (depsOf nt r ++ dfDeps ++ r.orderOnlyDeps)
                  (fun d _ s0 h0 => ih d s0 h0) _ hpre.1
              have hS : EConcl rules s
                  ((depsOf nt r ++ dfDeps ++ r.orderOnlyDeps).foldl
                    (fun st d => build nt false v pg cols rules prio oracle n d st)
                    { s with visited := s.visited ++ r.targets }) :=
                EConcl_trans rules _ _ _ hpre hfold
              rw [build_eq_of_body nt false v pg cols rules prio oracle n target s hab hseen
                i r dfDeps hro hgr hne hdf]
              generalize hgen : ((depsOf nt r ++ dfDeps ++ r.orderOnlyDeps).foldl
                  (fun st d => build nt false v pg cols rules prio oracle n d st)
                  { s with visited := s.visited ++ r.targets }) = s2
              rw [hgen] at hS hfold
              show EConcl rules s (if s2.aborted = true then s2
                else if ((depsOf nt r ++ dfDeps ++ r.orderOnlyDeps).any
                    fun d => decide (d ∉ s2.completed)) = true then s2
                else oracleStep nt false v pg cols prio oracle r i target (depsOf nt r)
                  dfDeps s2)
              by_cases h2 : s2.aborted = true
              · rw [if_pos h2]
                exact hS
              · rw [if_neg h2]
                by_cases h3 : ((depsOf nt r ++ dfDeps ++ r.orderOnlyDeps).any
                    fun d => decide (d ∉ s2.completed)) = true
                · rw [if_pos h3]
                  exact hS
                · rw [if_neg h3]
                  obtain ⟨r0, hgr0, htmem0⟩ := ruleOf_get hro
                  have hrr : r0 = r := by
                    rw [hgr0] at hgr
                    exact Option.some.inj hgr
                  have htmem : target ∈ r.targets := hrr ▸ htmem0
                  obtain ⟨hv, hrest⟩ := oracleStep_cases nt false v pg cols prio oracle r i
                    target (depsOf nt r) dfDeps s2
                  rcases hrest with ⟨_, _, hx⟩ | ⟨hff, _⟩ | ⟨_, _, _, hx⟩
                  · exact EConcl_trans rules s s2 _ hS
                      (EConcl_frame rules s2 _ hx
                        (fun t ht => by rw [hv]; exact ht) hS.1)
                  · exact Bool.noConfusion hff
                  · have hnexec : i ∉ s2.executed := by
                      intro hmem
                      by_cases hd0 : i ∈ s.executed
                      · exact hseen (Or.inl (hinv.2 i hd0 r hgr target htmem))
                      · obtain ⟨r2, t2, hg2, ht2, hnv2⟩ := hfold.2.2.2 i hmem hd0
                        have hr2 : r2 = r := by
                          rw [hg2] at hgr
                          exact Option.some.inj hgr
                        exact hnv2 (List.mem_append_right s.visited (hr2 ▸ ht2))
                    refine ⟨⟨?_, ?_⟩, ?_, ?_, ?_⟩
                    · rw [hx]
                      refine List.nodup_append.mpr ⟨hS.1.1, List.nodup_singleton i, ?_⟩
                      intro a ha hb
                      rw [List.mem_singleton] at hb
                      subst hb
                      exact hnexec ha
                    · intro j hj rj hgrj t ht
                      rw [hx] at hj
                      rw [hv]
                      rcases List.mem_append.mp hj with hj1 | hj2
                      · exact hS.1.2 j hj1 rj hgrj t ht
                      · rw [List.mem_singleton] at hj2
                        subst hj2
                        have hrj : rj = r := by
                          rw [hgrj] at hgr
                          exact Option.some.inj hgr
                        subst hrj
                        exact hfold.2.2.1 t (List.mem_append_right s.visited ht)
                    · intro j hj
                      rw [hx]
                      exact List.mem_append_left _ (hS.2.1 j hj)
                    · intro t ht
                      rw [hv]
                      exact hS.2.2.1 t ht
                    · intro j hj hj0
                      rw [hx] at hj
                      rcases List.mem_append.mp hj with hj1 | hj2
                      · exact hS.2.2.2 j hj1 hj0
                      · rw [List.mem_singleton] at hj2
                        subst hj2
                        exact ⟨r, target, hgr, htmem, fun hvv => hseen (Or.inl hvv)⟩

theorem if_st_disp_enq (c : Prop) [Decidable c] (a b : St) (dl : List Nat) (el : List String)
    (ha : a.dispatched = dl ∧ a.enqueued = el) (hb : b.dispatched = dl ∧ b.enqueued = el) :
    (if c then a else b).dispatched = dl ∧ (if c then a else b).enqueued = el := by
  split
  · exact ha
  · exact hb

/-- A worker iteration never touches the dispatch bookkeeping. -/
theorem workStep_disp (nt v pg : Bool) (cols : Nat) (rules : List Rule)
    (oracle : Nat → List CmdResult) (k : Nat) (s : St) :
    (workStep nt v pg cols rules oracle k s).dispatched = s.dispatched ∧
    (workStep nt v pg cols rules oracle k s).enqueued = s.enqueued := by
  unfold workStep
  split
  · exact ⟨rfl, rfl⟩
  · split
    · exact ⟨rfl, rfl⟩
    · split
      · exact ⟨rfl, rfl⟩
      · exact if_st_disp_enq _ _ _ _ _
          ⟨(runCmd_frame nt v pg cols _ _ _).2.2.2.2.2.2.1,
           (runCmd_frame nt v pg cols _ _ _).2.1⟩
          ⟨(runCmd_frame nt v pg cols _ _ _).2.2.2.2.2.2.1,
           (runCmd_frame nt v pg cols _ _ _).2.1⟩

theorem workStep_inv (nt v pg : Bool) (cols : Nat) (rules : List Rule)
    (oracle : Nat → List CmdResult) (k : Nat) (s : St) (hinv : DispatchInv rules s) :
    DispatchInv rules (workStep nt v pg cols rules oracle k s) := by
  obtain ⟨hd, he⟩ := workStep_disp nt v pg cols rules oracle k s
  unfold DispatchInv at hinv ⊢
  rw [hd, he]
  exact hinv

theorem driverStep_inv (nt v pg : Bool) (cols : Nat) (rules : List Rule) (prio : Nat → Nat)
    (oracle : Nat → List CmdResult) (goals : List String) (fuel : Nat) (hwf : WFRules rules)
    (s : St) (e : Ev) (hinv : DispatchInv rules s) :
    DispatchInv rules (driverStep nt v pg cols rules prio oracle goals fuel s e) := by
  cases e with
  | pass =>
    have h0 : DispatchInv rules { s with visited := [] } := hinv
    exact (DConcl_foldl rules (fun g => build nt true v pg cols rules prio oracle fuel g)
      goals (fun g _ s0 hs0 => buildP_inv nt v pg cols rules prio oracle hwf fuel g s0 hs0)
      { s with visited := [] } h0).1
  | work k => exact workStep_inv nt v pg cols rules oracle k s hinv

theorem runEvents_inv (nt v pg : Bool) (cols : Nat) (rules : List Rule) (prio : Nat → Nat)
    (oracle : Nat → List CmdResult) (goals : List String) (fuel : Nat) (hwf : WFRules rules) :
    ∀ (events : List Ev) (s : St), DispatchInv rules s →
      DispatchInv rules (runEvents nt v pg cols rules prio oracle goals fuel events s) := by
  intro events
  induction events with
  | nil =>
    intro s hs
    exact hs
  | cons e es ih =>
    intro s hs
    exact ih (driverStep nt v pg cols rules prio oracle goals fuel s e)
      (driverStep_inv nt v pg cols rules prio oracle goals fuel hwf s e hs)

theorem ruleOf_lt_length {rules : List Rule} {t : String} {i : Nat}
    (h : ruleOf rules t = some i) : i < rules.length := by
  obtain ⟨r, hr, _⟩ := ruleOf_get h
  obtain ⟨hlt, _⟩ := List.get?_eq_some.mp hr
  exact hlt

theorem latOf_eq (rules : List Rule) (i : Nat) (r : Rule) (h : rules.get? i = some r) :
    latOf rules i = r.latency := by
  simp only [latOf, h]

theorem pathSum_cons (rules : List Rule) (a : Nat) (l : List Nat) :
    pathSum rules (a :: l) = latOf rules a + pathSum rules l := by
  simp [pathSum]

theorem pathSum_concat (rules : List Rule) (p : List Nat) (b : Nat) :
    pathSum rules (p ++ [b]) = pathSum rules p + latOf rules b := by
  simp [pathSum]

theorem chainOK_concat (nt : Bool) (rules : List Rule) :
    ∀ (p : List Nat) (a b : Nat), chainOK nt rules p → p.getLast? = some a →
      b ∈ succs nt rules a → chainOK nt rules (p ++ [b])
  | [], a, b, _, hl, _ => by simp at hl
  | [x], _, b, _, hl, hb => by
    have hxa := by simpa using hl
    subst hxa
    exact ⟨hb, trivial⟩
  | x :: y :: rest, a, b, hch, hl, hb => by
    refine ⟨hch.1, ?_⟩
    exact chainOK_concat nt rules (y :: rest) a b hch.2 (by simpa using hl) hb

theorem goalPath_concat (nt : Bool) (rules : List Rule) (goals : List String)
    (p : List Nat) (a b : Nat) (hgp : goalPath nt rules goals p)
    (hl : p.getLast? = some a) (hb : b ∈ succs nt rules a) :
    goalPath nt rules goals (p ++ [b]) := by
  obtain ⟨hch, ⟨g, hg, hhead⟩, hne⟩ := hgp
  refine ⟨chainOK_concat nt rules p a b hch hl hb, ⟨g, hg, ?_⟩, ?_⟩
  · cases p with
    | nil => exact absurd rfl hne
    | cons x t => simpa using hhead
  · simp

theorem propagate_eq_none (nt : Bool) (rules : List Rule) (fuel : Nat) (target : String)
    (lat : Nat) (pr : Nat → Nat) (h : ruleOf rules target = none) :
    propagate nt rules (fuel + 1) target lat pr = pr := by
  simp only [propagate, h]

theorem propagate_eq_nr (nt : Bool) (rules : List Rule) (fuel : Nat) (target : String)
    (lat : Nat) (pr : Nat → Nat) (i : Nat)
    (h : ruleOf rules target = some i) (hg : rules.get? i = none) :
    propagate nt rules (fuel + 1) target lat pr = pr := by
  simp only [propagate, h, hg]

theorem propagate_eq_prune (nt : Bool) (rules : List Rule) (fuel : Nat) (target : String)
    (lat : Nat) (pr : Nat → Nat) (i : Nat) (r : Rule)
    (h : ruleOf rules target = some i) (hg : rules.get? i = some r)
    (hp : lat + r.latency ≤ pr i) :
    propagate nt rules (fuel + 1) target lat pr = pr := by
  simp only [propagate, h, hg]
  rw [if_pos hp]

theorem propagate_eq_go (nt : Bool) (rules : List Rule) (fuel : Nat) (target : String)
    (lat : Nat) (pr : Nat → Nat) (i : Nat) (r : Rule)
    (h : ruleOf rules target = some i) (hg : rules.get? i = some r)
    (hp : ¬(lat + r.latency ≤ pr i)) :
    propagate nt rules (fuel + 1) target lat pr =
      (r.deps.map (resolve nt r.cwd) ++ r.orderOnlyDeps).foldl
        (fun p d => propagate nt rules fuel d (lat + r.latency) p)
        (fun j => if j = i then lat + r.latency else pr j) := by
  simp only [propagate, h, hg]
  rw [if_neg hp]

theorem foldl_mono_pt (F : String → (Nat → Nat) → Nat → Nat)
    (hF : ∀ d p k, p k ≤ F d p k) :
    ∀ (ds : List String) (p : Nat → Nat) (k : Nat),
      p k ≤ ds.foldl (fun q d => F d q) p k := by
  intro ds
  induction ds with
  | nil =>
    intro p k
    exact le_refl _
  | cons d ds ih =>
    intro p k
    simp only [List.foldl_cons]
    exact le_trans (hF d p k) (ih (F d p) k)

theorem propagate_mono (nt : Bool) (rules : List Rule) :
    ∀ (fuel : Nat) (target : String) (lat : Nat) (pr : Nat → Nat) (k : Nat),
      pr k ≤ propagate nt rules fuel target lat pr k := by
  intro fuel
  induction fuel with
  | zero =>
    intro target lat pr k
    exact le_refl _
  | succ n ih =>
    intro target lat pr k
    cases hro : ruleOf rules target with
    | none => exact le_of_eq (by rw [propagate_eq_none nt rules n target lat pr hro])
    | some i =>
      cases hgr : rules.get? i with
      | none => exact le_of_eq (by rw [propagate_eq_nr nt rules n target lat pr i hro hgr])
      | some r =>
        by_cases hp : lat + r.latency ≤ pr i
        · exact le_of_eq
            (by rw [propagate_eq_prune nt rules n target lat pr i r hro hgr hp])
        · rw [propagate_eq_go nt rules n target lat pr i r hro hgr hp]
          refine le_trans ?_
            (foldl_mono_pt (fun d q => propagate nt rules n d (lat + r.latency) q)
              (fun d p2 k2 => ih d (lat + r.latency) p2 k2) _ _ k)
          by_cases hk : k = i
          · subst hk
            exact le_trans (le_of_lt (not_le.mp hp)) (le_of_eq (if_pos rfl).symm)
          · exact le_of_eq (if_neg hk).symm

theorem foldl_mod_pt (F : String → (Nat → Nat) → Nat → Nat) (P : String → Nat → Prop)
    (hF : ∀ d p k, F d p k ≠ p k → P d k) :
    ∀ (ds : List String) (p : Nat → Nat) (k : Nat),
      ds.foldl (fun q d => F d q) p k ≠ p k → ∃ d ∈ ds, P d k := by
  intro ds
  induction ds with
  | nil =>
    intro p k h
    exact absurd rfl h
  | cons d ds ih =>
    intro p k h
    simp only [List.foldl_cons] at h
    by_cases h1 : F d p k = p k
    · rw [← h1] at h
      obtain ⟨d2, hd2, hp2⟩ := ih (F d p) k h
      exact ⟨d2, List.mem_cons_of_mem d hd2, hp2⟩
    · exact ⟨d, List.mem_cons_self d ds, hF d p k h1⟩

theorem propagate_mod (nt : Bool) (rules : List Rule) (bv : Nat → Nat)
    (hacy : ∀ i j, j ∈ succs nt rules i → bv j < bv i) :
    ∀ (fuel : Nat) (target : String) (lat : Nat) (pr : Nat → Nat) (k : Nat),
      propagate nt rules fuel target lat pr k ≠ pr k →
      ∃ i, ruleOf rules target = some i ∧ bv k ≤ bv i := by
  intro fuel
  induction fuel with
  | zero =>
    intro target lat pr k h
    exact absurd rfl h
  | succ n ih =>
    intro target lat pr k h
    cases hro : ruleOf rules target with
    | none =>
      rw [propagate_eq_none nt rules n target lat pr hro] at h
      exact absurd rfl h
    | some i =>
      cases hgr : rules.get? i with
      | none =>
        rw [propagate_eq_nr nt rules n target lat pr i hro hgr] at h
        exact absurd rfl h
      | some r =>
        by_cases hp : lat + r.latency ≤ pr i
        · rw [propagate_eq_prune nt rules n target lat pr i r hro hgr hp] at h
          exact absurd rfl h
        · rw [propagate_eq_go nt rules n target lat pr i r hro hgr hp] at h
          by_cases hk : k = i
          · exact ⟨i, rfl, by subst hk; exact le_refl (bv k)⟩
          · refine ⟨i, rfl, ?_⟩
            have hpr1 : (fun j => if j = i then lat + r.latency else pr j) k = pr k :=
              if_neg hk
            by_cases h2 : (r.deps.map (resolve nt r.cwd) ++ r.orderOnlyDeps).foldl
                (fun p d => propagate nt rules n d (lat + r.latency) p)
                (fun j => if j = i then lat + r.latency else pr j) k
                = (fun j => if j = i then lat + r.latency else pr j) k
            · rw [h2, hpr1] at h
              exact absurd rfl h
            · obtain ⟨d, hd, ic, hic, hbk⟩ := foldl_mod_pt
                (fun d q => propagate nt rules n d (lat + r.latency) q)
                (fun d k2 => ∃ ic, ruleOf rules d = some ic ∧ bv k2 ≤ bv ic)
                (fun d p2 k2 h3 => ih d (lat + r.latency) p2 k2 h3) _ _ k h2
              have hsucc : ic ∈ succs nt rules i := by
                unfold succs
                rw [hgr]
                exact List.mem_filterMap.mpr ⟨d, hd, hic⟩
              exact le_trans hbk (le_of_lt (hacy i ic hsucc))

theorem propagate_fold_coherent (nt : Bool) (rules : List Rule) (bv : Nat → Nat)
    (hacy : ∀ i j, j ∈ succs nt rules i → bv j < bv i) (n : Nat) (lat2 : Nat) (i : Nat)
    (ihn : ∀ (target : String) (lat : Nat) (pr : Nat → Nat) (S : List Nat),
      CoherentExcept nt rules S pr →
      (∀ i2, ruleOf rules target = some i2 → bv i2 < n) →
      CoherentExcept nt rules S (propagate nt rules n target lat pr) ∧
      (∀ i2, ruleOf rules target = some i2 →
        lat + latOf rules i2 ≤ propagate nt rules n target lat pr i2)) :
    ∀ (ds : List String) (pr : Nat → Nat) (S : List Nat),
      (∀ d ∈ ds, ∀ ic, ruleOf rules d = some ic → ic ∈ succs nt rules i) →
      (∀ d ∈ ds, ∀ ic, ruleOf rules d = some ic → bv ic < n) →
      CoherentExcept nt rules S pr →
      CoherentExcept nt rules S
        (ds.foldl (fun p d => propagate nt rules n d lat2 p) pr) ∧
      (∀ k, pr k ≤ ds.foldl (fun p d => propagate nt rules n d lat2 p) pr k) ∧
      (∀ d ∈ ds, ∀ ic, ruleOf rules d = some ic →
        lat2 + latOf rules ic ≤ ds.foldl (fun p d => propagate nt rules n d lat2 p) pr ic) ∧
      (∀ k, bv i ≤ bv k → ds.foldl (fun p d => propagate nt rules n d lat2 p) pr k = pr k) := by
  intro ds
  induction ds with
  | nil =>
    intro pr S _ _ hCE
    exact ⟨hCE, fun k => le_refl _, fun d hd => absurd hd (List.not_mem_nil d),
      fun k _ => rfl⟩
  | cons d ds ih =>
    intro pr S hsub hbv hCE
    have h1 := ihn d lat2 pr S hCE (fun ic hic => hbv d (List.mem_cons_self d ds) ic hic)
    have hmono1 : ∀ k, pr k ≤ propagate nt rules n d lat2 pr k :=
      propagate_mono nt rules n d lat2 pr
    have huntouched1 : ∀ k, bv i ≤ bv k → propagate nt rules n d lat2 pr k = pr k := by
      intro k hbk
      by_cases hch : propagate nt rules n d lat2 pr k = pr k
      · exact hch
      · obtain ⟨ic, hic, hkic⟩ := propagate_mod nt rules bv hacy n d lat2 pr k hch
        have hlt : bv ic < bv i := hacy i ic (hsub d (List.mem_cons_self d ds) ic hic)
        exact absurd (lt_of_le_of_lt (le_trans hbk hkic) hlt) (lt_irrefl (bv i))
    have h2 := ih (propagate nt rules n d lat2 pr) S
      (fun d2 hd2 ic hic => hsub d2 (List.mem_cons_of_mem d hd2) ic hic)
      (fun d2 hd2 ic hic => hbv d2 (List.mem_cons_of_mem d hd2) ic hic)
      h1.1
    simp only [List.foldl_cons]
    refine ⟨h2.1, ?_, ?_, ?_⟩
    · intro k
      exact le_trans (hmono1 k) (h2.2.1 k)
    · intro d2 hd2 ic hic
      rcases List.mem_cons.mp hd2 with he | hm
      · subst he
        exact le_trans (h1.2 ic hic) (h2.2.1 ic)
      · exact h2.2.2.1 d2 hm ic hic
    · intro k hbk
      rw [h2.2.2.2 k hbk, huntouched1 k hbk]

theorem propagate_coherent (nt : Bool) (rules : List Rule) (bv : Nat → Nat)
    (hacy : ∀ i j, j ∈ succs nt rules i → bv j < bv i) :
    ∀ (fuel : Nat) (target : String) (lat : Nat) (pr : Nat → Nat) (S : List Nat),
      CoherentExcept nt rules S pr →
      (∀ i, ruleOf rules target = some i → bv i < fuel) →
      CoherentExcept nt rules S (propagate nt rules fuel target lat pr) ∧
      (∀ i, ruleOf rules target = some i →
        lat + latOf rules i ≤ propagate nt rules fuel target lat pr i) := by
  intro fuel
  induction fuel with
  | zero =>
    intro target lat pr S hCE hfl
    refine ⟨hCE, ?_⟩
    intro i hro
    exact absurd (hfl i hro) (Nat.not_lt_zero (bv i))
  | succ n ih =>
    intro target lat pr S hCE hfl
    cases hro : ruleOf rules target with
    | none =>
      rw [propagate_eq_none nt rules n target lat pr hro]
      refine ⟨hCE, ?_⟩
      intro i hro2
      exact Option.noConfusion hro2
    | some i =>
      obtain ⟨r, hgr, _⟩ := ruleOf_get hro
      have hbvi : bv i < n + 1 := hfl i hro
      by_cases hp : lat + r.latency ≤ pr i
      · rw [propagate_eq_prune nt rules n target lat pr i r hro hgr hp]
        refine ⟨hCE, ?_⟩
        intro i2 hro2
        have hii : i = i2 := Option.some.inj hro2
        subst hii
        rw [latOf_eq rules i r hgr]
        exact hp
      · rw [propagate_eq_go nt rules n target lat pr i r hro hgr hp]
        have hpr1mono : ∀ k, pr k ≤ (fun j => if j = i then lat + r.latency else pr j) k := by
          intro k
          by_cases hk : k = i
          · subst hk
            exact le_trans (le_of_lt (not_le.mp hp)) (le_of_eq (if_pos rfl).symm)
          · exact le_of_eq (if_neg hk).symm
        have hCE1 : CoherentExcept nt rules (i :: S)
            (fun j => if j = i then lat + r.latency else pr j) := by
          intro k hkS hk0 j hj
          have hki : k ≠ i := fun he => hkS (by rw [he]; exact List.mem_cons_self i S)
          have hk0b : pr k ≠ 0 := by
            intro hz
            apply hk0
            show (if k = i then lat + r.latency else pr k) = 0
            rw [if_neg hki]
            exact hz
          have hkk : (fun j2 => if j2 = i then lat + r.latency else pr j2) k = pr k :=
            if_neg hki
          calc (fun j2 => if j2 = i then lat + r.latency else pr j2) k + latOf rules j
              = pr k + latOf rules j := by rw [hkk]
            _ ≤ pr j := hCE k (fun hkS2 => hkS (List.mem_cons_of_mem i hkS2)) hk0b j hj
            _ ≤ (fun j2 => if j2 = i then lat + r.latency else pr j2) j := hpr1mono j
        have hsub : ∀ d ∈ r.deps.map (resolve nt r.cwd) ++ r.orderOnlyDeps,
            ∀ ic, ruleOf rules d = some ic → ic ∈ succs nt rules i := by
          intro d hd ic hic
          unfold succs
          rw [hgr]
          exact List.mem_filterMap.mpr ⟨d, hd, hic⟩
        have hbv2 : ∀ d ∈ r.deps.map (resolve nt r.cwd) ++ r.orderOnlyDeps,
            ∀ ic, ruleOf rules d = some ic → bv ic < n := by
          intro d hd ic hic
          exact lt_of_lt_of_le (hacy i ic (hsub d hd ic hic)) (Nat.lt_succ_iff.mp hbvi)
        obtain ⟨hCEf, hmonof, hguarf, huntf⟩ := propagate_fold_coherent nt rules bv hacy n
          (lat + r.latency) i ih (r.deps.map (resolve nt r.cwd) ++ r.orderOnlyDeps)
          (fun j => if j = i then lat + r.latency else pr j) (i :: S) hsub hbv2 hCE1
        have hfi : (r.deps.map (resolve nt r.cwd) ++ r.orderOnlyDeps).foldl
            (fun p d => propagate nt rules n d (lat + r.latency) p)
            (fun j => if j = i then lat + r.latency else pr j) i
            = lat + r.latency := by
          rw [huntf i (le_refl (bv i))]
          exact if_pos rfl
        constructor
        · intro k hkS hk0 j hj
          by_cases hki : k = i
          · subst hki
            rw [hfi]
            have hj2 : j ∈ (r.deps.map (resolve nt r.cwd) ++ r.orderOnlyDeps).filterMap
                (ruleOf rules) := by
              unfold succs at hj
              rw [hgr] at hj
              exact hj
            obtain ⟨d, hd, hicd⟩ := List.mem_filterMap.mp hj2
            exact hguarf d hd j hicd
          · exact hCEf k
              (fun hmem => (List.mem_cons.mp hmem).elim (fun he => hki he) hkS) hk0 j hj
        · intro i2 hro2
          have hii : i = i2 := Option.some.inj hro2
          subst hii
          exact le_of_eq (by rw [hfi, latOf_eq rules i r hgr])

theorem soundPr_foldl (nt : Bool) (rules : List Rule) (goals : List String)
    (F : String → (Nat → Nat) → Nat → Nat) :
    ∀ (ds : List String) (pr : Nat → Nat),
      (∀ d ∈ ds, ∀ p, SoundPr nt rules goals p → SoundPr nt rules goals (F d p)) →
      SoundPr nt rules goals pr →
      SoundPr nt rules goals (ds.foldl (fun q d => F d q) pr) := by
  intro ds
  induction ds with
  | nil =>
    intro pr _ hs
    exact hs
  | cons d ds ih =>
    intro pr h hs
    simp only [List.foldl_cons]
    exact ih (F d pr) (fun d2 hd2 => h d2 (List.mem_cons_of_mem d hd2))
      (h d (List.mem_cons_self d ds) pr hs)

theorem propagate_sound (nt : Bool) (rules : List Rule) (goals : List String) :
    ∀ (fuel : Nat) (target : String) (lat : Nat) (pr : Nat → Nat),
      SoundPr nt rules goals pr → ExtCtx nt rules goals target lat →
      SoundPr nt rules goals (propagate nt rules fuel target lat pr) := by
  intro fuel
  induction fuel with
  | zero =>
    intro target lat pr hs _
    exact hs
  | succ n ih =>
    intro target lat pr hs hctx
    cases hro : ruleOf rules target with
    | none =>
      rw [propagate_eq_none nt rules n target lat pr hro]
      exact hs
    | some i =>
      obtain ⟨r, hgr, _⟩ := ruleOf_get hro
      by_cases hp : lat + r.latency ≤ pr i
      · rw [propagate_eq_prune nt rules n target lat pr i r hro hgr hp]
        exact hs
      · rw [propagate_eq_go nt rules n target lat pr i r hro hgr hp]
        have hs1 : SoundPr nt rules goals
            (fun j => if j = i then lat + r.latency else pr j) := by
          intro k hk0
          by_cases hk : k = i
          · subst hk
            obtain ⟨p, hgp, hlast, hsum⟩ := hctx k hro
            refine ⟨p, hgp, hlast, ?_⟩
            show pathSum rules p = if k = k then lat + r.latency else pr k
            rw [if_pos rfl, hsum, latOf_eq rules k r hgr]
          · have hk0b : pr k ≠ 0 := by
              intro hz
              apply hk0
              show (if k = i then lat + r.latency else pr k) = 0
              rw [if_neg hk]
              exact hz
            obtain ⟨p, hgp, hlast, hsum⟩ := hs k hk0b
            refine ⟨p, hgp, hlast, ?_⟩
            show pathSum rules p = if k = i then lat + r.latency else pr k
            rw [if_neg hk]
            exact hsum
        refine soundPr_foldl nt rules goals
          (fun d q => propagate nt rules n d (lat + r.latency) q)
          (r.deps.map (resolve nt r.cwd) ++ r.orderOnlyDeps) _ ?_ hs1
        intro d hd p hsp
        refine ih d (lat + r.latency) p hsp ?_
        intro jd hjd
        obtain ⟨p0, hgp0, hlast0, hsum0⟩ := hctx i hro
        have hjs : jd ∈ succs nt rules i := by
          unfold succs
          rw [hgr]
          exact List.mem_filterMap.mpr ⟨d, hd, hjd⟩
        refine ⟨p0 ++ [jd], goalPath_concat nt rules goals p0 i jd hgp0 hlast0 hjs, ?_, ?_⟩
        · simp
        · rw [pathSum_concat, hsum0, latOf_eq rules i r hgr]

theorem coherent_telescope (nt : Bool) (rules : List Rule) (pr : Nat → Nat)
    (hcoh : CoherentExcept nt rules [] pr) :
    ∀ (p : List Nat) (i0 : Nat), chainOK nt rules (i0 :: p) → pr i0 ≠ 0 →
      ∀ jl, (i0 :: p).getLast? = some jl → pr i0 + pathSum rules p ≤ pr jl := by
  intro p
  induction p with
  | nil =>
    intro i0 _ _ jl hl
    have h1 : i0 = jl := by simpa using hl
    subst h1
    simp [pathSum]
  | cons j p ih =>
    intro i0 hch h0 jl hl
    obtain ⟨hj, hch2⟩ := hch
    have hc := hcoh i0 (List.not_mem_nil i0) h0 j hj
    have hj0 : pr j ≠ 0 := by
      intro hz
      rw [hz] at hc
      exact h0 (Nat.le_zero.mp (le_trans (Nat.le_add_right _ _) hc))
    have h3 := ih j hch2 hj0 jl (by simpa using hl)
    rw [pathSum_cons]
    calc pr i0 + (latOf rules j + pathSum rules p)
        = (pr i0 + latOf rules j) + pathSum rules p := by rw [Nat.add_assoc]
      _ ≤ pr j + pathSum rules p := Nat.add_le_add_right hc _
      _ ≤ pr jl := h3

theorem runPropagate_coherent (nt : Bool) (rules : List Rule) (bv : Nat → Nat)
    (hacy : ∀ i j, j ∈ succs nt rules i → bv j < bv i) (fuel : Nat)
    (hfuel : ∀ i, i < rules.length → bv i < fuel) :
    ∀ (gs : List String) (pr : Nat → Nat),
      CoherentExcept nt rules [] pr →
      CoherentExcept nt rules []
        (gs.foldl (fun q g => propagate nt rules fuel g 0 q) pr) ∧
      (∀ g ∈ gs, ∀ i, ruleOf rules g = some i →
        latOf rules i ≤ gs.foldl (fun q g => propagate nt rules fuel g 0 q) pr i) := by
  intro gs
  induction gs with
  | nil =>
    intro pr hCE
    exact ⟨hCE, fun g hg => absurd hg (List.not_mem_nil g)⟩
  | cons g gs ih =>
    intro pr hCE
    have hfl : ∀ i, ruleOf rules g = some i → bv i < fuel := by
      intro i hro
      exact hfuel i (ruleOf_lt_length hro)
    have h1 := propagate_coherent nt rules bv hacy fuel g 0 pr [] hCE hfl
    have h2 := ih (propagate nt rules fuel g 0 pr) h1.1
    simp only [List.foldl_cons]
    refine ⟨h2.1, ?_⟩
    intro g2 hg2 i hro
    rcases List.mem_cons.mp hg2 with he | hm
    · subst he
      have h3 : latOf rules i ≤ propagate nt rules fuel g2 0 pr i := by
        have h4 := h1.2 i hro
        simpa using h4
      exact le_trans h3
        (foldl_mono_pt (fun g3 q => propagate nt rules fuel g3 0 q)
          (fun d p k => propagate_mono nt rules fuel d 0 p k) gs _ i)
    · exact h2.2 g2 hm i hro

theorem runPropagate_sound (nt : Bool) (rules : List Rule) (goals : List String)
    (fuel : Nat) :
    ∀ (gs : List String) (pr : Nat → Nat),
      (∀ g ∈ gs, g ∈ goals) →
      SoundPr nt rules goals pr →
      SoundPr nt rules goals (gs.foldl (fun q g => propagate nt rules fuel g 0 q) pr) := by
  intro gs
  induction gs with
  | nil =>
    intro pr _ hs
    exact hs
  | cons g gs ih =>
    intro pr hsub hs
    simp only [List.foldl_cons]
    refine ih (propagate nt rules fuel g 0 pr)
      (fun g2 hg2 => hsub g2 (List.mem_cons_of_mem g hg2)) ?_
    refine propagate_sound nt rules goals fuel g 0 pr hs ?_
    intro i hro
    refine ⟨[i], ⟨trivial, ⟨g, hsub g (List.mem_cons_self g gs), hro⟩,
      List.cons_ne_nil i []⟩, rfl, ?_⟩
    simp [pathSum]

theorem char_toNat_inj {c d : Char} (h : c.toNat = d.toNat) : c = d :=
  Char.eq_of_val_eq (UInt32.ext h)

theorem lowerAscii_toNat_of (c : Char) (h : 65 ≤ c.toNat ∧ c.toNat ≤ 90) :
    (lowerAscii c).toNat = c.toNat + 32 := by
  unfold lowerAscii
  rw [if_pos h]
  unfold Char.ofNat
  split
  · rfl
  · rename_i h2
    exact absurd (Or.inl (by omega)) h2

theorem lowerAscii_fix_low (c : Char) (h : ¬(65 ≤ c.toNat ∧ c.toNat ≤ 90)) :
    lowerAscii c = c := by
  unfold lowerAscii
  rw [if_neg h]

theorem lowerAscii_idem (c : Char) : lowerAscii (lowerAscii c) = lowerAscii c := by
  by_cases h : 65 ≤ c.toNat ∧ c.toNat ≤ 90
  · have h1 : (lowerAscii c).toNat = c.toNat + 32 := lowerAscii_toNat_of c h
    exact lowerAscii_fix_low (lowerAscii c) (by omega)
  · rw [lowerAscii_fix_low c h]
    exact lowerAscii_fix_low c h

theorem lowerAscii_eq_iff (c d : Char)
    (hd : d.toNat < 65 ∨ (91 ≤ d.toNat ∧ d.toNat ≤ 96)) :
    lowerAscii c = d ↔ c = d := by
  constructor
  · intro h
    by_cases hc : 65 ≤ c.toNat ∧ c.toNat ≤ 90
    · have h1 := lowerAscii_toNat_of c hc
      rw [h] at h1
      exfalso
      omega
    · rw [lowerAscii_fix_low c hc] at h
      exact h
  · intro h
    subst h
    exact lowerAscii_fix_low c (by omega)

theorem lowerAscii_eq_sep (c : Char) : lowerAscii c = ntSep ↔ c = ntSep :=
  lowerAscii_eq_iff c ntSep (by decide)

theorem lowerAscii_eq_slash (c : Char) : lowerAscii c = '/' ↔ c = '/' :=
  lowerAscii_eq_iff c '/' (by decide)

theorem lowerAscii_eq_dot (c : Char) : lowerAscii c = '.' ↔ c = '.' :=
  lowerAscii_eq_iff c '.' (by decide)

theorem lowerAscii_eq_colon (c : Char) : lowerAscii c = ':' ↔ c = ':' :=
  lowerAscii_eq_iff c ':' (by decide)

theorem inter_nil (s : Char) : List.intercalate [s] ([] : List (List Char)) = [] := by
  simp [List.intercalate]

theorem inter_single (s : Char) (a : List Char) : List.intercalate [s] [a] = a := by
  simp [List.intercalate]

theorem inter_cons2 (s : Char) (a b : List Char) (t : List (List Char)) :
    List.intercalate [s] (a :: b :: t) = a ++ s :: List.intercalate [s] (b :: t) := by
  simp [List.intercalate, List.intersperse]

theorem mem_inter {x s : Char} :
    ∀ (l : List (List Char)), x ∈ List.intercalate [s] l → x = s ∨ ∃ c ∈ l, x ∈ c
  | [] => by
    rw [inter_nil]
    intro h
    exact absurd h (List.not_mem_nil x)
  | [a] => by
    rw [inter_single]
    intro h
    exact Or.inr ⟨a, List.mem_singleton_self a, h⟩
  | a :: b :: t => by
    rw [inter_cons2]
    intro h
    rcases List.mem_append.mp h with h1 | h2
    · exact Or.inr ⟨a, List.mem_cons_self a (b :: t), h1⟩
    · rcases List.mem_cons.mp h2 with he | h3
      · exact Or.inl he
      · rcases mem_inter (b :: t) h3 with h4 | ⟨c, hc, hxc⟩
        · exact Or.inl h4
        · exact Or.inr ⟨c, List.mem_cons_of_mem a hc, hxc⟩

theorem lower_inter :
    ∀ (comps : List (List Char)),
      List.map lowerAscii (List.intercalate [ntSep] comps) =
        List.intercalate [ntSep] (comps.map (List.map lowerAscii))
  | [] => by rw [inter_nil]; rfl
  | [a] => by rw [inter_single, List.map_cons, List.map_nil, inter_single]
  | a :: b :: t => by
    rw [inter_cons2]
    rw [List.map_append]
    rw [List.map_cons]
    rw [lower_inter (b :: t)]
    rw [show lowerAscii ntSep = ntSep from by decide]
    rw [show List.map (List.map lowerAscii) (a :: b :: t) =
      List.map lowerAscii a :: List.map lowerAscii b :: List.map (List.map lowerAscii) t
      from rfl]
    rw [inter_cons2]
    rfl

theorem splitPred_pieces_false (f : Char → Bool) :
    ∀ (l : List Char), ∀ g ∈ splitPred f l, ∀ c ∈ g, f c = false := by
  intro l
  induction l with
  | nil =>
    intro g hg c hc
    simp only [splitPred, List.mem_singleton] at hg
    subst hg
    exact absurd hc (List.not_mem_nil c)
  | cons a rest ih =>
    intro g hg c hc
    cases h : splitPred f rest with
    | nil => exact absurd h (splitPred_ne_nil f rest)
    | cons g0 gs =>
      simp only [splitPred, h] at hg
      by_cases hf : f a = true
      · rw [if_pos hf] at hg
        rcases List.mem_cons.mp hg with he | hm
        · subst he
          exact absurd hc (List.not_mem_nil c)
        · exact ih g (by rw [h]; exact hm) c hc
      · rw [if_neg hf] at hg
        rcases List.mem_cons.mp hg with he | hm
        · subst he
          rcases List.mem_cons.mp hc with hce | hcg
          · subst hce
            simp only [Bool.not_eq_true] at hf
            exact hf
          · exact ih g0 (by rw [h]; exact List.mem_cons_self g0 gs) c hcg
        · exact ih g (by rw [h]; exact List.mem_cons_of_mem g0 hm) c hc

theorem splitPred_pieces_sub (f : Char → Bool) :
    ∀ (l : List Char), ∀ g ∈ splitPred f l, ∀ c ∈ g, c ∈ l := by
  intro l
  induction l with
  | nil =>
    intro g hg c hc
    simp only [splitPred, List.mem_singleton] at hg
    subst hg
    exact absurd hc (List.not_mem_nil c)
  | cons a rest ih =>
    intro g hg c hc
    cases h : splitPred f rest with
    | nil => exact absurd h (splitPred_ne_nil f rest)
    | cons g0 gs =>
      simp only [splitPred, h] at hg
      by_cases hf : f a = true
      · rw [if_pos hf] at hg
        rcases List.mem_cons.mp hg with he | hm
        · subst he
          exact absurd hc (List.not_mem_nil c)
        · exact List.mem_cons_of_mem a (ih g (by rw [h]; exact hm) c hc)
      · rw [if_neg hf] at hg
        rcases List.mem_cons.mp hg with he | hm
        · subst he
          rcases List.mem_cons.mp hc with hce | hcg
          · subst hce
            exact List.mem_cons_self c rest
          · exact List.mem_cons_of_mem a
              (ih g0 (by rw [h]; exact List.mem_cons_self g0 gs) c hcg)
        · exact List.mem_cons_of_mem a
            (ih g (by rw [h]; exact List.mem_cons_of_mem g0 hm) c hc)

theorem splitSep_pieces_sepFree (sep : Char) (l : List Char) :
    ∀ g ∈ splitSep sep l, sep ∉ g := by
  intro g hg hmem
  have h := splitPred_pieces_false (fun c => decide (c = sep)) l g hg sep hmem
  simp at h

theorem splitSep_tok (sep : Char) (a : List Char) (ha : sep ∉ a) :
    splitSep sep a = [a] := by
  have h := splitPred_tok_append (fun c => decide (c = sep)) a []
    (fun c hc => decide_eq_false (fun he => ha (he ▸ hc)))
  unfold splitSep
  simpa [splitPred] using h

theorem splitSep_sep_tok (sep : Char) (a t : List Char) (ha : sep ∉ a) :
    splitSep sep (a ++ sep :: t) = a :: splitSep sep t := by
  unfold splitSep
  rw [splitPred_tok_append (fun c => decide (c = sep)) a (sep :: t)
    (fun c hc => decide_eq_false (fun he => ha (he ▸ hc)))]
  rw [splitPred_sep_cons (fun c => decide (c = sep)) sep t (by simp)]
  simp

theorem splitSep_intercalate (sep : Char) :
    ∀ (comps : List (List Char)), comps ≠ [] → (∀ c ∈ comps, sep ∉ c) →
      splitSep sep (List.intercalate [sep] comps) = comps
  | [], h, _ => absurd rfl h
  | [a], _, hs => by
    rw [inter_single]
    exact splitSep_tok sep a (hs a (List.mem_singleton_self a))
  | a :: b :: t, _, hs => by
    rw [inter_cons2]
    rw [splitSep_sep_tok sep a (List.intercalate [sep] (b :: t))
      (hs a (List.mem_cons_self a (b :: t)))]
    rw [splitSep_intercalate sep (b :: t) (by simp)
      (fun c hc => hs c (List.mem_cons_of_mem a hc))]

theorem findIdx?_append_false (p : Char → Bool) :
    ∀ (a b : List Char), (∀ c ∈ a, p c = false) →
      List.findIdx? p (a ++ b) = (List.findIdx? p b).map (fun m => m + a.length) := by
  intro a
  induction a with
  | nil =>
    intro b _
    simp
  | cons x a ih =>
    intro b hp
    have hx : p x = false := hp x (List.mem_cons_self x a)
    rw [List.cons_append, List.findIdx?_cons, if_neg (by simp [hx]), List.findIdx?_succ]
    rw [ih b (fun c hc => hp c (List.mem_cons_of_mem x hc))]
    cases List.findIdx? p b with
    | none => rfl
    | some m => simp [Nat.add_assoc]

theorem findIdx?_cons_true (p : Char → Bool) (x : Char) (t : List Char) (hx : p x = true) :
    List.findIdx? p (x :: t) = some 0 := by
  rw [List.findIdx?_cons, if_pos hx]

theorem findIdx?_decomp (p : Char → Bool) :
    ∀ (l : List Char) (n : Nat), List.findIdx? p l = some n →
      ∃ a c b, l = a ++ c :: b ∧ a.length = n ∧ (∀ y ∈ a, p y = false) ∧ p c = true := by
  intro l
  induction l with
  | nil =>
    intro n h
    simp [List.findIdx?] at h
  | cons x t ih =>
    intro n h
    rw [List.findIdx?_cons] at h
    by_cases hx : p x = true
    · rw [if_pos hx] at h
      injection h with h2
      exact ⟨[], x, t, rfl, h2, fun y hy => absurd hy (List.not_mem_nil y), hx⟩
    · rw [if_neg hx, List.findIdx?_succ] at h
      obtain ⟨m, hm, hmn⟩ := Option.map_eq_some'.mp h
      obtain ⟨a, c, b, hl, hlen, ha, hc⟩ := ih m hm
      refine ⟨x :: a, c, b, by rw [hl, List.cons_append], ?_, ?_, hc⟩
      · simp [hlen, ← hmn]
      · intro y hy
        rcases List.mem_cons.mp hy with he | hm2
        · subst he
          simp only [Bool.not_eq_true] at hx
          exact hx
        · exact ha y hm2

theorem take_two_decomp (x : List Char) (a b : Char) (h : x.take 2 = [a, b]) :
    ∃ t, x = a :: b :: t := by
  cases x with
  | nil => simp at h
  | cons c1 t1 =>
    cases t1 with
    | nil => simp at h
    | cons c2 t2 =>
      simp [List.take] at h
      exact ⟨t2, by rw [h.1, h.2]⟩

theorem ntNormpath_eq_core (p : List Char) :
    ntNormpath p = if isSpecialNt p = true then p
      else ntCore (p.map (fun c => if c = '/' then ntSep else c)) := rfl

theorem ntCoreB_root (dr : List Char × List Char) (h : dr.2.take 1 = [ntSep]) :
    ntCoreB dr = ntCoreC (dr.1 ++ [ntSep], dr.2.dropWhile (fun c => decide (c = ntSep))) := by
  unfold ntCoreB
  rw [if_pos h]

theorem ntCoreB_plain (dr : List Char × List Char) (h : ¬(dr.2.take 1 = [ntSep])) :
    ntCoreB dr = ntCoreC (dr.1, dr.2) := by
  unfold ntCoreB
  rw [if_neg h]

theorem ntCoreC_eq (a b : List Char) :
    ntCoreC (a, b) = a ++ List.intercalate [ntSep]
      (if a = [] ∧ ntProcess (decide (a.getLast? = some ntSep)) [] (splitSep ntSep b) = []
       then [['.']]
       else ntProcess (decide (a.getLast? = some ntSep)) [] (splitSep ntSep b)) := rfl

theorem ntProcess_nil (pes : Bool) (done : List (List Char)) :
    ntProcess pes done [] = done.reverse := rfl

theorem ntProcess_skip (pes : Bool) (done : List (List Char)) (c : List Char)
    (rest : List (List Char)) (h : c = [] ∨ c = ['.']) :
    ntProcess pes done (c :: rest) = ntProcess pes done rest := by
  simp only [ntProcess]
  rw [if_pos h]

theorem ntProcess_push (pes : Bool) (done : List (List Char)) (c : List Char)
    (rest : List (List Char)) (h : ¬(c = [] ∨ c = ['.'])) (hdd : ¬(c = dd)) :
    ntProcess pes done (c :: rest) = ntProcess pes (c :: done) rest := by
  simp only [ntProcess]
  rw [if_neg h, if_neg hdd]

theorem ntProcess_dd_pop (pes : Bool) (d : List Char) (ds rest : List (List Char))
    (hd : d ≠ dd) :
    ntProcess pes (d :: ds) (dd :: rest) = ntProcess pes ds rest := by
  show (if dd = [] ∨ dd = ['.'] then ntProcess pes (d :: ds) rest
    else if dd = dd then
      (if d ≠ dd then ntProcess pes ds rest else ntProcess pes (dd :: d :: ds) rest)
    else ntProcess pes (dd :: d :: ds) rest) = ntProcess pes ds rest
  rw [if_neg (by decide), if_pos rfl, if_pos hd]

theorem ntProcess_dd_push (pes : Bool) (d : List Char) (ds rest : List (List Char))
    (hd : d = dd) :
    ntProcess pes (d :: ds) (dd :: rest) = ntProcess pes (dd :: d :: ds) rest := by
  show (if dd = [] ∨ dd = ['.'] then ntProcess pes (d :: ds) rest
    else if dd = dd then
      (if d ≠ dd then ntProcess pes ds rest else ntProcess pes (dd :: d :: ds) rest)
    else ntProcess pes (dd :: d :: ds) rest) = ntProcess pes (dd :: d :: ds) rest
  rw [if_neg (by decide), if_pos rfl, if_neg (by simp [hd])]

theorem ntProcess_dd_skip (rest : List (List Char)) :
    ntProcess true [] (dd :: rest) = ntProcess true [] rest := by
  show (if dd = [] ∨ dd = ['.'] then ntProcess true [] rest
    else if dd = dd then
      (if true = true then ntProcess true [] rest else ntProcess true [dd] rest)
    else ntProcess true [dd] rest) = ntProcess true [] rest
  rw [if_neg (by decide), if_pos rfl, if_pos rfl]

theorem ntProcess_dd_keep (rest : List (List Char)) :
    ntProcess false [] (dd :: rest) = ntProcess false [dd] rest := by
  show (if dd = [] ∨ dd = ['.'] then ntProcess false [] rest
    else if dd = dd then
      (if false = true then ntProcess false [] rest else ntProcess false [dd] rest)
    else ntProcess false [dd] rest) = ntProcess false [dd] rest
  rw [if_neg (by decide), if_pos rfl, if_neg (by decide)]

theorem stepComp_skip (s : Nat) (acc : List (List Char)) (comp : List Char)
    (h : comp = [] ∨ comp = ['.']) : stepComp s acc comp = acc := by
  unfold stepComp
  rw [if_pos h]

theorem stepComp_push (s : Nat) (acc : List (List Char)) (comp : List Char)
    (h1 : ¬(comp = [] ∨ comp = ['.']))
    (h2 : comp ≠ dd ∨ (s = 0 ∧ acc = []) ∨ (acc ≠ [] ∧ acc.getLast? = some dd)) :
    stepComp s acc comp = acc ++ [comp] := by
  unfold stepComp
  rw [if_neg h1, if_pos h2]

theorem stepComp_pop (s : Nat) (acc : List (List Char)) (comp : List Char)
    (h1 : ¬(comp = [] ∨ comp = ['.']))
    (h2 : ¬(comp ≠ dd ∨ (s = 0 ∧ acc = []) ∨ (acc ≠ [] ∧ acc.getLast? = some dd)))
    (h3 : acc ≠ []) :
    stepComp s acc comp = acc.dropLast := by
  unfold stepComp
  rw [if_neg h1, if_neg h2, if_pos h3]

theorem stepComp_noop (s : Nat) (acc : List (List Char)) (comp : List Char)
    (h1 : ¬(comp = [] ∨ comp = ['.']))
    (h2 : ¬(comp ≠ dd ∨ (s = 0 ∧ acc = []) ∨ (acc ≠ [] ∧ acc.getLast? = some dd)))
    (h3 : ¬(acc ≠ [])) :
    stepComp s acc comp = acc := by
  unfold stepComp
  rw [if_neg h1, if_neg h2, if_neg h3]

theorem replicate_getLast_dd (k : Nat) (h : 1 ≤ k) :
    (List.replicate k dd).getLast? = some dd := by
  cases k with
  | zero => omega
  | succ m => rw [List.replicate_succ' m dd, List.getLast?_concat]

theorem stepComp_foldl_plain (s : Nat) :
    ∀ (l : List (List Char)) (acc : List (List Char)),
      (∀ c ∈ l, c ≠ [] ∧ c ≠ ['.'] ∧ c ≠ dd) →
      l.foldl (stepComp s) acc = acc ++ l := by
  intro l
  induction l with
  | nil =>
    intro acc _
    simp
  | cons c l ih =>
    intro acc h
    obtain ⟨h1, h2, h3⟩ := h c (List.mem_cons_self c l)
    simp only [List.foldl_cons]
    rw [stepComp_push s acc c (fun hor => hor.elim h1 h2) (Or.inl h3)]
    rw [ih (acc ++ [c]) (fun x hx => h x (List.mem_cons_of_mem c hx))]
    simp

theorem stepComp_foldl_ddrun :
    ∀ (k m : Nat) (plain : List (List Char)),
      (∀ c ∈ plain, c ≠ [] ∧ c ≠ ['.'] ∧ c ≠ dd) →
      (List.replicate k dd ++ plain).foldl (stepComp 0) (List.replicate m dd) =
        List.replicate (m + k) dd ++ plain := by
  intro k
  induction k with
  | zero =>
    intro m plain h
    rw [show List.replicate 0 dd ++ plain = plain from rfl]
    rw [stepComp_foldl_plain 0 plain (List.replicate m dd) h, Nat.add_zero]
  | succ k ih =>
    intro m plain h
    rw [show List.replicate (k + 1) dd ++ plain = dd :: (List.replicate k dd ++ plain)
      from rfl]
    simp only [List.foldl_cons]
    cases m with
    | zero =>
      rw [stepComp_push 0 (List.replicate 0 dd) dd (by decide)
        (Or.inr (Or.inl ⟨rfl, rfl⟩))]
      rw [show (List.replicate 0 dd ++ [dd] : List (List Char)) = List.replicate 1 dd
        from rfl]
      rw [ih 1 plain h]
      rw [show 1 + k = 0 + (k + 1) from by omega]
    | succ m2 =>
      rw [stepComp_push 0 (List.replicate (m2 + 1) dd) dd (by decide)
        (Or.inr (Or.inr ⟨by simp, replicate_getLast_dd (m2 + 1) (by omega)⟩))]
      rw [show List.replicate (m2 + 1) dd ++ [dd] = List.replicate (m2 + 2) dd from
        (List.replicate_succ' (m2 + 1) dd).symm]
      rw [ih (m2 + 2) plain h]
      rw [show m2 + 2 + k = m2 + 1 + (k + 1) from by omega]

theorem stepComp_foldl_skipEmpty (s : Nat) :
    ∀ (n : Nat) (l : List (List Char)) (acc : List (List Char)),
      (List.replicate n [] ++ l).foldl (stepComp s) acc = l.foldl (stepComp s) acc := by
  intro n
  induction n with
  | zero =>
    intro l acc
    rfl
  | succ n ih =>
    intro l acc
    rw [show List.replicate (n + 1) ([] : List Char) ++ l
      = [] :: (List.replicate n [] ++ l) from rfl]
    simp only [List.foldl_cons]
    rw [stepComp_skip s acc [] (Or.inl rfl)]
    exact ih l acc

theorem stepComp_foldl_fix (s : Nat) (comps : List (List Char)) (h : PCompsOK s comps) :
    comps.foldl (stepComp s) [] = comps := by
  obtain ⟨hc, k, rest, hsplit, hrest, hk⟩ := h
  have hplain : ∀ c ∈ rest, c ≠ [] ∧ c ≠ ['.'] ∧ c ≠ dd := by
    intro c hcm
    have h2 := hc c (by rw [hsplit]; exact List.mem_append_right _ hcm)
    exact ⟨h2.1, h2.2.1, hrest c hcm⟩
  by_cases hs : s = 0
  · subst hs
    rw [hsplit]
    have h3 := stepComp_foldl_ddrun k 0 rest hplain
    rw [show (List.replicate 0 dd : List (List Char)) = [] from rfl] at h3
    rw [h3, Nat.zero_add]
  · have hk0 : k = 0 := hk hs
    subst hk0
    rw [hsplit]
    rw [show List.replicate 0 dd ++ rest = rest from rfl]
    rw [stepComp_foldl_plain s rest [] hplain]
    rfl

theorem stepComp_foldl_inv (s : Nat) :
    ∀ (l : List (List Char)) (acc : List (List Char)),
      (∀ c ∈ l, '/' ∉ c) →
      ((∀ c ∈ acc, c ≠ [] ∧ c ≠ ['.'] ∧ '/' ∉ c) ∧
       ∃ k rest, acc = List.replicate k dd ++ rest ∧ (∀ c ∈ rest, c ≠ dd) ∧
         (s ≠ 0 → k = 0)) →
      PCompsOK s (l.foldl (stepComp s) acc) := by
  intro l
  induction l with
  | nil =>
    intro acc _ hinv
    exact hinv
  | cons c l ih =>
    intro acc hl hinv
    obtain ⟨hchars, k, rest, hsplit, hrest, hk⟩ := hinv
    have hcl : '/' ∉ c := hl c (List.mem_cons_self c l)
    have hlrest : ∀ x ∈ l, '/' ∉ x := fun x hx => hl x (List.mem_cons_of_mem c hx)
    simp only [List.foldl_cons]
    by_cases h1 : c = [] ∨ c = ['.']
    · rw [stepComp_skip s acc c h1]
      exact ih acc hlrest ⟨hchars, k, rest, hsplit, hrest, hk⟩
    · by_cases h2 : c ≠ dd ∨ (s = 0 ∧ acc = []) ∨ (acc ≠ [] ∧ acc.getLast? = some dd)
      · rw [stepComp_push s acc c h1 h2]
        push_neg at h1
        refine ih (acc ++ [c]) hlrest ⟨?_, ?_⟩
        · intro x hx
          rcases List.mem_append.mp hx with hx1 | hx2
          · exact hchars x hx1
          · rw [List.mem_singleton] at hx2
            subst hx2
            exact ⟨h1.1, h1.2, hcl⟩
        · by_cases hcd : c = dd
          · subst hcd
            rcases h2 with h2a | h2b | h2c
            · exact absurd rfl h2a
            · refine ⟨1, [], ?_, ?_, ?_⟩
              · rw [h2b.2]
                rfl
              · intro x hx
                exact absurd hx (List.not_mem_nil x)
              · intro hs0
                exact absurd h2b.1 hs0
            · have hrnil : rest = [] := by
                by_contra hrn
                have hlast : acc.getLast? = rest.getLast? := by
                  rw [hsplit]
                  exact List.getLast?_append_of_ne_nil _ hrn
                rw [hlast] at h2c
                have hdm : dd ∈ rest := List.mem_of_mem_getLast? h2c.2
                exact hrest dd hdm rfl
              have hkp : k ≠ 0 := by
                intro hk0
                apply h2c.1
                rw [hsplit, hrnil, hk0]
                rfl
              refine ⟨k + 1, [], ?_, ?_, ?_⟩
              · rw [hsplit, hrnil, List.append_nil, ← List.replicate_succ' k dd,
                  List.append_nil]
              · intro x hx
                exact absurd hx (List.not_mem_nil x)
              · intro hs0
                exact absurd (hk hs0) hkp
          · exact ⟨k, rest ++ [c], by rw [hsplit, List.append_assoc],
              fun x hx => (List.mem_append.mp hx).elim (hrest x)
                (fun hx2 => by rw [List.mem_singleton] at hx2; subst hx2; exact hcd),
              hk⟩
      · have hno3 : ¬(acc ≠ [] ∧ acc.getLast? = some dd) := fun hx => h2 (Or.inr (Or.inr hx))
        by_cases hacc : acc = []
        · rw [stepComp_noop s acc c h1 h2 (fun hx => hx hacc)]
          exact ih acc hlrest ⟨hchars, k, rest, hsplit, hrest, hk⟩
        · rw [stepComp_pop s acc c h1 h2 hacc]
          have hrn : rest ≠ [] := by
            intro hrnil
            apply hno3
            refine ⟨hacc, ?_⟩
            rw [hsplit, hrnil, List.append_nil]
            have hkp : k ≠ 0 := by
              intro hk0
              apply hacc
              rw [hsplit, hrnil, hk0]
              rfl
            exact replicate_getLast_dd k (by omega)
          refine ih acc.dropLast hlrest ⟨?_, k, rest.dropLast, ?_, ?_, hk⟩
          · intro x hx
            exact hchars x ((List.dropLast_sublist acc).subset hx)
          · rw [hsplit]
            exact List.dropLast_append_of_ne_nil _ hrn
          · intro x hx
            exact hrest x ((List.dropLast_sublist rest).subset hx)

theorem posixNormpath_eval (p : List Char) (s : Nat) (hne : p ≠ [])
    (hs : (if p.take 1 = ['/'] then
        (if p.take 2 = ['/', '/'] ∧ p.take 3 ≠ ['/', '/', '/'] then 2 else 1) else 0) = s) :
    posixNormpath p =
      (if List.replicate s '/' ++
          List.intercalate ['/'] ((splitSep '/' p).foldl (stepComp s) []) = []
       then ['.']
       else List.replicate s '/' ++
          List.intercalate ['/'] ((splitSep '/' p).foldl (stepComp s) [])) := by
  simp only [posixNormpath, hs]
  rw [if_neg hne]

theorem posixNormpath_canon (p : List Char) : CanonP (posixNormpath p) := by
  by_cases hne : p = []
  · subst hne
    exact Or.inl rfl
  · set s : Nat := (if p.take 1 = ['/'] then
      (if p.take 2 = ['/', '/'] ∧ p.take 3 ≠ ['/', '/', '/'] then 2 else 1) else 0)
      with hsdef
    have heval := posixNormpath_eval p s hne hsdef.symm
    have hcomps : PCompsOK s ((splitSep '/' p).foldl (stepComp s) []) :=
      stepComp_foldl_inv s (splitSep '/' p) [] (splitSep_pieces_sepFree '/' p)
        ⟨fun c hc => absurd hc (List.not_mem_nil c), 0, [], rfl,
         fun c hc => absurd hc (List.not_mem_nil c), fun _ => rfl⟩
    have hs3 : s = 0 ∨ s = 1 ∨ s = 2 := by
      rw [hsdef]
      by_cases h1 : p.take 1 = ['/']
      · rw [if_pos h1]
        by_cases h2 : p.take 2 = ['/', '/'] ∧ p.take 3 ≠ ['/', '/', '/']
        · rw [if_pos h2]
          exact Or.inr (Or.inr rfl)
        · rw [if_neg h2]
          exact Or.inr (Or.inl rfl)
      · rw [if_neg h1]
        exact Or.inl rfl
    rw [heval]
    split
    · exact Or.inl rfl
    · rename_i hres
      right
      refine ⟨s, _, hs3, hcomps, ?_, rfl⟩
      intro hs0 hcnil
      apply hres
      rw [hcnil, inter_nil, List.append_nil, hs0]
      rfl

theorem posixNormpath_fix (y : List Char) (h : CanonP y) : posixNormpath y = y := by
  rcases h with h0 | ⟨s, comps, hs3, hok, hs0c, hy⟩
  · subst h0
    rfl
  · subst hy
    obtain ⟨hchars, hstruct⟩ := hok
    by_cases hcnil : comps = []
    · subst hcnil
      have hsne : s ≠ 0 := fun h0 => (hs0c h0) rfl
      rcases hs3 with h0 | h1 | h2
      · exact absurd h0 hsne
      · subst h1
        decide
      · subst h2
        decide
    · obtain ⟨c1, cs, hcc⟩ := List.exists_cons_of_ne_nil hcnil
      have hc1 := hchars c1 (by rw [hcc]; exact List.mem_cons_self c1 cs)
      obtain ⟨ch, c1t, hc1c⟩ := List.exists_cons_of_ne_nil hc1.1
      have hch : ch ≠ '/' := by
        intro he
        apply hc1.2.2
        rw [hc1c, he]
        exact List.mem_cons_self _ _
      have hinter : ∃ t2, List.intercalate ['/'] comps = ch :: t2 := by
        rw [hcc]
        cases cs with
        | nil =>
          rw [inter_single, hc1c]
          exact ⟨c1t, rfl⟩
        | cons c2 cs2 =>
          rw [inter_cons2, hc1c]
          exact ⟨c1t ++ '/' :: List.intercalate ['/'] (c2 :: cs2), rfl⟩
      obtain ⟨t2, ht2⟩ := hinter
      have hsfree : ∀ c ∈ comps, '/' ∉ c := fun c hc => (hchars c hc).2.2
      have hrt : splitSep '/' (List.intercalate ['/'] comps) = comps :=
        splitSep_intercalate '/' comps hcnil hsfree
      have hfix : comps.foldl (stepComp s) [] = comps :=
        stepComp_foldl_fix s comps ⟨hchars, hstruct⟩
      rcases hs3 with h0 | h1 | h2
      · subst h0
        rw [show (List.replicate 0 '/' ++ List.intercalate ['/'] comps : List Char)
          = List.intercalate ['/'] comps from rfl]
        have hne2 : List.intercalate ['/'] comps ≠ [] := by
          rw [ht2]
          exact List.cons_ne_nil ch t2
        have heval := posixNormpath_eval (List.intercalate ['/'] comps) 0 hne2 ?hsv
        case hsv =>
          rw [ht2]
          rw [if_neg (by simp [List.take, hch])]
        rw [heval, hrt, hfix]
        rw [show (List.replicate 0 '/' ++ List.intercalate ['/'] comps : List Char)
          = List.intercalate ['/'] comps from rfl]
        rw [if_neg hne2]
      · subst h1
        rw [show (List.replicate 1 '/' ++ List.intercalate ['/'] comps : List Char)
          = '/' :: List.intercalate ['/'] comps from rfl]
        have heval := posixNormpath_eval ('/' :: List.intercalate ['/'] comps) 1
          (List.cons_ne_nil _ _) ?hsv1
        case hsv1 =>
          rw [ht2]
          rw [if_pos (by simp [List.take])]
          rw [if_neg (by simp [List.take, hch])]
        rw [heval]
        have hss : splitSep '/' ('/' :: List.intercalate ['/'] comps)
            = [] :: splitSep '/' (List.intercalate ['/'] comps) :=
          splitPred_sep_cons _ '/' _ (by simp)
        rw [hss, hrt]
        have hsk : (([] : List Char) :: comps).foldl (stepComp 1) []
            = comps.foldl (stepComp 1) [] := by
          simp only [List.foldl_cons]
          rw [stepComp_skip 1 [] [] (Or.inl rfl)]
        rw [hsk, hfix]
        have hnn : ¬(List.replicate 1 '/' ++ List.intercalate ['/'] comps = []) :=
          fun hx => List.cons_ne_nil '/' (List.intercalate ['/'] comps) hx
        rw [if_neg hnn]
        rfl
      · subst h2
        rw [show (List.replicate 2 '/' ++ List.intercalate ['/'] comps : List Char)
          = '/' :: '/' :: List.intercalate ['/'] comps from rfl]
        have heval := posixNormpath_eval ('/' :: '/' :: List.intercalate ['/'] comps) 2
          (List.cons_ne_nil _ _) ?hsv2
        case hsv2 =>
          rw [ht2]
          rw [if_pos (by simp [List.take])]
          rw [if_pos ⟨by simp [List.take], by simp [List.take, hch]⟩]
        rw [heval]
        have hss : splitSep '/' ('/' :: '/' :: List.intercalate ['/'] comps)
            = [] :: [] :: splitSep '/' (List.intercalate ['/'] comps) := by
          have h1 : splitSep '/' ('/' :: '/' :: List.intercalate ['/'] comps)
              = [] :: splitSep '/' ('/' :: List.intercalate ['/'] comps) :=
            splitPred_sep_cons _ '/' _ (by simp)
          have h2 : splitSep '/' ('/' :: List.intercalate ['/'] comps)
              = [] :: splitSep '/' (List.intercalate ['/'] comps) :=
            splitPred_sep_cons _ '/' _ (by simp)
          rw [h1, h2]
        rw [hss, hrt]
        have hsk : (([] : List Char) :: ([] : List Char) :: comps).foldl (stepComp 2) []
            = comps.foldl (stepComp 2) [] := by
          simp only [List.foldl_cons]
          rw [stepComp_skip 2 [] [] (Or.inl rfl), stepComp_skip 2 [] [] (Or.inl rfl)]
        rw [hsk, hfix]
        have hnn : ¬(List.replicate 2 '/' ++ List.intercalate ['/'] comps = []) :=
          fun hx => List.cons_ne_nil '/' ('/' :: List.intercalate ['/'] comps) hx
        rw [if_neg hnn]
        rfl

theorem posixNormpath_idem (p : List Char) :
    posixNormpath (posixNormpath p) = posixNormpath p :=
  posixNormpath_fix (posixNormpath p) (posixNormpath_canon p)

theorem map_id_on (f : Char → Char) (l : List Char) (h : ∀ a ∈ l, f a = a) :
    l.map f = l := by
  induction l with
  | nil => rfl
  | cons a t ih =>
    rw [List.map_cons, h a (List.mem_cons_self a t),
      ih (fun x hx => h x (List.mem_cons_of_mem a hx))]

theorem not_mem_lower_of (d : Char) (hd : d.toNat < 65 ∨ (91 ≤ d.toNat ∧ d.toNat ≤ 96))
    (l : List Char) (h : d ∉ l) : d ∉ l.map lowerAscii := by
  intro hm
  obtain ⟨a, ha, hae⟩ := List.mem_map.mp hm
  rw [lowerAscii_eq_iff a d hd] at hae
  exact h (hae ▸ ha)

theorem lower_comp_ne_dot (c : List Char) (h : c ≠ ['.']) : c.map lowerAscii ≠ ['.'] := by
  intro he
  apply h
  cases c with
  | nil => simp at he
  | cons a t =>
    rw [List.map_cons] at he
    injection he with h1 h2
    rw [lowerAscii_eq_dot] at h1
    rw [h1, List.map_eq_nil_iff.mp h2]

theorem lower_comp_ne_dd (c : List Char) (h : c ≠ dd) : c.map lowerAscii ≠ dd := by
  intro he
  cases c with
  | nil => exact absurd (show ([] : List Char) = dd from he) (by decide)
  | cons a t =>
    rw [List.map_cons] at he
    injection he with h1 h2
    cases t with
    | nil => exact absurd (show ([] : List Char) = ['.'] from h2) (by decide)
    | cons b t2 =>
      rw [List.map_cons] at h2
      injection h2 with h3 h4
      rw [lowerAscii_eq_dot] at h1 h3
      apply h
      rw [h1, h3, List.map_eq_nil_iff.mp h4]
      rfl

theorem lower_lower (l : List Char) :
    (l.map lowerAscii).map lowerAscii = l.map lowerAscii := by
  rw [List.map_map]
  exact List.map_congr_left (fun a _ => lowerAscii_idem a)

theorem back_fwd (l : List Char) (h : '/' ∉ l) :
    (l.map (fun c => if c = ntSep then '/' else c)).map
      (fun c => if c = '/' then ntSep else c) = l := by
  rw [List.map_map]
  apply map_id_on
  intro a ha
  by_cases hs : a = ntSep
  · subst hs
    rfl
  · have hfa : (if a = ntSep then '/' else a) = a := if_neg hs
    show (if (if a = ntSep then '/' else a) = '/' then ntSep
      else (if a = ntSep then '/' else a)) = a
    rw [hfa]
    rw [if_neg (fun he : a = '/' => h (he ▸ ha))]

theorem slash_not_mem_back (l : List Char) :
    '/' ∉ l.map (fun c => if c = '/' then ntSep else c) := by
  intro hm
  obtain ⟨a, _, hae⟩ := List.mem_map.mp hm
  by_cases hs : a = '/'
  · rw [if_pos hs] at hae
    exact absurd hae (by decide)
  · rw [if_neg hs] at hae
    exact hs hae

theorem sep_not_mem_fwd (l : List Char) :
    ntSep ∉ l.map (fun c => if c = ntSep then '/' else c) := by
  intro hm
  obtain ⟨a, _, hae⟩ := List.mem_map.mp hm
  by_cases hs : a = ntSep
  · rw [if_pos hs] at hae
    exact absurd hae (by decide)
  · rw [if_neg hs] at hae
    exact hs hae

theorem isSpecialNt_eq_false_of (q : List Char) (h : ntSep ∉ q) :
    isSpecialNt q = false := by
  unfold isSpecialNt
  apply decide_eq_false
  intro hor
  rcases hor with h4 | h4
  · apply h
    exact List.take_subset 4 q (by rw [h4]; exact List.mem_cons_self _ _)
  · apply h
    exact List.take_subset 4 q (by rw [h4]; exact List.mem_cons_self _ _)

theorem not_colon_drop (x : List Char) (hcol : ∀ k, x.get? k = some ':' → k = 1)
    (n : Nat) (hn : 2 ≤ n) : ':' ∉ x.drop n := by
  intro hmem
  obtain ⟨m, hm⟩ := List.mem_iff_get?.mp hmem
  rw [List.get?_drop] at hm
  have h2 := hcol (n + m) hm
  omega

theorem not_colon_all (x : List Char) (hcol : ∀ k, x.get? k = some ':' → k = 1)
    (h1 : x.get? 1 ≠ some ':') : ':' ∉ x := by
  intro hmem
  obtain ⟨m, hm⟩ := List.mem_iff_get?.mp hmem
  have h2 := hcol m hm
  subst h2
  exact h1 hm

theorem ntProcess_plain (pes : Bool) :
    ∀ (l : List (List Char)) (done : List (List Char)),
      (∀ c ∈ l, c ≠ [] ∧ c ≠ ['.'] ∧ c ≠ dd) →
      ntProcess pes done l = done.reverse ++ l := by
  intro l
  induction l with
  | nil =>
    intro done _
    rw [ntProcess_nil]
    simp
  | cons c l ih =>
    intro done h
    obtain ⟨h1, h2, h3⟩ := h c (List.mem_cons_self c l)
    rw [ntProcess_push pes done c l (fun hor => hor.elim h1 h2) h3]
    rw [ih (c :: done) (fun x hx => h x (List.mem_cons_of_mem c hx))]
    simp

theorem ntProcess_ddrun :
    ∀ (k m : Nat) (plain : List (List Char)),
      (∀ c ∈ plain, c ≠ [] ∧ c ≠ ['.'] ∧ c ≠ dd) →
      ntProcess false (List.replicate m dd) (List.replicate k dd ++ plain)
        = List.replicate (m + k) dd ++ plain := by
  intro k
  induction k with
  | zero =>
    intro m plain h
    rw [show List.replicate 0 dd ++ plain = plain from rfl]
    rw [ntProcess_plain false plain (List.replicate m dd) h]
    rw [List.reverse_replicate, Nat.add_zero]
  | succ k ih =>
    intro m plain h
    rw [show List.replicate (k + 1) dd ++ plain = dd :: (List.replicate k dd ++ plain)
      from rfl]
    cases m with
    | zero =>
      rw [show (List.replicate 0 dd : List (List Char)) = [] from rfl]
      rw [ntProcess_dd_keep]
      rw [show ([dd] : List (List Char)) = List.replicate 1 dd from rfl]
      rw [ih 1 plain h]
      rw [show 1 + k = 0 + (k + 1) from by omega]
    | succ m2 =>
      rw [show List.replicate (m2 + 1) dd = dd :: List.replicate m2 dd from rfl]
      rw [ntProcess_dd_push false dd (List.replicate m2 dd) _ rfl]
      rw [show (dd :: dd :: List.replicate m2 dd : List (List Char))
        = List.replicate (m2 + 2) dd from rfl]
      rw [ih (m2 + 2) plain h]
      rw [show m2 + 2 + k = m2 + 1 + (k + 1) from by omega]

theorem ntProcess_fix (pes : Bool) (comps : List (List Char)) (h : CompsOK pes comps) :
    ntProcess pes [] comps = comps := by
  obtain ⟨hc, k, rest, hsplit, hrest, hk⟩ := h
  have hplain : ∀ c ∈ rest, c ≠ [] ∧ c ≠ ['.'] ∧ c ≠ dd := by
    intro c hcm
    have h2 := hc c (by rw [hsplit]; exact List.mem_append_right _ hcm)
    exact ⟨h2.1, h2.2.1, hrest c hcm⟩
  cases pes with
  | true =>
    rw [hsplit, hk rfl]
    rw [show List.replicate 0 dd ++ rest = rest from rfl]
    rw [ntProcess_plain true rest [] hplain]
    rfl
  | false =>
    rw [hsplit]
    have h3 := ntProcess_ddrun k 0 rest hplain
    rw [show (List.replicate 0 dd : List (List Char)) = [] from rfl] at h3
    rw [h3, Nat.zero_add]

theorem ntProcess_out (pes : Bool) :
    ∀ (l : List (List Char)) (done : List (List Char)),
      (∀ c ∈ l, ntSep ∉ c ∧ '/' ∉ c ∧ ':' ∉ c) →
      ((∀ c ∈ done, c ≠ [] ∧ c ≠ ['.'] ∧ ntSep ∉ c ∧ '/' ∉ c ∧ ':' ∉ c) ∧
       ∃ k pr, done = pr ++ List.replicate k dd ∧ (∀ c ∈ pr, c ≠ dd) ∧
         (pes = true → k = 0)) →
      CompsOK pes (ntProcess pes done l) := by
  intro l
  induction l with
  | nil =>
    intro done _ hinv
    obtain ⟨hchars, k, pr, hsplit, hpr, hk⟩ := hinv
    rw [ntProcess_nil]
    constructor
    · intro c hc
      have := hchars c (List.mem_reverse.mp hc)
      exact ⟨this.1, this.2.1, this.2.2.1, this.2.2.2.1, this.2.2.2.2⟩
    · refine ⟨k, pr.reverse, ?_, ?_, hk⟩
      · rw [hsplit, List.reverse_append, List.reverse_replicate]
      · intro c hc
        exact hpr c (List.mem_reverse.mp hc)
  | cons c l ih =>
    intro done hl hinv
    obtain ⟨hchars, k, pr, hsplit, hpr, hk⟩ := hinv
    have hcf := hl c (List.mem_cons_self c l)
    have hlt : ∀ x ∈ l, ntSep ∉ x ∧ '/' ∉ x ∧ ':' ∉ x :=
      fun x hx => hl x (List.mem_cons_of_mem c hx)
    by_cases h1 : c = [] ∨ c = ['.']
    · rw [ntProcess_skip pes done c l h1]
      exact ih done hlt ⟨hchars, k, pr, hsplit, hpr, hk⟩
    · by_cases hcd : c = dd
      · subst hcd
        cases hdone : done with
        | nil =>
          cases pes with
          | true =>
            rw [ntProcess_dd_skip]
            exact ih [] hlt ⟨fun x hx => absurd hx (List.not_mem_nil x),
              0, [], rfl, fun x hx => absurd hx (List.not_mem_nil x), fun _ => rfl⟩
          | false =>
            rw [ntProcess_dd_keep]
            refine ih [dd] hlt ⟨?_, 1, [], rfl,
              fun x hx => absurd hx (List.not_mem_nil x), ?_⟩
            · intro x hx
              rw [List.mem_singleton] at hx
              subst hx
              exact ⟨by decide, by decide, by decide, by decide, by decide⟩
            · intro hpes
              exact Bool.noConfusion hpes
        | cons d ds =>
          by_cases hd : d = dd
          · rw [ntProcess_dd_push pes d ds l hd]
            have hprnil : pr = [] := by
              cases hpc : pr with
              | nil => rfl
              | cons p0 ps =>
                rw [hdone, hpc] at hsplit
                have hsplit2 : d :: ds = p0 :: (ps ++ List.replicate k dd) := hsplit
                injection hsplit2 with hd0 _
                exact absurd (hd0 ▸ hd) (hpr p0 (by rw [hpc]; exact List.mem_cons_self p0 ps))
            have hsp2 : d :: ds = List.replicate k dd := by
              rw [hdone, hprnil] at hsplit
              exact hsplit
            have hkpos : k ≠ 0 := by
              intro hk0
              rw [hk0] at hsp2
              exact List.cons_ne_nil d ds hsp2
            refine ih (dd :: d :: ds) hlt ⟨?_, k + 1, [], ?_, ?_, ?_⟩
            · intro x hx
              rcases List.mem_cons.mp hx with he | hm
              · subst he
                exact ⟨by decide, by decide, by decide, by decide, by decide⟩
              · exact hchars x (by rw [hdone]; exact hm)
            · rw [hsp2]
              rfl
            · intro x hx
              exact absurd hx (List.not_mem_nil x)
            · intro hpes
              exact absurd (hk hpes) hkpos
          · rw [ntProcess_dd_pop pes d ds l hd]
            cases hpc : pr with
            | nil =>
              rw [hdone, hpc] at hsplit
              cases k with
              | zero => exact absurd hsplit (by simp)
              | succ k2 =>
                have hsplit2 : d :: ds = dd :: List.replicate k2 dd := hsplit
                injection hsplit2 with hd0 _
                exact absurd hd0 hd
            | cons p0 ps =>
              rw [hdone, hpc] at hsplit
              have hsplit2 : d :: ds = p0 :: (ps ++ List.replicate k dd) := hsplit
              injection hsplit2 with hd0 hds
              refine ih ds hlt ⟨?_, k, ps, hds, ?_, hk⟩
              · intro x hx
                exact hchars x (by rw [hdone]; exact List.mem_cons_of_mem d hx)
              · intro x hx
                exact hpr x (by rw [hpc]; exact List.mem_cons_of_mem p0 hx)
      · rw [ntProcess_push pes done c l h1 hcd]
        push_neg at h1
        refine ih (c :: done) hlt ⟨?_, k, c :: pr, ?_, ?_, hk⟩
        · intro x hx
          rcases List.mem_cons.mp hx with he | hm
          · subst he
            exact ⟨h1.1, h1.2, hcf.1, hcf.2.1, hcf.2.2⟩
          · exact hchars x hm
        · rw [hsplit]
          rfl
        · intro x hx
          rcases List.mem_cons.mp hx with he | hm
          · subst he
            exact hcd
          · exact hpr x hm

theorem ntSplitdrive_short (p : List Char) (h : ¬(2 ≤ p.length)) :
    ntSplitdrive p = ([], p) := by
  unfold ntSplitdrive
  rw [if_neg h]

theorem ntSplitdrive_drive (p : List Char) (hlen : 2 ≤ p.length)
    (hnu : ¬(p.take 2 = [ntSep, ntSep] ∧ p.get? 2 ≠ some ntSep))
    (hco : p.get? 1 = some ':') :
    ntSplitdrive p = (p.take 2, p.drop 2) := by
  unfold ntSplitdrive
  rw [if_pos hlen, if_neg hnu, if_pos hco]

theorem ntSplitdrive_nodrive (p : List Char) (hlen : 2 ≤ p.length)
    (hnu : ¬(p.take 2 = [ntSep, ntSep] ∧ p.get? 2 ≠ some ntSep))
    (hnc : ¬(p.get? 1 = some ':')) :
    ntSplitdrive p = ([], p) := by
  unfold ntSplitdrive
  rw [if_pos hlen, if_neg hnu, if_neg hnc]

theorem ntSplitdrive_unc_none (p : List Char) (hlen : 2 ≤ p.length)
    (hu : p.take 2 = [ntSep, ntSep] ∧ p.get? 2 ≠ some ntSep)
    (hf : findFrom ntSep p 2 = none) :
    ntSplitdrive p = ([], p) := by
  unfold ntSplitdrive
  rw [if_pos hlen, if_pos hu]
  simp only [hf]

theorem ntSplitdrive_unc_one (p : List Char) (i : Nat) (hlen : 2 ≤ p.length)
    (hu : p.take 2 = [ntSep, ntSep] ∧ p.get? 2 ≠ some ntSep)
    (hf1 : findFrom ntSep p 2 = some i)
    (hf2 : findFrom ntSep p (i + 1) = none) :
    ntSplitdrive p = (p, []) := by
  unfold ntSplitdrive
  rw [if_pos hlen, if_pos hu]
  simp only [hf1, hf2]

theorem ntSplitdrive_unc_eq (p : List Char) (i j : Nat) (hlen : 2 ≤ p.length)
    (hu : p.take 2 = [ntSep, ntSep] ∧ p.get? 2 ≠ some ntSep)
    (hf1 : findFrom ntSep p 2 = some i)
    (hf2 : findFrom ntSep p (i + 1) = some j) (hji : j = i + 1) :
    ntSplitdrive p = ([], p) := by
  unfold ntSplitdrive
  rw [if_pos hlen, if_pos hu]
  simp only [hf1, hf2]
  rw [if_pos hji]

theorem ntSplitdrive_unc (p : List Char) (i j : Nat) (hlen : 2 ≤ p.length)
    (hu : p.take 2 = [ntSep, ntSep] ∧ p.get? 2 ≠ some ntSep)
    (hf1 : findFrom ntSep p 2 = some i)
    (hf2 : findFrom ntSep p (i + 1) = some j) (hji : ¬(j = i + 1)) :
    ntSplitdrive p = (p.take j, p.drop j) := by
  unfold ntSplitdrive
  rw [if_pos hlen, if_pos hu]
  simp only [hf1, hf2]
  rw [if_neg hji]

theorem findFrom_structured (s1 z : List Char) (hs1 : ntSep ∉ s1) :
    findFrom ntSep (ntSep :: ntSep :: s1 ++ ntSep :: z) 2 = some (s1.length + 2) := by
  unfold findFrom
  rw [show (ntSep :: ntSep :: s1 ++ ntSep :: z).drop 2 = s1 ++ ntSep :: z from rfl]
  rw [findIdx?_append_false _ s1 (ntSep :: z)
    (fun c hc => decide_eq_false (fun he : c = ntSep => hs1 (he ▸ hc)))]
  rw [findIdx?_cons_true _ ntSep z (by simp)]
  simp

theorem findFrom_after (s1 z : List Char) :
    findFrom ntSep (ntSep :: ntSep :: s1 ++ ntSep :: z) (s1.length + 2 + 1)
      = ((z.findIdx? (fun x => decide (x = ntSep))).map
          (fun m => m + (s1.length + 3))) := by
  unfold findFrom
  rw [show ntSep :: ntSep :: s1 ++ ntSep :: z
    = (ntSep :: ntSep :: s1 ++ [ntSep]) ++ z from by simp]
  rw [List.drop_left' (by simp)]

theorem inter_head (comps : List (List Char)) (hne : comps ≠ [])
    (hch : ∀ c ∈ comps, c ≠ [] ∧ ntSep ∉ c) :
    ∃ ch t2, List.intercalate [ntSep] comps = ch :: t2 ∧ ch ≠ ntSep := by
  obtain ⟨c1, cs, hcc⟩ := List.exists_cons_of_ne_nil hne
  have hc1 := hch c1 (by rw [hcc]; exact List.mem_cons_self c1 cs)
  obtain ⟨ch, c1t, hc1c⟩ := List.exists_cons_of_ne_nil hc1.1
  have hchs : ch ≠ ntSep := by
    intro he
    apply hc1.2
    rw [hc1c, he]
    exact List.mem_cons_self _ _
  subst hcc
  cases cs with
  | nil =>
    rw [inter_single, hc1c]
    exact ⟨ch, c1t, rfl, hchs⟩
  | cons c2 cs2 =>
    rw [inter_cons2, hc1c]
    exact ⟨ch, c1t ++ ntSep :: List.intercalate [ntSep] (c2 :: cs2), rfl, hchs⟩

theorem colon_not_mem_inter (comps : List (List Char)) (h : ∀ c ∈ comps, ':' ∉ c) :
    ':' ∉ List.intercalate [ntSep] comps := by
  intro hm
  rcases mem_inter comps hm with he | ⟨c, hc, hmc⟩
  · exact absurd he (by decide)
  · exact h c hc hmc

theorem dropWhile_sep_cons (t : List Char) :
    (ntSep :: t).dropWhile (fun c => decide (c = ntSep))
      = t.dropWhile (fun c => decide (c = ntSep)) := by
  rw [List.dropWhile_cons, if_pos (by simp)]

theorem dropWhile_of_head (ch : Char) (t : List Char) (h : ch ≠ ntSep) :
    (ch :: t).dropWhile (fun c => decide (c = ntSep)) = ch :: t := by
  rw [List.dropWhile_cons, if_neg (by simp [h])]

theorem ntCoreC_go (a b : List Char) (pesv : Bool)
    (hpes : decide (a.getLast? = some ntSep) = pesv)
    (comps : List (List Char)) (hco : CompsOK pesv comps)
    (hsplit : splitSep ntSep b = comps)
    (hnot : ¬(a = [] ∧ comps = [])) :
    ntCoreC (a, b) = a ++ List.intercalate [ntSep] comps := by
  rw [ntCoreC_eq, hsplit, hpes, ntProcess_fix pesv comps hco, if_neg hnot]

theorem ntCoreC_stop (a : List Char) (ha : a ≠ []) :
    ntCoreC (a, []) = a := by
  rw [ntCoreC_eq]
  rw [show splitSep ntSep ([] : List Char) = [[]] from rfl]
  rw [ntProcess_skip _ [] [] [] (Or.inl rfl), ntProcess_nil]
  rw [show List.reverse ([] : List (List Char)) = [] from rfl]
  rw [if_neg (fun hx => ha hx.1)]
  rw [inter_nil, List.append_nil]

/-- Every canonical drive-letter shape is a fixed point of the
normalization core. -/
theorem ntCore_fix (y : List Char) (h : CanonNt y) : ntCore y = y := by
  rcases h with h0 | ⟨comps, hne, hok, hy⟩ | ⟨comps, hok, hy⟩ |
    ⟨d0, comps, _, hok, hy⟩ | ⟨d0, comps, _, hok, hy⟩ |
    ⟨s1, s2, hn1, hm1, _, hm2, _, hy⟩ |
    ⟨s1, s2, comps, hn1, hn2, hm1, _, hm2, _, hok, hy⟩
  · subst h0
    decide
  · -- relative path
    subst hy
    obtain ⟨ch, t2, hit, hchs⟩ := inter_head comps hne
      (fun c hc => ⟨(hok.1 c hc).1, (hok.1 c hc).2.2.1⟩)
    have hcolon : ':' ∉ List.intercalate [ntSep] comps :=
      colon_not_mem_inter comps (fun c hc => (hok.1 c hc).2.2.2.2)
    have hsd : ntSplitdrive (List.intercalate [ntSep] comps)
        = ([], List.intercalate [ntSep] comps) := by
      by_cases hlen : 2 ≤ (List.intercalate [ntSep] comps).length
      · refine ntSplitdrive_nodrive _ hlen ?_ ?_
        · intro hu
          obtain ⟨t, htt⟩ := take_two_decomp _ _ _ hu.1
          rw [hit] at htt
          injection htt with hh _
          exact hchs hh
        · intro hc1
          exact hcolon (List.get?_mem hc1)
      · exact ntSplitdrive_short _ hlen
    unfold ntCore
    rw [hsd]
    rw [ntCoreB_plain _ (by
      rw [show (([], List.intercalate [ntSep] comps) :
        List Char × List Char).2 = List.intercalate [ntSep] comps from rfl]
      rw [hit]
      intro hx
      rw [show (ch :: t2).take 1 = [ch] from rfl] at hx
      injection hx with hh _
      exact hchs hh)]
    exact ntCoreC_go [] (List.intercalate [ntSep] comps) false rfl comps hok
      (splitSep_intercalate ntSep comps hne (fun c hc => (hok.1 c hc).2.2.1))
      (fun hx => hne hx.2)
  · -- rooted path
    subst hy
    by_cases hce : comps = []
    · subst hce
      rw [inter_nil]
      decide
    · obtain ⟨ch, t2, hit, hchs⟩ := inter_head comps hce
        (fun c hc => ⟨(hok.1 c hc).1, (hok.1 c hc).2.2.1⟩)
      have hcolon : ':' ∉ List.intercalate [ntSep] comps :=
        colon_not_mem_inter comps (fun c hc => (hok.1 c hc).2.2.2.2)
      have hsd : ntSplitdrive (ntSep :: List.intercalate [ntSep] comps)
          = ([], ntSep :: List.intercalate [ntSep] comps) := by
        refine ntSplitdrive_nodrive _ (by rw [hit]; simp) ?_ ?_
        · intro hu
          rw [hit] at hu
          have hu1 : (ntSep :: ch :: t2).take 2 = [ntSep, ntSep] := hu.1
          rw [show (ntSep :: ch :: t2).take 2 = [ntSep, ch] from rfl] at hu1
          injection hu1 with _ hu2
          injection hu2 with hh _
          exact hchs hh
        · intro hc1
          rw [hit] at hc1
          have hch2 : ch = ':' := Option.some.inj hc1
          apply hcolon
          rw [hit, ← hch2]
          exact List.mem_cons_self _ _
      unfold ntCore
      rw [hsd]
      rw [ntCoreB_root _ (by rw [show (([], ntSep :: List.intercalate [ntSep] comps) :
        List Char × List Char).2 = ntSep :: List.intercalate [ntSep] comps from rfl]; rfl)]
      have hdw : (ntSep :: List.intercalate [ntSep] comps).dropWhile
          (fun c => decide (c = ntSep)) = List.intercalate [ntSep] comps := by
        rw [dropWhile_sep_cons, hit, dropWhile_of_head ch t2 hchs]
      rw [show (([], ntSep :: List.intercalate [ntSep] comps) :
        List Char × List Char).1 ++ [ntSep] = [ntSep] from rfl]
      rw [show (([], ntSep :: List.intercalate [ntSep] comps) :
        List Char × List Char).2 = ntSep :: List.intercalate [ntSep] comps from rfl]
      rw [hdw]
      exact ntCoreC_go [ntSep] (List.intercalate [ntSep] comps) true rfl comps hok
        (splitSep_intercalate ntSep comps hce (fun c hc => (hok.1 c hc).2.2.1))
        (fun hx => absurd hx.1 (by decide))
  · -- drive-relative path
    subst hy
    have hsd : ntSplitdrive (d0 :: ':' :: List.intercalate [ntSep] comps)
        = ([d0, ':'], List.intercalate [ntSep] comps) := by
      have h2 := ntSplitdrive_drive (d0 :: ':' :: List.intercalate [ntSep] comps)
        (by simp) ?_ rfl
      · rw [h2]
        rfl
      · intro hu
        have hu1 : (d0 :: ':' :: List.intercalate [ntSep] comps).take 2
            = [ntSep, ntSep] := hu.1
        rw [show (d0 :: ':' :: List.intercalate [ntSep] comps).take 2 = [d0, ':']
          from rfl] at hu1
        injection hu1 with _ hu2
        injection hu2 with hh _
        exact absurd hh (by decide)
    unfold ntCore
    rw [hsd]
    by_cases hce : comps = []
    · subst hce
      rw [inter_nil]
      have hb : ¬((([d0, ':'], []) : List Char × List Char).2.take 1 = [ntSep]) := by
        intro hx
        exact absurd (show ([] : List Char) = [ntSep] from hx) (by decide)
      rw [ntCoreB_plain _ hb]
      exact ntCoreC_stop [d0, ':'] (by simp)
    · obtain ⟨ch, t2, hit, hchs⟩ := inter_head comps hce
        (fun c hc => ⟨(hok.1 c hc).1, (hok.1 c hc).2.2.1⟩)
      have hb : ¬((([d0, ':'], List.intercalate [ntSep] comps) :
          List Char × List Char).2.take 1 = [ntSep]) := by
        rw [show (([d0, ':'], List.intercalate [ntSep] comps) :
          List Char × List Char).2 = List.intercalate [ntSep] comps from rfl]
        rw [hit]
        intro hx
        rw [show (ch :: t2).take 1 = [ch] from rfl] at hx
        injection hx with hh _
        exact hchs hh
      rw [ntCoreB_plain _ hb]
      exact ntCoreC_go [d0, ':'] (List.intercalate [ntSep] comps) false rfl comps hok
        (splitSep_intercalate ntSep comps hce (fun c hc => (hok.1 c hc).2.2.1))
        (fun hx => absurd hx.1 (List.cons_ne_nil _ _))
  · -- drive-rooted path
    subst hy
    have hsd : ntSplitdrive (d0 :: ':' :: ntSep :: List.intercalate [ntSep] comps)
        = ([d0, ':'], ntSep :: List.intercalate [ntSep] comps) := by
      have h2 := ntSplitdrive_drive (d0 :: ':' :: ntSep :: List.intercalate [ntSep] comps)
        (by simp) ?_ rfl
      · rw [h2]
        rfl
      · intro hu
        have hu1 : (d0 :: ':' :: ntSep :: List.intercalate [ntSep] comps).take 2
            = [ntSep, ntSep] := hu.1
        rw [show (d0 :: ':' :: ntSep :: List.intercalate [ntSep] comps).take 2 = [d0, ':']
          from rfl] at hu1
        injection hu1 with _ hu2
        injection hu2 with hh _
        exact absurd hh (by decide)
    unfold ntCore
    rw [hsd]
    rw [ntCoreB_root ([d0, ':'], ntSep :: List.intercalate [ntSep] comps) rfl]
    rw [show (([d0, ':'], ntSep :: List.intercalate [ntSep] comps) :
      List Char × List Char).1 ++ [ntSep] = [d0, ':', ntSep] from rfl]
    rw [show (([d0, ':'], ntSep :: List.intercalate [ntSep] comps) :
      List Char × List Char).2 = ntSep :: List.intercalate [ntSep] comps from rfl]
    rw [dropWhile_sep_cons]
    by_cases hce : comps = []
    · subst hce
      rw [inter_nil]
      rw [show ([] : List Char).dropWhile (fun c => decide (c = ntSep)) = [] from rfl]
      exact ntCoreC_stop [d0, ':', ntSep] (by simp)
    · obtain ⟨ch, t2, hit, hchs⟩ := inter_head comps hce
        (fun c hc => ⟨(hok.1 c hc).1, (hok.1 c hc).2.2.1⟩)
      rw [hit, dropWhile_of_head ch t2 hchs, ← hit]
      exact ntCoreC_go [d0, ':', ntSep] (List.intercalate [ntSep] comps) true rfl comps hok
        (splitSep_intercalate ntSep comps hce (fun c hc => (hok.1 c hc).2.2.1))
        (fun hx => absurd hx.1 (List.cons_ne_nil _ _))
  · -- UNC, no component tail
    subst hy
    obtain ⟨h1c, t1, hs1c⟩ := List.exists_cons_of_ne_nil hn1
    subst hs1c
    have hnh1 : h1c ≠ ntSep := by
      intro he
      apply hm1
      rw [he]
      exact List.mem_cons_self _ _
    have hsd : ntSplitdrive (ntSep :: ntSep :: (h1c :: t1) ++ ntSep :: s2)
        = (ntSep :: ntSep :: (h1c :: t1) ++ ntSep :: s2, []) := by
      refine ntSplitdrive_unc_one _ ((h1c :: t1).length + 2) (by simp) ⟨rfl, ?_⟩
        (findFrom_structured (h1c :: t1) s2 hm1) ?_
      · intro he
        exact hnh1 (Option.some.inj he)
      · rw [findFrom_after (h1c :: t1) s2]
        rw [List.findIdx?_eq_none_iff.mpr
          (fun x hx => decide_eq_false (fun he : x = ntSep => hm2 (he ▸ hx)))]
        rfl
    unfold ntCore
    rw [hsd]
    have hb : ¬(((ntSep :: ntSep :: (h1c :: t1) ++ ntSep :: s2, []) :
        List Char × List Char).2.take 1 = [ntSep]) := by
      intro hx
      exact absurd (show ([] : List Char) = [ntSep] from hx) (by decide)
    rw [ntCoreB_plain _ hb]
    exact ntCoreC_stop _ (by simp)
  · -- UNC with component tail
    subst hy
    obtain ⟨h1c, t1, hs1c⟩ := List.exists_cons_of_ne_nil hn1
    subst hs1c
    have hnh1 : h1c ≠ ntSep := by
      intro he
      apply hm1
      rw [he]
      exact List.mem_cons_self _ _
    have hass : ntSep :: ntSep :: (h1c :: t1) ++ ntSep :: (s2 ++ ntSep ::
        List.intercalate [ntSep] comps)
        = (ntSep :: ntSep :: (h1c :: t1) ++ ntSep :: s2) ++ ntSep ::
          List.intercalate [ntSep] comps := by
      simp
    have hsd : ntSplitdrive (ntSep :: ntSep :: (h1c :: t1) ++ ntSep :: (s2 ++ ntSep ::
        List.intercalate [ntSep] comps))
        = (ntSep :: ntSep :: (h1c :: t1) ++ ntSep :: s2,
           ntSep :: List.intercalate [ntSep] comps) := by
      have hj := ntSplitdrive_unc (ntSep :: ntSep :: (h1c :: t1) ++ ntSep :: (s2 ++ ntSep ::
          List.intercalate [ntSep] comps)) ((h1c :: t1).length + 2)
        (s2.length + ((h1c :: t1).length + 3)) (by simp) ⟨rfl, ?_⟩
        (findFrom_structured (h1c :: t1) _ hm1) ?_ ?_
      · rw [hj, hass, List.take_left' (by simp; omega), List.drop_left' (by simp; omega)]
      · intro he
        exact hnh1 (Option.some.inj he)
      · rw [findFrom_after (h1c :: t1) (s2 ++ ntSep :: List.intercalate [ntSep] comps)]
        rw [findIdx?_append_false _ s2 _
          (fun c hc => decide_eq_false (fun he : c = ntSep => hm2 (he ▸ hc)))]
        rw [findIdx?_cons_true _ ntSep _ (by simp)]
        simp
      · intro hj2
        have hs2z : s2.length = 0 := by omega
        exact hn2 (List.length_eq_zero.mp hs2z)
    simp only [List.cons_append] at hsd
    simp only [List.cons_append, List.append_assoc]
    unfold ntCore
    rw [hsd]
    rw [ntCoreB_root (ntSep :: ntSep :: h1c :: (t1 ++ ntSep :: s2),
      ntSep :: List.intercalate [ntSep] comps) rfl]
    rw [show ((ntSep :: ntSep :: h1c :: (t1 ++ ntSep :: s2),
      ntSep :: List.intercalate [ntSep] comps) : List Char × List Char).1 ++ [ntSep]
      = (ntSep :: ntSep :: h1c :: (t1 ++ ntSep :: s2)) ++ [ntSep] from rfl]
    rw [show ((ntSep :: ntSep :: h1c :: (t1 ++ ntSep :: s2),
      ntSep :: List.intercalate [ntSep] comps) : List Char × List Char).2
      = ntSep :: List.intercalate [ntSep] comps from rfl]
    rw [dropWhile_sep_cons]
    have hpes : decide (((ntSep :: ntSep :: h1c :: (t1 ++ ntSep :: s2)) ++ [ntSep]).getLast?
        = some ntSep) = true := by
      rw [List.getLast?_concat]
      simp
    by_cases hce : comps = []
    · subst hce
      rw [inter_nil]
      rw [show ([] : List Char).dropWhile (fun c => decide (c = ntSep)) = [] from rfl]
      rw [ntCoreC_stop _ (by simp)]
      simp
    · obtain ⟨ch, t2, hit, hchs⟩ := inter_head comps hce
        (fun c hc => ⟨(hok.1 c hc).1, (hok.1 c hc).2.2.1⟩)
      rw [hit, dropWhile_of_head ch t2 hchs, ← hit]
      rw [ntCoreC_go _ (List.intercalate [ntSep] comps) true hpes comps hok
        (splitSep_intercalate ntSep comps hce (fun c hc => (hok.1 c hc).2.2.1))
        (fun hx => absurd hx.1 (by simp))]
      simp

theorem not_mem_dropWhile (d : Char) (p : Char → Bool) (l : List Char) (h : d ∉ l) :
    d ∉ l.dropWhile p := by
  intro hm
  exact h (List.Sublist.subset (List.dropWhile_sublist p) hm)

theorem get1_decomp (x : List Char) (h : x.get? 1 = some ':') :
    ∃ x0 rest, x = x0 :: ':' :: rest := by
  cases x with
  | nil => simp [List.get?] at h
  | cons a t =>
    cases t with
    | nil => simp [List.get?] at h
    | cons b t2 =>
      have hb : some b = some ':' := h
      exact ⟨a, t2, by rw [Option.some.inj hb]⟩

theorem ntCoreC_ok (b : List Char) (pes : Bool) (hb1 : '/' ∉ b) (hb2 : ':' ∉ b) :
    CompsOK pes (ntProcess pes [] (splitSep ntSep b)) := by
  refine ntProcess_out pes (splitSep ntSep b) [] ?_ ?_
  · intro c hc
    refine ⟨splitSep_pieces_sepFree ntSep b c hc, ?_, ?_⟩
    · intro hm
      exact hb1 (splitPred_pieces_sub (fun c2 => decide (c2 = ntSep)) b c hc '/' hm)
    · intro hm
      exact hb2 (splitPred_pieces_sub (fun c2 => decide (c2 = ntSep)) b c hc ':' hm)
  · exact ⟨by simp, 0, [], rfl, by simp, fun _ => rfl⟩

theorem ntCoreC_val (a b : List Char) (pesv : Bool)
    (hpes : decide (a.getLast? = some ntSep) = pesv) (ha : a ≠ []) :
    ntCoreC (a, b) = a ++ List.intercalate [ntSep] (ntProcess pesv [] (splitSep ntSep b)) := by
  rw [ntCoreC_eq, hpes, if_neg (fun hx => ha hx.1)]

theorem ntCoreC_val_nil (b : List Char) :
    ntCoreC ([], b) = (if ntProcess false [] (splitSep ntSep b) = [] then ['.']
      else List.intercalate [ntSep] (ntProcess false [] (splitSep ntSep b))) := by
  rw [ntCoreC_eq]
  rw [show decide (([] : List Char).getLast? = some ntSep) = false from rfl]
  by_cases hc : ntProcess false [] (splitSep ntSep b) = []
  · rw [if_pos ⟨rfl, hc⟩, if_pos hc, inter_single]
    rfl
  · rw [if_neg (fun hx => hc hx.2), if_neg hc]
    rw [List.nil_append]

theorem canon_rel (w : List Char) (hb1 : '/' ∉ w) (hb2 : ':' ∉ w) :
    CanonNt (ntCoreC ([], w)) := by
  have hok := ntCoreC_ok w false hb1 hb2
  rw [ntCoreC_val_nil w]
  by_cases hc : ntProcess false [] (splitSep ntSep w) = []
  · rw [if_pos hc]
    exact Or.inl rfl
  · rw [if_neg hc]
    exact Or.inr (Or.inl ⟨_, hc, hok, rfl⟩)

theorem canon_rooted (w : List Char) (hb1 : '/' ∉ w) (hb2 : ':' ∉ w) :
    CanonNt (ntCoreC ([ntSep], w)) := by
  have hok := ntCoreC_ok w true hb1 hb2
  rw [ntCoreC_val [ntSep] w true rfl (by decide)]
  exact Or.inr (Or.inr (Or.inl ⟨_, hok, rfl⟩))

theorem canon_drive_rel (d0 : Char) (hd0 : d0 ≠ '/') (w : List Char)
    (hb1 : '/' ∉ w) (hb2 : ':' ∉ w) : CanonNt (ntCoreC ([d0, ':'], w)) := by
  have hok := ntCoreC_ok w false hb1 hb2
  rw [ntCoreC_val [d0, ':'] w false rfl (by simp)]
  exact Or.inr (Or.inr (Or.inr (Or.inl ⟨d0, _, hd0, hok, rfl⟩)))

theorem canon_drive_root (d0 : Char) (hd0 : d0 ≠ '/') (w : List Char)
    (hb1 : '/' ∉ w) (hb2 : ':' ∉ w) : CanonNt (ntCoreC ([d0, ':'] ++ [ntSep], w)) := by
  have hok := ntCoreC_ok w true hb1 hb2
  rw [ntCoreC_val ([d0, ':'] ++ [ntSep]) w true rfl (by simp)]
  exact Or.inr (Or.inr (Or.inr (Or.inr (Or.inl ⟨d0, _, hd0, hok, by simp⟩))))

/-- On a slash-free input whose colons appear only at index 1, the
normalization core produces one of the canonical shapes. -/
theorem ntCore_canon (x : List Char) (hsl : '/' ∉ x)
    (hcol : ∀ k, x.get? k = some ':' → k = 1) :
    CanonNt (ntCore x) := by
  unfold ntCore
  by_cases hlen : 2 ≤ x.length
  · by_cases hu : x.take 2 = [ntSep, ntSep] ∧ x.get? 2 ≠ some ntSep
    · -- UNC head
      obtain ⟨t, hxt⟩ := take_two_decomp x ntSep ntSep hu.1
      subst hxt
      have hxc : ':' ∉ ntSep :: ntSep :: t := by
        apply not_colon_all _ hcol
        intro h1
        exact absurd (Option.some.inj h1) (by decide)
      cases hf1 : findFrom ntSep (ntSep :: ntSep :: t) 2 with
      | none =>
        rw [ntSplitdrive_unc_none _ hlen hu hf1]
        rw [ntCoreB_root ([], ntSep :: ntSep :: t) rfl]
        rw [show (([], ntSep :: ntSep :: t) : List Char × List Char).1 ++ [ntSep]
          = [ntSep] from rfl]
        rw [show (([], ntSep :: ntSep :: t) : List Char × List Char).2
          = ntSep :: ntSep :: t from rfl]
        exact canon_rooted _ (not_mem_dropWhile _ _ _ hsl) (not_mem_dropWhile _ _ _ hxc)
      | some i =>
        have hf1b : (t.findIdx? (fun c => decide (c = ntSep))).map (fun m => m + 2)
            = some i := hf1
        obtain ⟨m, hm, hmi⟩ := Option.map_eq_some'.mp hf1b
        obtain ⟨a, c, b, hta, hlena, hfra, hctrue⟩ :=
          findIdx?_decomp (fun c2 => decide (c2 = ntSep)) t m hm
        have hcsep : c = ntSep := of_decide_eq_true hctrue
        subst hcsep
        subst hta
        have hsepa : ntSep ∉ a := by
          intro hmem
          have h2 := hfra ntSep hmem
          simp at h2
        have hane : a ≠ [] := by
          intro he
          subst he
          exact hu.2 rfl
        have hsla : '/' ∉ a := by
          intro hmem
          apply hsl
          simp [hmem]
        have hslb : '/' ∉ b := by
          intro hmem
          apply hsl
          simp [hmem]
        have hi : i = a.length + 2 := by omega
        cases hf2 : findFrom ntSep (ntSep :: ntSep :: a ++ ntSep :: b) (i + 1) with
        | none =>
          rw [ntSplitdrive_unc_one _ i hlen hu hf1 hf2]
          have hb0 : ¬(((ntSep :: ntSep :: (a ++ ntSep :: b), []) :
              List Char × List Char).2.take 1 = [ntSep]) := by
            intro hx
            exact absurd (show ([] : List Char) = [ntSep] from hx) (by decide)
          rw [ntCoreB_plain _ hb0]
          rw [show ((ntSep :: ntSep :: (a ++ ntSep :: b), []) : List Char × List Char).1
            = ntSep :: ntSep :: (a ++ ntSep :: b) from rfl]
          rw [show ((ntSep :: ntSep :: (a ++ ntSep :: b), []) : List Char × List Char).2
            = [] from rfl]
          rw [ntCoreC_stop _ (by simp)]
          have hsepb : ntSep ∉ b := by
            rw [hi] at hf2
            rw [findFrom_after a b] at hf2
            have h3 := Option.map_eq_none'.mp hf2
            intro hmem
            have h4 := List.findIdx?_eq_none_iff.mp h3 ntSep hmem
            simp at h4
          exact Or.inr (Or.inr (Or.inr (Or.inr (Or.inr (Or.inl
            ⟨a, b, hane, hsepa, hsla, hsepb, hslb, rfl⟩)))))
        | some j =>
          by_cases hji : j = i + 1
          · rw [ntSplitdrive_unc_eq _ i j hlen hu hf1 hf2 hji]
            rw [ntCoreB_root ([], ntSep :: ntSep :: (a ++ ntSep :: b)) rfl]
            rw [show (([], ntSep :: ntSep :: (a ++ ntSep :: b)) :
              List Char × List Char).1 ++ [ntSep] = [ntSep] from rfl]
            rw [show (([], ntSep :: ntSep :: (a ++ ntSep :: b)) :
              List Char × List Char).2 = ntSep :: ntSep :: (a ++ ntSep :: b) from rfl]
            exact canon_rooted _ (not_mem_dropWhile _ _ _ hsl) (not_mem_dropWhile _ _ _ hxc)
          · rw [ntSplitdrive_unc _ i j hlen hu hf1 hf2 hji]
            rw [hi] at hf2
            rw [findFrom_after a b] at hf2
            obtain ⟨m2, hm2, hj2⟩ := Option.map_eq_some'.mp hf2
            obtain ⟨b1, c2, b2, htb, hlenb, hfrb, hc2true⟩ :=
              findIdx?_decomp (fun c3 => decide (c3 = ntSep)) b m2 hm2
            have hc2sep : c2 = ntSep := of_decide_eq_true hc2true
            subst hc2sep
            subst htb
            have hsepb1 : ntSep ∉ b1 := by
              intro hmem
              have h2 := hfrb ntSep hmem
              simp at h2
            have hb1ne : b1 ≠ [] := by
              intro he
              apply hji
              subst he
              simp at hlenb
              omega
            have hslb1 : '/' ∉ b1 := by
              intro hmem
              apply hslb
              simp [hmem]
            have hslb2 : '/' ∉ b2 := by
              intro hmem
              apply hslb
              simp [hmem]
            have hcolb2 : ':' ∉ b2 := by
              intro hmem
              apply hxc
              simp [hmem]
            have hflat : ntSep :: ntSep :: (a ++ ntSep :: (b1 ++ ntSep :: b2))
                = (ntSep :: ntSep :: a ++ ntSep :: b1) ++ ntSep :: b2 := by
              simp
            have htake : (ntSep :: ntSep :: (a ++ ntSep :: (b1 ++ ntSep :: b2))).take j
                = ntSep :: ntSep :: a ++ ntSep :: b1 := by
              rw [hflat]
              exact List.take_left' (by simp; omega)
            have hdrop : (ntSep :: ntSep :: (a ++ ntSep :: (b1 ++ ntSep :: b2))).drop j
                = ntSep :: b2 := by
              rw [hflat]
              exact List.drop_left' (by simp; omega)
            rw [htake, hdrop]
            rw [ntCoreB_root (ntSep :: ntSep :: a ++ ntSep :: b1, ntSep :: b2) rfl]
            rw [show ((ntSep :: ntSep :: a ++ ntSep :: b1, ntSep :: b2) :
              List Char × List Char).1 ++ [ntSep]
              = (ntSep :: ntSep :: a ++ ntSep :: b1) ++ [ntSep] from rfl]
            rw [show ((ntSep :: ntSep :: a ++ ntSep :: b1, ntSep :: b2) :
              List Char × List Char).2 = ntSep :: b2 from rfl]
            rw [dropWhile_sep_cons]
            have hpes : decide (((ntSep :: ntSep :: a ++ ntSep :: b1) ++ [ntSep]).getLast?
                = some ntSep) = true := by
              rw [List.getLast?_concat]
              simp
            rw [ntCoreC_val ((ntSep :: ntSep :: a ++ ntSep :: b1) ++ [ntSep]) _ true hpes
              (by simp)]
            have hok := ntCoreC_ok (b2.dropWhile (fun c3 => decide (c3 = ntSep))) true
              (not_mem_dropWhile _ _ _ hslb2) (not_mem_dropWhile _ _ _ hcolb2)
            exact Or.inr (Or.inr (Or.inr (Or.inr (Or.inr (Or.inr
              ⟨a, b1, _, hane, hb1ne, hsepa, hsla, hsepb1, hslb1, hok, by simp⟩)))))
    · by_cases hdr : x.get? 1 = some ':'
      · -- drive letter
        obtain ⟨x0, rest, hxr⟩ := get1_decomp x hdr
        subst hxr
        rw [ntSplitdrive_drive _ hlen hu hdr]
        rw [show (x0 :: ':' :: rest).take 2 = [x0, ':'] from rfl]
        rw [show (x0 :: ':' :: rest).drop 2 = rest from rfl]
        have hd0 : x0 ≠ '/' := by
          intro he
          apply hsl
          rw [← he]
          exact List.mem_cons_self _ _
        have hcrest : ':' ∉ rest := by
          have h2 := not_colon_drop (x0 :: ':' :: rest) hcol 2 (le_refl 2)
          rw [show (x0 :: ':' :: rest).drop 2 = rest from rfl] at h2
          exact h2
        have hsrest : '/' ∉ rest := by
          intro hmem
          apply hsl
          simp [hmem]
        by_cases hroot : rest.take 1 = [ntSep]
        · rw [ntCoreB_root ([x0, ':'], rest) hroot]
          rw [show (([x0, ':'], rest) : List Char × List Char).1 ++ [ntSep]
            = [x0, ':'] ++ [ntSep] from rfl]
          rw [show (([x0, ':'], rest) : List Char × List Char).2 = rest from rfl]
          exact canon_drive_root x0 hd0 _ (not_mem_dropWhile _ _ _ hsrest)
            (not_mem_dropWhile _ _ _ hcrest)
        · rw [ntCoreB_plain ([x0, ':'], rest) hroot]
          exact canon_drive_rel x0 hd0 rest hsrest hcrest
      · -- no drive
        have hxc := not_colon_all x hcol hdr
        rw [ntSplitdrive_nodrive x hlen hu hdr]
        by_cases hroot : x.take 1 = [ntSep]
        · rw [ntCoreB_root ([], x) hroot]
          rw [show (([], x) : List Char × List Char).1 ++ [ntSep] = [ntSep] from rfl]
          rw [show (([], x) : List Char × List Char).2 = x from rfl]
          exact canon_rooted _ (not_mem_dropWhile _ _ _ hsl) (not_mem_dropWhile _ _ _ hxc)
        · rw [ntCoreB_plain ([], x) hroot]
          exact canon_rel x hsl hxc
  · -- short input
    have hxc : ':' ∉ x := by
      apply not_colon_all x hcol
      intro h1
      obtain ⟨hlt, _⟩ := List.get?_eq_some.mp h1
      omega
    rw [ntSplitdrive_short x hlen]
    by_cases hroot : x.take 1 = [ntSep]
    · rw [ntCoreB_root ([], x) hroot]
      rw [show (([], x) : List Char × List Char).1 ++ [ntSep] = [ntSep] from rfl]
      rw [show (([], x) : List Char × List Char).2 = x from rfl]
      exact canon_rooted _ (not_mem_dropWhile _ _ _ hsl) (not_mem_dropWhile _ _ _ hxc)
    · rw [ntCoreB_plain ([], x) hroot]
      exact canon_rel x hsl hxc

theorem CompsOK_lower (pes : Bool) (comps : List (List Char)) (h : CompsOK pes comps) :
    CompsOK pes (comps.map (List.map lowerAscii)) := by
  obtain ⟨hc, k, rest, hsplit, hrest, hk⟩ := h
  constructor
  · intro c hcm
    obtain ⟨c0, hc0, hc0e⟩ := List.mem_map.mp hcm
    obtain ⟨h1, h2, h3, h4, h5⟩ := hc c0 hc0
    subst hc0e
    refine ⟨?_, lower_comp_ne_dot c0 h2, ?_, ?_, ?_⟩
    · intro he
      exact h1 (List.map_eq_nil_iff.mp he)
    · exact not_mem_lower_of ntSep (by decide) c0 h3
    · exact not_mem_lower_of '/' (by decide) c0 h4
    · exact not_mem_lower_of ':' (by decide) c0 h5
  · refine ⟨k, rest.map (List.map lowerAscii), ?_, ?_, hk⟩
    · rw [hsplit, List.map_append, List.map_replicate]
      rw [show List.map lowerAscii dd = dd from rfl]
    · intro c hcm
      obtain ⟨c0, hc0, hc0e⟩ := List.mem_map.mp hcm
      subst hc0e
      exact lower_comp_ne_dd c0 (hrest c0 hc0)

/-- Lowercasing preserves the canonical drive-letter shapes. -/
theorem CanonNt_lower (y : List Char) (h : CanonNt y) : CanonNt (y.map lowerAscii) := by
  have hls : lowerAscii ntSep = ntSep := rfl
  have hlc : lowerAscii ':' = ':' := rfl
  rcases h with h0 | ⟨comps, hne, hok, hy⟩ | ⟨comps, hok, hy⟩ |
    ⟨d0, comps, hd0, hok, hy⟩ | ⟨d0, comps, hd0, hok, hy⟩ |
    ⟨s1, s2, hn1, hm1, hs1, hm2, hs2, hy⟩ |
    ⟨s1, s2, comps, hn1, hn2, hm1, hs1, hm2, hs2, hok, hy⟩
  · subst h0
    exact Or.inl rfl
  · subst hy
    refine Or.inr (Or.inl ⟨comps.map (List.map lowerAscii), ?_,
      CompsOK_lower false comps hok, ?_⟩)
    · intro he
      exact hne (List.map_eq_nil_iff.mp he)
    · exact lower_inter comps
  · subst hy
    refine Or.inr (Or.inr (Or.inl ⟨comps.map (List.map lowerAscii),
      CompsOK_lower true comps hok, ?_⟩))
    simp only [List.map_cons, hls, lower_inter]
  · subst hy
    refine Or.inr (Or.inr (Or.inr (Or.inl ⟨lowerAscii d0, comps.map (List.map lowerAscii),
      ?_, CompsOK_lower false comps hok, ?_⟩)))
    · intro he
      exact hd0 ((lowerAscii_eq_slash d0).mp he)
    · simp only [List.map_cons, hls, hlc, lower_inter]
  · subst hy
    refine Or.inr (Or.inr (Or.inr (Or.inr (Or.inl ⟨lowerAscii d0,
      comps.map (List.map lowerAscii), ?_, CompsOK_lower true comps hok, ?_⟩))))
    · intro he
      exact hd0 ((lowerAscii_eq_slash d0).mp he)
    · simp only [List.map_cons, hls, hlc, lower_inter]
  · subst hy
    refine Or.inr (Or.inr (Or.inr (Or.inr (Or.inr (Or.inl ⟨s1.map lowerAscii,
      s2.map lowerAscii, ?_, ?_, ?_, ?_, ?_, ?_⟩)))))
    · intro he
      exact hn1 (List.map_eq_nil_iff.mp he)
    · exact not_mem_lower_of ntSep (by decide) s1 hm1
    · exact not_mem_lower_of '/' (by decide) s1 hs1
    · exact not_mem_lower_of ntSep (by decide) s2 hm2
    · exact not_mem_lower_of '/' (by decide) s2 hs2
    · simp only [List.map_append, List.map_cons, hls]
  · subst hy
    refine Or.inr (Or.inr (Or.inr (Or.inr (Or.inr (Or.inr ⟨s1.map lowerAscii,
      s2.map lowerAscii, comps.map (List.map lowerAscii), ?_, ?_, ?_, ?_, ?_, ?_,
      CompsOK_lower true comps hok, ?_⟩)))))
    · intro he
      exact hn1 (List.map_eq_nil_iff.mp he)
    · intro he
      exact hn2 (List.map_eq_nil_iff.mp he)
    · exact not_mem_lower_of ntSep (by decide) s1 hm1
    · exact not_mem_lower_of '/' (by decide) s1 hs1
    · exact not_mem_lower_of ntSep (by decide) s2 hm2
    · exact not_mem_lower_of '/' (by decide) s2 hs2
    · simp only [List.map_append, List.map_cons, hls, lower_inter]

theorem slash_not_mem_inter (comps : List (List Char)) (h : ∀ c ∈ comps, '/' ∉ c) :
    '/' ∉ List.intercalate [ntSep] comps := by
  intro hm
  rcases mem_inter comps hm with he | ⟨c, hc, hmc⟩
  · exact absurd he (by decide)
  · exact h c hc hmc

/-- Canonical drive-letter shapes contain no forward slash. -/
theorem CanonNt_slashFree (y : List Char) (h : CanonNt y) : '/' ∉ y := by
  rcases h with h0 | ⟨comps, _, hok, hy⟩ | ⟨comps, hok, hy⟩ |
    ⟨d0, comps, hd0, hok, hy⟩ | ⟨d0, comps, hd0, hok, hy⟩ |
    ⟨s1, s2, _, _, hs1, _, hs2, hy⟩ |
    ⟨s1, s2, comps, _, _, _, hs1, _, hs2, hok, hy⟩
  · subst h0
    decide
  · subst hy
    exact slash_not_mem_inter comps (fun c hc => (hok.1 c hc).2.2.2.1)
  · subst hy
    intro hm
    rcases List.mem_cons.mp hm with he | hm2
    · exact absurd he (by decide)
    · exact slash_not_mem_inter comps (fun c hc => (hok.1 c hc).2.2.2.1) hm2
  · subst hy
    intro hm
    rcases List.mem_cons.mp hm with he | hm2
    · exact hd0 he.symm
    · rcases List.mem_cons.mp hm2 with he | hm3
      · exact absurd he (by decide)
      · exact slash_not_mem_inter comps (fun c hc => (hok.1 c hc).2.2.2.1) hm3
  · subst hy
    intro hm
    rcases List.mem_cons.mp hm with he | hm2
    · exact hd0 he.symm
    · rcases List.mem_cons.mp hm2 with he | hm3
      · exact absurd he (by decide)
      · rcases List.mem_cons.mp hm3 with he | hm4
        · exact absurd he (by decide)
        · exact slash_not_mem_inter comps (fun c hc => (hok.1 c hc).2.2.2.1) hm4
  · subst hy
    intro hm
    rcases List.mem_append.mp hm with hA | hB
    · rcases List.mem_cons.mp hA with he | hA2
      · exact absurd he (by decide)
      · rcases List.mem_cons.mp hA2 with he | hA3
        · exact absurd he (by decide)
        · exact hs1 hA3
    · rcases List.mem_cons.mp hB with he | hB2
      · exact absurd he (by decide)
      · exact hs2 hB2
  · subst hy
    intro hm
    rcases List.mem_append.mp hm with hAB | hC
    · rcases List.mem_append.mp hAB with hA | hB
      · rcases List.mem_cons.mp hA with he | hA2
        · exact absurd he (by decide)
        · rcases List.mem_cons.mp hA2 with he | hA3
          · exact absurd he (by decide)
          · exact hs1 hA3
      · rcases List.mem_cons.mp hB with he | hB2
        · exact absurd he (by decide)
        · exact hs2 hB2
    · rcases List.mem_cons.mp hC with he | hC2
      · exact absurd he (by decide)
      · exact slash_not_mem_inter comps (fun c hc => (hok.1 c hc).2.2.2.1) hC2

theorem colon_pos_back (l : List Char) (hcol : ∀ k, l.get? k = some ':' → k = 1) :
    ∀ k, (l.map (fun c => if c = '/' then ntSep else c)).get? k = some ':' → k = 1 := by
  intro k hk
  rw [List.get?_map] at hk
  cases hl : l.get? k with
  | none =>
    rw [hl] at hk
    exact absurd hk (by simp)
  | some a =>
    rw [hl] at hk
    have ha : (if a = '/' then ntSep else a) = ':' := Option.some.inj hk
    by_cases hs : a = '/'
    · rw [if_pos hs] at ha
      exact absurd ha (by decide)
    · rw [if_neg hs] at ha
      exact hcol k (by rw [hl, ha])

/-- The full drive-letter `normpath` chain (normalize, lowercase, swap
separators to slashes) is idempotent for non-device inputs whose colons
occur only at index 1. -/
theorem ntFull_idem (x : List Char) (hsp : isSpecialNt x = false)
    (hcol : ∀ k, x.get? k = some ':' → k = 1) :
    ((ntNormpath (((ntNormpath x).map lowerAscii).map
        (fun c => if c = ntSep then '/' else c))).map lowerAscii).map
      (fun c => if c = ntSep then '/' else c)
      = ((ntNormpath x).map lowerAscii).map (fun c => if c = ntSep then '/' else c) := by
  have h1 : ntNormpath x = ntCore (x.map (fun c => if c = '/' then ntSep else c)) := by
    rw [ntNormpath_eq_core, hsp, if_neg (by decide)]
  have hcan : CanonNt (ntCore (x.map (fun c => if c = '/' then ntSep else c))) :=
    ntCore_canon _ (slash_not_mem_back x) (colon_pos_back x hcol)
  have hcany : CanonNt ((ntCore (x.map (fun c => if c = '/' then ntSep else c))).map
      lowerAscii) := CanonNt_lower _ hcan
  rw [h1]
  have hspz : isSpecialNt (((ntCore (x.map (fun c => if c = '/' then ntSep else c))).map
      lowerAscii).map (fun c => if c = ntSep then '/' else c)) = false :=
    isSpecialNt_eq_false_of _ (sep_not_mem_fwd _)
  rw [ntNormpath_eq_core, hspz, if_neg (by decide)]
  rw [back_fwd _ (CanonNt_slashFree _ hcany)]
  rw [ntCore_fix _ hcany]
  rw [lower_lower]

theorem mkNormpath_nt_idem (p : String) (hsp : isSpecialNt p.data = false)
    (hcol : ∀ k, p.data.get? k = some ':' → k = 1) :
    mkNormpath true (mkNormpath true p) = mkNormpath true p := by
  show String.mk (((ntNormpath (((ntNormpath p.data).map lowerAscii).map
      (fun c => if c = ntSep then '/' else c))).map lowerAscii).map
      (fun c => if c = ntSep then '/' else c))
    = String.mk (((ntNormpath p.data).map lowerAscii).map
      (fun c => if c = ntSep then '/' else c))
  exact congrArg String.mk (ntFull_idem p.data hsp hcol)

theorem mkNormpath_posix_idem (p : String) :
    mkNormpath false (mkNormpath false p) = mkNormpath false p := by
  show String.mk (posixNormpath (posixNormpath p.data)) = String.mk (posixNormpath p.data)
  exact congrArg String.mk (posixNormpath_idem p.data)

/-- The memo cache of `normpath` returns the same string as a direct
computation whenever every cached entry agrees with `normpath`, and it
preserves that invariant. -/
theorem normpathCached_sound (nt : Bool) (cache : List (String × String)) (p : String)
    (hc : ∀ kv ∈ cache, kv.2 = mkNormpath nt kv.1) :
    (normpathCached nt cache p).1 = mkNormpath nt p ∧
    ∀ kv ∈ (normpathCached nt cache p).2, kv.2 = mkNormpath nt kv.1 := by
  unfold normpathCached lookupCache
  cases hfind : cache.find? (fun kv => decide (kv.fst = p)) with
  | none =>
    constructor
    · rfl
    · intro kv hkv
      have hkv2 : kv ∈ (p, mkNormpath nt p) :: cache := hkv
      rcases List.mem_cons.mp hkv2 with he | hm
      · subst he
        rfl
      · exact hc kv hm
  | some kv0 =>
    have hmem := List.mem_of_find?_eq_some hfind
    have hpred := List.find?_some hfind
    have hkey : kv0.1 = p := of_decide_eq_true hpred
    constructor
    · show kv0.2 = mkNormpath nt p
      rw [hc kv0 hmem, hkey]
    · intro kv hkv
      exact hc kv hkv

/-! ## Claim theorems -/

set_option maxRecDepth 1000000

/-- C2: the rule signature is a deterministic SHA-1 hex digest computed
from exactly the tuple (targets, deps, cwd, cmds, d_file, include_scan):
two rules with equal values of those six fields have equal signatures, and
two rules differing only in order_only_deps, stdout_filter, latency, or
priority have equal signatures. -/
theorem signature_depends_only_on_hashed_fields :
    (∀ r1 r2 : Rule, r1.targets = r2.targets → r1.deps = r2.deps → r1.cwd = r2.cwd →
      r1.cmds = r2.cmds → r1.dFile = r2.dFile → r1.msvcShowIncludes = r2.msvcShowIncludes →
      r1.signature = r2.signature) ∧
    (∀ (r : Rule) (oo : List String) (sf : Option (String → Bool)) (lat pr : Nat),
      Rule.signature
        { r with orderOnlyDeps := oo, stdoutFilter := sf, latency := lat, priority := pr } =
      r.signature) := by
  constructor
  · intro r1 r2 h1 h2 h3 h4 h5 h6
    unfold Rule.signature
    rw [h1, h2, h3, h4, h5, h6]
  · intro r oo sf lat pr
    rfl

theorem signature_depends_only_on_hashed_fields_witness :
    exRuleA.targets = exRuleB.targets ∧ exRuleA.signature = exRuleB.signature :=
  ⟨rfl, signature_depends_only_on_hashed_fields.1 exRuleA exRuleB rfl rfl rfl rfl rfl rfl⟩

/-- C9 counterexample: the goal check of `main` rejects a requested
target that has no rule even when it exists on disk (`/x` exists in
`exFs9`, no rule is registered, and the check still fails), contradicting
the claim that a goal existing on disk is not rejected at this stage. -/
theorem unknown_goal_counterexample :
    (firstUnknownGoal [] ["/x"]).isSome = true ∧ (exFs9.entries "/x").isSome = true :=
  ⟨rfl, rfl⟩

/-- C9 (amended): the build fails at the pre-scheduling goal check, with
exit code 1, exactly when some requested goal target is not a registered
target of any rule; presence on disk is not consulted. -/
theorem unknown_goal_iff (rules : List Rule) (goals : List String) :
    (firstUnknownGoal rules goals).isSome = true ↔ ∃ g ∈ goals, ruleOf rules g = none := by
  simp [firstUnknownGoal, List.find?_isSome, Option.isNone_iff_eq_none]

/-- C8 counterexample: a relative (though canonical, whitespace-free and
backslash-free) dependency path does not survive the write-read round
trip: the reader rejoins it with the rule directory. -/
theorem dfile_roundtrip_counterexample :
    parseDFile false "/c" (writeDFile "/t" ["a"]) = some ["/c/a"] ∧
      some ["/c/a"] ≠ some (sortedDedup ["a"]) := by
  constructor
  · decide
  · decide

/-- C1 counterexample: for a two-target rule that is fully up to date,
walking `/x` marks only `/x` completed; the sibling target `/y` of the
same rule is not marked, so the walk does not mark "the rule's targets"
completed as the claim states. -/
theorem walk_marks_only_walked_target :
    (build false true false false 0 [exRule2T] (fun _ => 0) (fun _ => []) 2 "/x"
        (initSt exFs2T exDb2T)).completed = ["/x"] ∧
      (build false true false false 0 [exRule2T] (fun _ => 0) (fun _ => []) 2 "/x"
        (initSt exFs2T exDb2T)).dispatched = [] ∧
      "/y" ∈ exRule2T.targets ∧
      "/y" ∉ (build false true false false 0 [exRule2T] (fun _ => 0) (fun _ => []) 2 "/x"
        (initSt exFs2T exDb2T)).completed := by
  refine ⟨by decide, by decide, by decide, by decide⟩

/-- C1 (amended): for a rule whose declared, discovered and order-only
prerequisites are all completed, whose declared prerequisites exist, and
whose walked target has not yet been visited, completed or enqueued, the
walk marks the walked target completed without dispatching the rule if
and only if every target exists (minimum target mtime at least 0), no
declared prerequisite is newer than the oldest target, every discovered
prerequisite exists and is not newer, and every target's stored signature
equals the rule's current signature; otherwise the rule is dispatched.
Order-only prerequisites (and the other non-hashed rule fields) never
enter the timestamp or signature comparison. -/
theorem walk_up_to_date_skip_iff (nt v pg : Bool) (cols : Nat) (rules : List Rule)
    (prio : Nat → Nat) (oracle : Nat → List CmdResult) (fuel : Nat) (target : String)
    (s : St) (i : Nat) (r : Rule) (dfDeps : List String)
    (hab : s.aborted = false) (hnv : target ∉ s.visited) (hnc : target ∉ s.completed)
    (hne : target ∉ s.enqueued)
    (hro : ruleOf rules target = some i) (hgr : rules.get? i = some r)
    (htm : target ∈ r.targets)
    (hdf : dfDepsOf nt s.fs r = some dfDeps)
    (hcomp : ∀ d ∈ depsOf nt r ++ dfDeps ++ r.orderOnlyDeps, d ∈ s.completed)
    (hex : ∀ d ∈ depsOf nt r, 0 ≤ s.fs.mtime d) :
    (upToDate r s.fs s.db (depsOf nt r) dfDeps = true ↔
      (0 ≤ minTs (r.targets.map s.fs.mtime) ∧
       (∀ d ∈ depsOf nt r, s.fs.mtime d ≤ minTs (r.targets.map s.fs.mtime)) ∧
       (∀ d ∈ dfDeps, 0 ≤ s.fs.mtime d ∧ s.fs.mtime d ≤ minTs (r.targets.map s.fs.mtime)) ∧
       (∀ t ∈ r.targets, s.db r.cwd t = some r.signature))) ∧
    (0 ≤ minTs (r.targets.map s.fs.mtime) ↔ ∀ t ∈ r.targets, 0 ≤ s.fs.mtime t) ∧
    (upToDate r s.fs s.db (depsOf nt r) dfDeps = true →
      (build nt true v pg cols rules prio oracle (fuel + 1) target s).completed
          = s.completed ++ [target] ∧
      (build nt true v pg cols rules prio oracle (fuel + 1) target s).dispatched
          = s.dispatched ∧
      (build nt true v pg cols rules prio oracle (fuel + 1) target s).queue = s.queue ∧
      (build nt true v pg cols rules prio oracle (fuel + 1) target s).executed
          = s.executed ∧
      (build nt true v pg cols rules prio oracle (fuel + 1) target s).aborted = false) ∧
    (upToDate r s.fs s.db (depsOf nt r) dfDeps = false →
      (build nt true v pg cols rules prio oracle (fuel + 1) target s).dispatched
          = s.dispatched ++ [i] ∧
      (build nt true v pg cols rules prio oracle (fuel + 1) target s).completed
          = s.completed ∧
      (build nt true v pg cols rules prio oracle (fuel + 1) target s).aborted = false) ∧
    (∀ oo (sf : Option (String → Bool)) (lat pr : Nat),
      upToDate { r with orderOnlyDeps := oo, stdoutFilter := sf, latency := lat, priority := pr }
          s.fs s.db (depsOf nt r) dfDeps
        = upToDate r s.fs s.db (depsOf nt r) dfDeps) := by
  have hred := build_reaches_decision nt true v pg cols rules prio oracle fuel target s i r
    dfDeps hab hnv hnc hro hgr hne hdf hcomp
  have hnonempty : r.targets ≠ [] := fun h => by rw [h] at htm; exact absurd htm (List.not_mem_nil target)
  have hfind : (depsOf nt r).find? (fun d => decide (s.fs.mtime d < 0)) = none := by
    rw [List.find?_eq_none]
    intro d hd
    simp only [decide_eq_true_eq, not_lt]
    exact hex d hd
  refine ⟨upToDate_eq_true_iff r s.fs s.db (depsOf nt r) dfDeps,
    le_minTs_iff (r.targets.map s.fs.mtime) (by simpa using hnonempty) 0 |>.trans (by simp),
    ?_, ?_, fun oo sf lat pr => rfl⟩
  · intro hu
    rw [hred]
    unfold oracleStep
    rw [if_neg hnonempty]
    simp only [hfind]
    rw [if_pos hu]
    exact ⟨rfl, rfl, rfl, rfl, hab⟩
  · intro hu
    rw [hred]
    unfold oracleStep
    rw [if_neg hnonempty]
    simp only [hfind]
    rw [if_neg (by rw [hu]; exact Bool.false_ne_true)]
    exact ⟨rfl, rfl, hab⟩

theorem walk_up_to_date_skip_iff_witness :
    ("/x" ∉ (initSt exFs2T exDb2T).completed) ∧
    (∀ oo (sf : Option (String → Bool)) (lat pr : Nat),
      upToDate
          { exRule2T with orderOnlyDeps := oo, stdoutFilter := sf, latency := lat, priority := pr }
          exFs2T exDb2T (depsOf false exRule2T) []
        = upToDate exRule2T exFs2T exDb2T (depsOf false exRule2T) []) :=
  ⟨by decide,
    (walk_up_to_date_skip_iff false false false 0 [exRule2T] (fun _ => 0) (fun _ => []) 1 "/x"
      (initSt exFs2T exDb2T) 0 exRule2T [] rfl (by decide) (by decide) (by decide) (by decide)
      rfl (by decide) rfl (by decide) (by decide)).2.2.2.2⟩

/-- C7: at the decision point of the walk, a declared prerequisite that
does not exist on disk makes the whole build fail (abort with the
nonexistent-dependency error and the error flag set, so the process exits
with code 1) without dispatching the rule, whereas a missing discovered
(sidecar) prerequisite is not an error: the rule is dispatched for
rebuild. -/
theorem missing_dep_fatal_vs_discovered (nt v pg : Bool) (cols : Nat) (rules : List Rule)
    (prio : Nat → Nat) (oracle : Nat → List CmdResult) (fuel : Nat) (target : String)
    (s : St) (i : Nat) (r : Rule) (dfDeps : List String)
    (hab : s.aborted = false) (hnv : target ∉ s.visited) (hnc : target ∉ s.completed)
    (hne : target ∉ s.enqueued)
    (hro : ruleOf rules target = some i) (hgr : rules.get? i = some r)
    (htm : target ∈ r.targets)
    (hdf : dfDepsOf nt s.fs r = some dfDeps)
    (hcomp : ∀ d ∈ depsOf nt r ++ dfDeps ++ r.orderOnlyDeps, d ∈ s.completed) :
    ((∃ d ∈ depsOf nt r, s.fs.mtime d < 0) →
      (build nt true v pg cols rules prio oracle (fuel + 1) target s).aborted = true ∧
      (build nt true v pg cols rules prio oracle (fuel + 1) target s).anyErrors = true ∧
      (build nt true v pg cols rules prio oracle (fuel + 1) target s).dispatched
          = s.dispatched ∧
      (build nt true v pg cols rules prio oracle (fuel + 1) target s).executed = s.executed ∧
      (∃ d ∈ depsOf nt r, s.fs.mtime d < 0 ∧
        (build nt true v pg cols rules prio oracle (fuel + 1) target s).stdoutLog
          = s.stdoutLog ++ [missingDepMsg pg cols r d])) ∧
    ((∀ d ∈ depsOf nt r, 0 ≤ s.fs.mtime d) → (∃ d ∈ dfDeps, s.fs.mtime d < 0) →
      (build nt true v pg cols rules prio oracle (fuel + 1) target s).aborted = false ∧
      (build nt true v pg cols rules prio oracle (fuel + 1) target s).anyErrors
          = s.anyErrors ∧
      (build nt true v pg cols rules prio oracle (fuel + 1) target s).dispatched
          = s.dispatched ++ [i]) := by
  have hred := build_reaches_decision nt true v pg cols rules prio oracle fuel target s i r
    dfDeps hab hnv hnc hro hgr hne hdf hcomp
  have hnonempty : r.targets ≠ [] := fun h => by rw [h] at htm; exact absurd htm (List.not_mem_nil target)
  constructor
  · intro hmiss
    rw [hred]
    unfold oracleStep
    rw [if_neg hnonempty]
    match hfind : (depsOf nt r).find? (fun d => decide (s.fs.mtime d < 0)) with
    | some d =>
      have hd := List.find?_some hfind
      have hdm := List.mem_of_find?_eq_some hfind
      simp only [decide_eq_true_eq] at hd
      exact ⟨rfl, rfl, rfl, rfl, d, hdm, hd, rfl⟩
    | none =>
      obtain ⟨d, hdm, hdlt⟩ := hmiss
      rw [List.find?_eq_none] at hfind
      exact absurd hdlt (by simpa using hfind d hdm)
  · intro hex hdfmiss
    rw [hred]
    unfold oracleStep
    rw [if_neg hnonempty]
    have hfind : (depsOf nt r).find? (fun d => decide (s.fs.mtime d < 0)) = none := by
      rw [List.find?_eq_none]
      intro d hd
      simp only [decide_eq_true_eq, not_lt]
      exact hex d hd
    simp only [hfind]
    have hu : upToDate r s.fs s.db (depsOf nt r) dfDeps = false := by
      obtain ⟨d, hdm, hdlt⟩ := hdfmiss
      simp only [upToDate, Bool.and_eq_false_iff]
      refine Or.inl (Or.inr ?_)
      simp only [List.all_eq_false]
      exact ⟨d, hdm, by simp only [decide_eq_true_eq]; intro h; exact absurd h.1 (not_le.mpr hdlt)⟩
    rw [if_neg (by rw [hu]; exact Bool.false_ne_true)]
    exact ⟨hab, rfl, rfl⟩

theorem missing_dep_fatal_vs_discovered_witness :
    ((⟨fun _ => none⟩ : FS).mtime "/missing" < 0) ∧
    (build false false false false 0 [exRuleMiss] (fun _ => 0) (fun _ => []) 1 "/t"
        exStMiss).aborted = true :=
  ⟨by decide,
    ((missing_dep_fatal_vs_discovered false false false 0 [exRuleMiss] (fun _ => 0)
      (fun _ => []) 0 "/t" exStMiss 0 exRuleMiss [] rfl (by decide) (by decide) (by decide)
      (by decide) rfl (by decide) rfl (by decide)).1
      ⟨"/missing", by decide, by decide⟩).1⟩

/-- C6: with include_scan set, one command's captured output is
transformed as follows.  With a sidecar path and exactly one target `t0`,
the step writes to the sidecar the text `t0: \` followed by one indented
`  dep \` line per sorted, deduplicated collected dependency and a blank
line, where the collected dependencies are exactly the canonicalized
regex payloads whose canonical form does not start with the system
include prefix; the printed output keeps exactly the non-matching lines,
and is suppressed entirely when exactly one non-matching line remains.
A rule with an include scan and not exactly one target fails its
assertion (modelled as `none`). -/
theorem include_scan_output (nt : Bool) (r : Rule) (outRaw : String) (fs2 : FS)
    (df t0 : String) (hdf : r.dFile = some df) (ht : r.targets = [t0]) :
    (includeScanStep nt r outRaw fs2 =
      some
        ((if ((pySplitLines outRaw.data).filter (fun l => (matchInclude l).isNone)).length = 1
          then ""
          else String.mk (List.intercalate ['\n']
            ((pySplitLines outRaw.data).filter (fun l => (matchInclude l).isNone)))),
         fs2.write df (writeDFile t0 (scanDeps nt (pySplitLines outRaw.data)).1))) ∧
    ((writeDFile t0 (scanDeps nt (pySplitLines outRaw.data)).1).data =
      (t0.data ++ [':', ' ']) ++ '\\' :: '\n' ::
        (((sortedDedup (scanDeps nt (pySplitLines outRaw.data)).1).map
          (fun d => [' ', ' '] ++ d.data ++ [' ', '\\', '\n'])).flatten ++ ['\n'])) ∧
    List.Sorted (· < ·) (sortedDedup (scanDeps nt (pySplitLines outRaw.data)).1) ∧
    (sortedDedup (scanDeps nt (pySplitLines outRaw.data)).1).Nodup ∧
    (∀ d, d ∈ sortedDedup (scanDeps nt (pySplitLines outRaw.data)).1 ↔
      ∃ l ∈ pySplitLines outRaw.data, ∃ p, matchInclude l = some p ∧
        mkNormpath nt (String.mk p) = d ∧ ¬(d.data.take 16 = pfPfx)) ∧
    (∀ (r2 : Rule) (o : String) (g : FS), r2.targets.length ≠ 1 →
      includeScanStep nt r2 o g = none) := by
  refine ⟨?_, writeDFile_data t0 _, sortedDedup_sorted _, sortedDedup_nodup _, ?_, ?_⟩
  · unfold includeScanStep
    rw [hdf, ht]
    simp [scanDeps_snd]
  · intro d
    rw [mem_sortedDedup_iff, scanDeps_fst_mem]
  · intro r2 o g hlen
    unfold includeScanStep
    cases hdf2 : r2.dFile with
    | none => rfl
    | some df2 =>
      simp only
      rw [if_neg hlen]

theorem include_scan_output_witness :
    (exRuleScan.targets = ["/o"]) ∧
    (∀ (r2 : Rule) (o : String) (g : FS), r2.targets.length ≠ 1 →
      includeScanStep false r2 o g = none) :=
  ⟨rfl,
    (include_scan_output false exRuleScan "" ⟨fun _ => none⟩ "/o.d" "/o" rfl rfl).2.2.2.2.2⟩

/-- C5: within a single build invocation a rule is never dispatched more
than once.  In parallel mode, along any interleaving of walk passes (each
of which clears `visited`) and worker-thread queue pops, starting from
the pristine state, the trace of queue insertions never repeats a rule;
in serial mode, the trace of inline `run_cmd` executions never repeats a
rule.  Both require the rule registry to be well-formed (every rule has a
target, no target is claimed by two rules), which `add_rule` enforces at
load time. -/
theorem rule_dispatched_at_most_once (nt v pg : Bool) (cols : Nat) (rules : List Rule)
    (prio : Nat → Nat) (oracle : Nat → List CmdResult) (goals : List String)
    (fuel : Nat) (events : List Ev) (fs : FS) (db : String → String → Option String)
    (hwf : WFRules rules) :
    (runEvents nt v pg cols rules prio oracle goals fuel events
      (initSt fs db)).dispatched.Nodup ∧
    (serialRun nt v pg cols rules prio oracle goals fuel (initSt fs db)).executed.Nodup := by
  constructor
  · have h0 : DispatchInv rules (initSt fs db) :=
      ⟨List.nodup_nil, fun i hi => absurd hi (List.not_mem_nil i),
       fun t ht => absurd ht (List.not_mem_nil t)⟩
    exact (runEvents_inv nt v pg cols rules prio oracle goals fuel hwf events
      (initSt fs db) h0).1
  · have h0 : ExecInv rules (initSt fs db) :=
      ⟨List.nodup_nil, fun i hi => absurd hi (List.not_mem_nil i)⟩
    exact (EConcl_foldl rules (fun g => build nt false v pg cols rules prio oracle fuel g)
      goals (fun g _ s0 hs0 => buildS_inv nt v pg cols rules prio oracle fuel g s0 hs0)
      (initSt fs db) h0).1.1

/-- C4, counterexample to the unconditional claim: with a zero-latency
goal rule, `propagate_latencies` prunes immediately (`latency <=
rule.priority` holds as `0 <= 0`), so the downstream rule keeps
priority 0 even though the goal path through it has latency sum 3. -/
theorem propagate_latencies_counterexample :
    goalPath false [exRuleLat0, exRuleLat3] ["/a"] [0, 1] ∧
    List.getLast? [0, 1] = some 1 ∧
    runPropagate false [exRuleLat0, exRuleLat3] 5 ["/a"] 1 = 0 ∧
    pathSum [exRuleLat0, exRuleLat3] [0, 1] = 3 := by
  refine ⟨⟨⟨?_, trivial⟩, ⟨"/a", ?_, ?_⟩, ?_⟩, ?_, ?_, ?_⟩
  · decide
  · decide
  · decide
  · decide
  · decide
  · decide
  · decide

/-- C4 (amended): under strictly positive latencies, an acyclic
dependency graph (witnessed by a height function decreasing along
dependency edges) and enough fuel for the source recursion to terminate,
after `propagate_latencies(g, 0)` has run for every requested goal the
priority overlay at every rule equals the maximum latency sum over goal
paths ending at that rule: every goal path sum is a lower bound, and
every nonzero priority is attained by some goal path (so rules on no
goal path keep priority 0).  Without positive latencies the early-return
pruning loses downstream priorities (see the counterexample). -/
theorem propagate_latencies_critical_path (nt : Bool) (rules : List Rule)
    (goals : List String) (fuel : Nat) (bv : Nat → Nat)
    (hlat : ∀ r ∈ rules, 0 < r.latency)
    (hacy : ∀ i j, j ∈ succs nt rules i → bv j < bv i)
    (hfuel : ∀ i, i < rules.length → bv i < fuel) :
    ∀ j, (∀ p, goalPath nt rules goals p → p.getLast? = some j →
            pathSum rules p ≤ runPropagate nt rules fuel goals j) ∧
         (runPropagate nt rules fuel goals j ≠ 0 →
           ∃ p, goalPath nt rules goals p ∧ p.getLast? = some j ∧
             pathSum rules p = runPropagate nt rules fuel goals j) := by
  have hCE0 : CoherentExcept nt rules [] (fun _ => 0) := by
    intro i _ h0 j _
    exact absurd rfl h0
  have hrp := runPropagate_coherent nt rules bv hacy fuel hfuel goals (fun _ => 0) hCE0
  have hsnd : SoundPr nt rules goals (runPropagate nt rules fuel goals) :=
    runPropagate_sound nt rules goals fuel goals (fun _ => 0)
      (fun g hg => hg) (fun k hk => absurd rfl hk)
  intro j
  constructor
  · intro p hgp hlast
    obtain ⟨hch, ⟨g, hg, hhead⟩, hne⟩ := hgp
    cases p with
    | nil => exact absurd rfl hne
    | cons i0 rest =>
      have hro : ruleOf rules g = some i0 := hhead
      have hgd : latOf rules i0 ≤ runPropagate nt rules fuel goals i0 :=
        hrp.2 g hg i0 hro
      have hpos : 0 < latOf rules i0 := by
        obtain ⟨r, hgr, _⟩ := ruleOf_get hro
        rw [latOf_eq rules i0 r hgr]
        obtain ⟨hlt, he⟩ := List.get?_eq_some.mp hgr
        exact hlat r (he ▸ List.get_mem rules i0 hlt)
      have hne0 : runPropagate nt rules fuel goals i0 ≠ 0 :=
        Nat.pos_iff_ne_zero.mp (lt_of_lt_of_le hpos hgd)
      have htel := coherent_telescope nt rules (runPropagate nt rules fuel goals) hrp.1
        rest i0 hch hne0 j hlast
      rw [pathSum_cons]
      calc latOf rules i0 + pathSum rules rest
          ≤ runPropagate nt rules fuel goals i0 + pathSum rules rest :=
            Nat.add_le_add_right hgd _
        _ ≤ runPropagate nt rules fuel goals j := htel
  · intro hnz
    exact hsnd j hnz

theorem propagate_latencies_critical_path_witness :
    (∀ r ∈ [exRuleLat], 0 < r.latency) ∧
    (∀ p, goalPath false [exRuleLat] ["/a"] p → p.getLast? = some 0 →
      pathSum [exRuleLat] p ≤ runPropagate false [exRuleLat] 1 ["/a"] 0) ∧
    (runPropagate false [exRuleLat] 1 ["/a"] 0 ≠ 0 →
      ∃ p, goalPath false [exRuleLat] ["/a"] p ∧ p.getLast? = some 0 ∧
        pathSum [exRuleLat] p = runPropagate false [exRuleLat] 1 ["/a"] 0) := by
  have hsuccs : ∀ i, succs false [exRuleLat] i = [] := by
    intro i
    cases i with
    | zero => rfl
    | succ m => rfl
  have hlat : ∀ r ∈ [exRuleLat], 0 < r.latency := by
    intro r hr
    rw [List.mem_singleton] at hr
    subst hr
    decide
  have h := propagate_latencies_critical_path false [exRuleLat] ["/a"] 1 (fun _ => 0)
    hlat (fun i j hj => absurd (hsuccs i ▸ hj) (List.not_mem_nil j))
    (fun i _ => Nat.zero_lt_one) 0
  exact ⟨hlat, h.1, h.2⟩

theorem rule_dispatched_at_most_once_witness :
    WFRules [exRuleA] ∧
    ((runEvents false false false 80 [exRuleA] (fun _ => 0) (fun _ => [])
        ["/src/_out/a.o"] 3 [Ev.pass, Ev.work 0, Ev.pass]
        (initSt ⟨fun _ => none⟩ (fun _ _ => none))).dispatched.Nodup ∧
     (serialRun false false false 80 [exRuleA] (fun _ => 0) (fun _ => [])
        ["/src/_out/a.o"] 3
        (initSt ⟨fun _ => none⟩ (fun _ _ => none))).executed.Nodup) := by
  have hwf : WFRules [exRuleA] :=
    ⟨fun r hr => by rw [List.mem_singleton] at hr; subst hr; exact List.cons_ne_nil _ _,
     List.Pairwise.cons (fun b hb => absurd hb (List.not_mem_nil b)) List.Pairwise.nil⟩
  exact ⟨hwf, rule_dispatched_at_most_once false false false 80 [exRuleA] (fun _ => 0)
    (fun _ => []) ["/src/_out/a.o"] 3 [Ev.pass, Ev.work 0, Ev.pass] ⟨fun _ => none⟩
    (fun _ _ => none) hwf⟩

/-- C10, counterexample: on the drive-letter platform `normpath` is not
idempotent for a device path: the special-prefix check leaves
backslash-backslash-question-backslash paths untouched on the first pass,
but the final backslash-to-slash replacement destroys the special prefix,
so the second pass normalizes (here collapsing the inner `..`). -/
theorem normpath_not_idempotent :
    mkNormpath true (mkNormpath true
        (String.mk ['\\', '\\', '?', '\\', 'f', '\\', '.', '.', '\\', 'b']))
      ≠ mkNormpath true
        (String.mk ['\\', '\\', '?', '\\', 'f', '\\', '.', '.', '\\', 'b']) := by
  decide

/-- C10, amended: the path canonicalizer is deterministic and idempotent
except on drive-letter device paths and misplaced colons: `normpath` on
the POSIX platform is idempotent for every input; on the drive-letter
platform it is idempotent for every input that is not a device path
(special prefix) and whose colons occur only as the drive separator at
index 1; and the memoized `normpath` returns exactly the direct
computation and preserves its cache invariant, so repeated calls return
the same string. -/
theorem normpath_idempotent_corrected :
    (∀ p : String, mkNormpath false (mkNormpath false p) = mkNormpath false p) ∧
    (∀ p : String, isSpecialNt p.data = false →
      (∀ k, p.data.get? k = some ':' → k = 1) →
      mkNormpath true (mkNormpath true p) = mkNormpath true p) ∧
    (∀ (nt : Bool) (cache : List (String × String)) (p : String),
      (∀ kv ∈ cache, kv.2 = mkNormpath nt kv.1) →
      (normpathCached nt cache p).1 = mkNormpath nt p ∧
      ∀ kv ∈ (normpathCached nt cache p).2, kv.2 = mkNormpath nt kv.1) :=
  ⟨mkNormpath_posix_idem, mkNormpath_nt_idem, normpathCached_sound⟩

theorem normpath_idempotent_corrected_witness :
    isSpecialNt (String.mk ['a', '\\', 'b', '\\', '.', '.', '\\', 'c']).data = false ∧
    mkNormpath true (mkNormpath true
        (String.mk ['a', '\\', 'b', '\\', '.', '.', '\\', 'c']))
      = mkNormpath true (String.mk ['a', '\\', 'b', '\\', '.', '.', '\\', 'c']) ∧
    mkNormpath false (mkNormpath false (String.mk ['/', 'a', '/', '/', 'b', '/', '.']))
      = mkNormpath false (String.mk ['/', 'a', '/', '/', 'b', '/', '.']) ∧
    (normpathCached false [] (String.mk ['/', 'a', '/', '/', 'b', '/', '.'])).1
      = mkNormpath false (String.mk ['/', 'a', '/', '/', 'b', '/', '.']) :=
  ⟨by decide,
   normpath_idempotent_corrected.2.1
     (String.mk ['a', '\\', 'b', '\\', '.', '.', '\\', 'c']) (by decide)
     (fun _ hk => absurd (List.get?_mem hk) (by decide)),
   normpath_idempotent_corrected.1 (String.mk ['/', 'a', '/', '/', 'b', '/', '.']),
   (normpath_idempotent_corrected.2.2 false []
     (String.mk ['/', 'a', '/', '/', 'b', '/', '.'])
     (fun kv hkv => absurd hkv (List.not_mem_nil kv))).1⟩

end MakePy
